import Mathlib

/-!
# go-cache: the refresh / eviction protocol of the four containers

Shallow embedding of `utils.go`, `list.go`, `map.go`, `set.go` and `store.go`.

Modelling conventions.

* Clock readings (`time.Now().Unix()`, `next.Unix()`) are explicit `Int`
  arguments.  `expire` is the container's ttl in seconds, as stored by the
  constructors.  Timestamps are Unix seconds and the ttl comes from a
  `time.Duration`, so the sums and differences the code forms stay far inside
  `int64`; they are modelled by the same operations on `Int`.  A `Build` call
  reads the clock for its gate and, on the synchronous paths, again inside
  `build`; both readings are the argument `now`.  Goroutines and racing
  locked sections take their own reading.
* The source is an external, possibly stateful builder.  It is a function of
  the number of earlier invocations; `nil` results are `none`.  Every
  container carries a ghost field `calls` recording the invocations made so
  far (latest first), which is also what numbers the next invocation.
* A Go map is an association list with distinct keys (`AList`); Go's
  iteration order is unspecified and the model iterates in list order.
* `go func() { ... }()` is returned to the caller as a pending task; running
  it later is a separate function taking its own clock reading.  Locks are
  not modelled: every function below is one critical section or a sequential
  composition of them; `Store.GetInterleaved` is `Store.Get` with a critical
  section of another goroutine between two of its own.
* `*storeEelment` is an address into an explicit heap of units.
-/

namespace GoCache

/-! ## utils.go -/

/-- Pre-build window derived from the ttl (`prebuildDuration`); Go's `/` on
`int64` truncates toward zero. -/
def prebuildDuration (expire : Int) : Int :=
  let duration := Int.tdiv expire 10
  if duration < 1 then 1 else duration

/-- Value of `len(force) > 0 && force[0]` for a variadic `force ...bool`. -/
def forced (force : List Bool) : Bool :=
  match force with
  | [] => false
  | f :: _ => f

/-! ## list.go -/

/-- List cache: `cache`, `expiredAt`, `expire`, `source` as in the Go struct,
plus the ghost invocation record `calls`. -/
structure ListCache (V : Type) where
  cache : List V
  expiredAt : Int
  expire : Int
  source : Nat → Option (List V)
  calls : List Int

namespace ListCache

variable {V : Type}

/-- State built by `NewList(source, expire)`; `expire` is already in seconds. -/
def NewList (source : Nat → Option (List V)) (expire : Int) : ListCache V :=
  { cache := [], expiredAt := 0, expire := expire, source := source, calls := [] }

/-- One tick of `List.check` at tick time `next`. -/
def check (next : Int) (s : ListCache V) : ListCache V :=
  if s.expiredAt ≤ next then { s with cache := [] } else s

/-- Rebuild procedure `List.build`, with `now` the clock reading it takes. -/
def build (now : Int) (s : ListCache V) : ListCache V :=
  let slice := s.source s.calls.length
  let s := { s with calls := now :: s.calls }
  let s := match slice with
    | some sl => { s with cache := sl }
    | none => s
  { s with expiredAt := now + s.expire }

/-- Locked section `if exp == s.expiredAt { s.build() }`. -/
def lockedRebuild (exp now : Int) (s : ListCache V) : ListCache V :=
  if exp = s.expiredAt then s.build now else s

/-- `List.Build`: the state when the call returns and, when a goroutine was
spawned, the snapshot `exp` it captured. -/
def Build (force : List Bool) (now : Int) (s : ListCache V) : ListCache V × Option Int :=
  if forced force then (s.build now, none)
  else
    let exp := s.expiredAt
    if exp ≤ now then (s.lockedRebuild exp now, none)
    else
      let preduration := prebuildDuration s.expire
      if exp - now ≤ preduration then (s, some exp)
      else (s, none)

/-- Body of the goroutine spawned by `Build`, run at clock reading `now`. -/
def detached (exp now : Int) (s : ListCache V) : ListCache V :=
  s.lockedRebuild exp now

/-- `List.Get`: the slice returned, the state, the pending goroutine. -/
def Get (now : Int) (s : ListCache V) : List V × ListCache V × Option Int :=
  let r := s.Build [] now
  (r.1.cache, r.1, r.2)

/-- `List.Copy`. -/
def Copy (now : Int) (s : ListCache V) : List V × ListCache V × Option Int :=
  let r := s.Build [] now
  (r.1.cache, r.1, r.2)

/-- `List.Length`. -/
def Length (s : ListCache V) : Nat := s.cache.length

end ListCache

/-! ## map.go -/

/-- Go `map[interface{}]interface{}`. -/
abbrev GoMap (K V : Type) := AList (fun _ : K => V)

/-- Map cache. -/
structure MapCache (K V : Type) where
  cache : GoMap K V
  expiredAt : Int
  expire : Int
  source : Nat → Option (GoMap K V)
  calls : List Int

namespace MapCache

variable {K V : Type} [DecidableEq K]

/-- State built by `NewMap(source, expire)`. -/
def NewMap (source : Nat → Option (GoMap K V)) (expire : Int) : MapCache K V :=
  { cache := ∅, expiredAt := 0, expire := expire, source := source, calls := [] }

/-- One tick of `Map.check` at tick time `next`. -/
def check (next : Int) (m : MapCache K V) : MapCache K V :=
  if m.expiredAt ≤ next then { m with cache := ∅ } else m

/-- Copy loop of `Map.build`: a fresh map receiving every pair of `maps`. -/
def copyMap (maps : GoMap K V) : GoMap K V :=
  maps.entries.foldl (fun c kv => c.insert kv.1 kv.2) ∅

/-- Rebuild procedure `Map.build`. -/
def build (now : Int) (m : MapCache K V) : MapCache K V :=
  let maps := m.source m.calls.length
  let m := { m with calls := now :: m.calls }
  let m := match maps with
    | some mp => { m with cache := copyMap mp }
    | none => m
  { m with expiredAt := now + m.expire }

/-- Locked section `if exp == m.expiredAt { m.build() }`. -/
def lockedRebuild (exp now : Int) (m : MapCache K V) : MapCache K V :=
  if exp = m.expiredAt then m.build now else m

/-- `Map.Build`. -/
def Build (force : List Bool) (now : Int) (m : MapCache K V) : MapCache K V × Option Int :=
  if forced force then (m.build now, none)
  else
    let exp := m.expiredAt
    if exp ≤ now then (m.lockedRebuild exp now, none)
    else
      let preduration := prebuildDuration m.expire
      if exp - now ≤ preduration then (m, some exp)
      else (m, none)

/-- Body of the goroutine spawned by `Build`. -/
def detached (exp now : Int) (m : MapCache K V) : MapCache K V :=
  m.lockedRebuild exp now

/-- `Map.Get`: `some v` stands for `(v, true)`, `none` for `(nil, false)`. -/
def Get (key : K) (now : Int) (m : MapCache K V) : Option V × MapCache K V × Option Int :=
  let r := m.Build [] now
  (r.1.cache.lookup key, r.1, r.2)

/-- `Map.Size`. -/
def Size (m : MapCache K V) : Nat := m.cache.entries.length

/-- `Map.Set`. -/
def Set (key : K) (val : V) (m : MapCache K V) : MapCache K V :=
  { m with cache := m.cache.insert key val }

/-- `Map.Delete`. -/
def Delete (key : K) (m : MapCache K V) : MapCache K V :=
  { m with cache := m.cache.erase key }

end MapCache

/-! ## set.go -/

/-- Go `map[interface{}]struct{}`. -/
abbrev GoSet (K : Type) := AList (fun _ : K => Unit)

/-- Set cache. -/
structure SetCache (K : Type) where
  cache : GoSet K
  expiredAt : Int
  expire : Int
  source : Nat → Option (List K)
  calls : List Int

namespace SetCache

variable {K : Type} [DecidableEq K]

/-- State built by `NewSet(source, expire)`. -/
def NewSet (source : Nat → Option (List K)) (expire : Int) : SetCache K :=
  { cache := ∅, expiredAt := 0, expire := expire, source := source, calls := [] }

/-- One tick of `Set.check` at tick time `next`. -/
def check (next : Int) (s : SetCache K) : SetCache K :=
  if s.expiredAt ≤ next then { s with cache := ∅ } else s

/-- Fill loop of `Set.build`: a fresh map receiving every element of `slice`. -/
def fromSlice (slice : List K) : GoSet K :=
  slice.foldl (fun c v => c.insert v ()) ∅

/-- Rebuild procedure `Set.build`. -/
def build (now : Int) (s : SetCache K) : SetCache K :=
  let slice := s.source s.calls.length
  let s := { s with calls := now :: s.calls }
  let s := match slice with
    | some sl => { s with cache := fromSlice sl }
    | none => s
  { s with expiredAt := now + s.expire }

/-- Locked section `if exp == s.expiredAt { s.build() }`. -/
def lockedRebuild (exp now : Int) (s : SetCache K) : SetCache K :=
  if exp = s.expiredAt then s.build now else s

/-- `Set.Build`. -/
def Build (force : List Bool) (now : Int) (s : SetCache K) : SetCache K × Option Int :=
  if forced force then (s.build now, none)
  else
    let exp := s.expiredAt
    if exp ≤ now then (s.lockedRebuild exp now, none)
    else
      let preduration := prebuildDuration s.expire
      if exp - now ≤ preduration then (s, some exp)
      else (s, none)

/-- Body of the goroutine spawned by `Build`. -/
def detached (exp now : Int) (s : SetCache K) : SetCache K :=
  s.lockedRebuild exp now

/-- `Set.Has`. -/
def Has (key : K) (now : Int) (s : SetCache K) : Bool × SetCache K × Option Int :=
  let r := s.Build [] now
  ((r.1.cache.lookup key).isSome, r.1, r.2)

/-- `Set.Size`. -/
def Size (s : SetCache K) : Nat := s.cache.entries.length

/-- `Set.Add`. -/
def Add (key : K) (s : SetCache K) : SetCache K :=
  { s with cache := s.cache.insert key () }

/-- `Set.Delete`. -/
def Delete (key : K) (s : SetCache K) : SetCache K :=
  { s with cache := s.cache.erase key }

/-- `Set.Intersect`: the slice returned, the state, the pending goroutine. -/
def Intersect (arr : List K) (now : Int) (s : SetCache K) : List K × SetCache K × Option Int :=
  let r := s.Build [] now
  let result := arr.foldl
    (fun result v => if (r.1.cache.lookup v).isSome then result ++ [v] else result) []
  (result, r.1, r.2)

/-- `Set.Union`. -/
def Union (arr : List K) (now : Int) (s : SetCache K) : List K × SetCache K × Option Int :=
  let r := s.Build [] now
  let result := r.1.cache.keys.foldl (fun result k => result ++ [k]) []
  let result := arr.foldl
    (fun result v => if (r.1.cache.lookup v).isSome then result else result ++ [v]) result
  (result, r.1, r.2)

/-- `Set.Diff`. -/
def Diff (arr : List K) (now : Int) (s : SetCache K) : List K × SetCache K × Option Int :=
  let r := s.Build [] now
  let arrSet := arr.foldl (fun c v => c.insert v ()) (∅ : GoSet K)
  let result := r.1.cache.keys.foldl
    (fun result k => if (arrSet.lookup k).isSome then result else result ++ [k]) []
  (result, r.1, r.2)

end SetCache

/-! ## store.go -/

/-- Dynamic Go values passed as builder options (`interface{}`); a slice of
values is itself a value. -/
inductive Iface where
  | null
  | int (n : Int)
  | str (s : String)
  | slice (xs : List Iface)

/-- Unit of the keyed store. -/
structure storeEelment (V : Type) where
  expiredAt : Int
  value : Option V
  deriving DecidableEq

/-- One recorded invocation `source.Build(key, opts...)`: the clock reading of
the enclosing rebuild, the key, and the variadic slice the builder received. -/
structure StoreCall (K : Type) where
  at_ : Int
  key : K
  opts : List Iface

/-- Goroutine spawned by `Store.Build`: the captured `val`, `exp`, `key` and
`opts`. -/
structure StoreTask (K : Type) where
  val : Nat
  exp : Int
  key : K
  opts : List Iface

/-- Keyed store.  `heap` holds the allocated units, `next` is the first free
address, and `cache` maps a key to the address of its unit. -/
structure Store (K V : Type) where
  heap : Nat → storeEelment V
  next : Nat
  cache : AList (fun _ : K => Nat)
  expire : Int
  source : Nat → K → List Iface → Option V
  calls : List (StoreCall K)

namespace Store

variable {K V : Type} [DecidableEq K]

/-- State built by `NewStore(source, expire)`. -/
def NewStore (source : Nat → K → List Iface → Option V) (expire : Int) : Store K V :=
  { heap := fun _ => ⟨0, none⟩, next := 0, cache := ∅, expire := expire,
    source := source, calls := [] }

/-- Write through a `*storeEelment`. -/
def store (val : Nat) (e : storeEelment V) (m : Store K V) : Store K V :=
  { m with heap := fun a => if a = val then e else m.heap a }

/-- One tick of `Store.check` at tick time `now`: every key whose unit has
`expiredAt <= now` is deleted. -/
def check (now : Int) (m : Store K V) : Store K V :=
  let sweep := fun (c : AList (fun _ : K => Nat)) (kv : Sigma (fun _ : K => Nat)) =>
    if (m.heap kv.2).expiredAt ≤ now then c.erase kv.1 else c
  { m with cache := m.cache.entries.foldl sweep m.cache }

/-- Rebuild procedure `Store.build(val, key, opts...)`.  The body calls
`m.source.Build(key, opts)`: the slice `opts` is passed as one argument. -/
def build (val : Nat) (key : K) (opts : List Iface) (now : Int) (m : Store K V) : Store K V :=
  let passed := [Iface.slice opts]
  let result := m.source m.calls.length key passed
  let m := { m with calls := ⟨now, key, passed⟩ :: m.calls }
  let m := match result with
    | some r => m.store val { m.heap val with value := some r }
    | none => m
  m.store val { m.heap val with expiredAt := now + m.expire }

/-- Locked section `if exp == val.expiredAt { m.build(val, key, opts...) }`. -/
def lockedRebuild (val : Nat) (exp : Int) (key : K) (opts : List Iface) (now : Int)
    (m : Store K V) : Store K V :=
  if exp = (m.heap val).expiredAt then m.build val key opts now else m

/-- The "check exist" prologue of `Store.Build`: the unit of `key`, allocated
as a placeholder when the key has none. -/
def ensure (key : K) (m : Store K V) : Nat × Store K V :=
  match m.cache.lookup key with
  | some val => (val, m)
  | none =>
    let val := m.next
    let m := m.store val ⟨0, none⟩
    (val, { m with next := m.next + 1, cache := m.cache.insert key val })

/-- `Store.Build(force, key, opts...)`. -/
def Build (force : Bool) (key : K) (opts : List Iface) (now : Int) (m : Store K V) :
    Store K V × Option (StoreTask K) :=
  let (val, m) := m.ensure key
  if force then (m.build val key opts now, none)
  else
    let exp := (m.heap val).expiredAt
    if exp ≤ now then (m.lockedRebuild val exp key opts now, none)
    else
      let preduration := prebuildDuration m.expire
      if exp - now ≤ preduration then (m, some ⟨val, exp, key, opts⟩)
      else (m, none)

/-- Body of the goroutine spawned by `Build`. -/
def detached (t : StoreTask K) (now : Int) (m : Store K V) : Store K V :=
  m.lockedRebuild t.val t.exp t.key t.opts now

/-- `Store.Get(key, opts...)`.  The result is `none` when `val.value` would
dereference the nil pointer of a missing entry; otherwise `(val.value, has)`
with `nil` as `none`. -/
def Get (key : K) (opts : List Iface) (now : Int) (m : Store K V) :
    Option (Option V × Bool) × Store K V × Option (StoreTask K) :=
  let r := m.Build false key opts now
  match r.1.cache.lookup key with
  | some val =>
    let value := (r.1.heap val).value
    (some (value, if value.isNone then false else true), r.1, r.2)
  | none => (none, r.1, r.2)

/-- `Store.Size`. -/
def Size (m : Store K V) : Nat := m.cache.entries.length

end Store

/-- The part of `Store.Build` after its "check exist" prologue, run on the
unit `val` the prologue found or allocated: the forced path and the gate. -/
def Store.gate {K V : Type} (force : Bool) (val : Nat) (key : K) (opts : List Iface)
    (now : Int) (m : Store K V) : Store K V × Option (StoreTask K) :=
  if force then (m.build val key opts now, none)
  else
    let exp := (m.heap val).expiredAt
    if exp ≤ now then (m.lockedRebuild val exp key opts now, none)
    else
      let preduration := prebuildDuration m.expire
      if exp - now ≤ preduration then (m, some ⟨val, exp, key, opts⟩)
      else (m, none)

/-- The part of `Store.Get` after `Build`: the lookup `m.cache[key]` and the
return `val.value, has`; `none` is the nil-pointer dereference of a missing
entry. -/
def Store.fetch {K V : Type} [DecidableEq K] (key : K) (m : Store K V) :
    Option (Option V × Bool) :=
  match m.cache.lookup key with
  | some val =>
    let value := (m.heap val).value
    some (value, if value.isNone then false else true)
  | none => none

/-- `Store.Get(key, opts...)` with a critical section `other` of another
goroutine running between the prologue of `Build` and the rest of the call.
The prologue releases the store lock before the gate reads `val.expiredAt`
and the gate locks only the unit, so the locked section of a sweeper tick
(`m.Lock(); delete(m.cache, k); m.Unlock()`) can run there. -/
def Store.GetInterleaved {K V : Type} [DecidableEq K] (key : K) (opts : List Iface)
    (now : Int) (other : Store K V → Store K V) (m : Store K V) :
    Option (Option V × Bool) × Store K V × Option (StoreTask K) :=
  let p := m.ensure key
  let r := (other p.2).gate false p.1 key opts now
  (r.1.fetch key, r.1, r.2)

/-! ## Sequential completion and operation sequences -/

/-- `List.Build` at `now`, followed by the goroutine it spawned (when it
spawned one) run to completion at `later`. -/
def ListCache.BuildJoin {V : Type} (force : List Bool) (now later : Int) (s : ListCache V) :
    ListCache V :=
  match s.Build force now with
  | (s1, some exp) => s1.detached exp later
  | (s1, none) => s1

/-- `Map.Build` at `now`, followed by its goroutine at `later`. -/
def MapCache.BuildJoin {K V : Type} [DecidableEq K] (force : List Bool) (now later : Int)
    (m : MapCache K V) : MapCache K V :=
  match m.Build force now with
  | (m1, some exp) => m1.detached exp later
  | (m1, none) => m1

/-- `Set.Build` at `now`, followed by its goroutine at `later`. -/
def SetCache.BuildJoin {K : Type} [DecidableEq K] (force : List Bool) (now later : Int)
    (s : SetCache K) : SetCache K :=
  match s.Build force now with
  | (s1, some exp) => s1.detached exp later
  | (s1, none) => s1

/-- `Store.Build` at `now`, followed by its goroutine at `later`. -/
def Store.BuildJoin {K V : Type} [DecidableEq K] (force : Bool) (key : K) (opts : List Iface)
    (now later : Int) (m : Store K V) : Store K V :=
  match m.Build force key opts now with
  | (m1, some t) => m1.detached t later
  | (m1, none) => m1

/-- Successive states of a container driven by timed operations: the head is
the starting state, each operation `(t, op)` is applied at clock reading `t`. -/
def traceWith {σ Op : Type} (step : Int → Op → σ → σ) : List (Int × Op) → σ → List σ
  | [], s => [s]
  | (t, op) :: rest, s => s :: traceWith step rest (step t op s)

/-- Operations on a List cache: a `Build` call, the completion of a goroutine
that captured the snapshot `exp`, a sweeper tick. -/
inductive ListOp where
  | Build (force : List Bool)
  | detached (exp : Int)
  | check

/-- Effect of one operation on a List cache at clock reading `t`. -/
def ListCache.step {V : Type} (t : Int) (op : ListOp) (s : ListCache V) : ListCache V :=
  match op with
  | .Build force => (s.Build force t).1
  | .detached exp => s.detached exp t
  | .check => s.check t

/-- Operations on a Map cache. -/
inductive MapOp (K V : Type) where
  | Build (force : List Bool)
  | detached (exp : Int)
  | check
  | Set (key : K) (val : V)
  | Delete (key : K)

/-- Effect of one operation on a Map cache at clock reading `t`. -/
def MapCache.step {K V : Type} [DecidableEq K] (t : Int) (op : MapOp K V) (m : MapCache K V) :
    MapCache K V :=
  match op with
  | .Build force => (m.Build force t).1
  | .detached exp => m.detached exp t
  | .check => m.check t
  | .Set key val => m.Set key val
  | .Delete key => m.Delete key

/-- Operations on a Set cache. -/
inductive SetOp (K : Type) where
  | Build (force : List Bool)
  | detached (exp : Int)
  | check
  | Add (key : K)
  | Delete (key : K)

/-- Effect of one operation on a Set cache at clock reading `t`. -/
def SetCache.step {K : Type} [DecidableEq K] (t : Int) (op : SetOp K) (s : SetCache K) :
    SetCache K :=
  match op with
  | .Build force => (s.Build force t).1
  | .detached exp => s.detached exp t
  | .check => s.check t
  | .Add key => s.Add key
  | .Delete key => s.Delete key

/-- A keyed store together with the goroutines spawned and not yet run. -/
structure StoreSys (K V : Type) where
  store : Store K V
  pending : List (StoreTask K)

/-- Operations on a keyed store: a `Build` call, the completion of the
`i`-th pending goroutine, a sweeper tick. -/
inductive StoreOp (K : Type) where
  | Build (force : Bool) (key : K) (opts : List Iface)
  | run (i : Nat)
  | check

/-- Effect of one operation on a keyed store at clock reading `t`. -/
def StoreSys.step {K V : Type} [DecidableEq K] (t : Int) (op : StoreOp K) (y : StoreSys K V) :
    StoreSys K V :=
  match op with
  | .Build force key opts =>
    let r := y.store.Build force key opts t
    ⟨r.1, y.pending ++ r.2.toList⟩
  | .run i =>
    match y.pending[i]? with
    | some task => ⟨y.store.detached task t, y.pending.eraseIdx i⟩
    | none => y
  | .check => ⟨y.store.check t, y.pending⟩

/-- Bookkeeping invariant of a keyed store, relative to a lower bound `t0` on
the clock readings still to come: the ttl is non-negative, no unit expires
later than `t0 + ttl`, the units beyond `next` are untouched, and every key
maps to an allocated unit. -/
def Store.Inv {K V : Type} [DecidableEq K] (t0 : Int) (m : Store K V) : Prop :=
  0 ≤ m.expire ∧
  (∀ a, (m.heap a).expiredAt ≤ t0 + m.expire) ∧
  (∀ a, m.next ≤ a → (m.heap a).expiredAt = 0) ∧
  (∀ k a, m.cache.lookup k = some a → a < m.next)

/-- Invariant of a keyed store with its pending goroutines: the store's
invariant, and every goroutine holds an allocated unit. -/
def StoreSys.Inv {K V : Type} [DecidableEq K] (t0 : Int) (y : StoreSys K V) : Prop :=
  y.store.Inv t0 ∧ ∀ task ∈ y.pending, task.val < y.store.next

/-- Callers of `List.Build` that all took the snapshot `exp` and then run
their locked sections one after the other, at the clock readings `times`. -/
def ListCache.race {V : Type} (exp : Int) (times : List Int) (s : ListCache V) : ListCache V :=
  times.foldl (fun s t => s.lockedRebuild exp t) s

/-- Callers of `Map.Build` racing on one snapshot. -/
def MapCache.race {K V : Type} [DecidableEq K] (exp : Int) (times : List Int)
    (m : MapCache K V) : MapCache K V :=
  times.foldl (fun m t => m.lockedRebuild exp t) m

/-- Callers of `Set.Build` racing on one snapshot. -/
def SetCache.race {K : Type} [DecidableEq K] (exp : Int) (times : List Int)
    (s : SetCache K) : SetCache K :=
  times.foldl (fun s t => s.lockedRebuild exp t) s

/-- Callers of `Store.Build` for `key` racing on one snapshot of the unit
`val`; each caller has its clock reading and its own options. -/
def Store.race {K V : Type} [DecidableEq K] (val : Nat) (exp : Int) (key : K)
    (callers : List (Int × List Iface)) (m : Store K V) : Store K V :=
  callers.foldl (fun m c => m.lockedRebuild val exp key c.2 c.1) m

/-- Map cache with ttl 0 after its first read at clock reading 100. -/
def zeroTtlMap : MapCache Nat Nat :=
  ((MapCache.NewMap (fun _ => none) 0).Build [] 100).1

/-- One `Store.Get(key, opts...)` at clock reading `c.1`; the goroutine it
spawned, when it spawned one, completes at `c.2`. -/
def Store.GetJoin {K V : Type} [DecidableEq K] (key : K) (opts : List Iface) (c : Int × Int)
    (m : Store K V) : Store K V :=
  match m.Get key opts c.1 with
  | (_, m1, some task) => m1.detached task c.2
  | (_, m1, none) => m1

/-- A sequence of `Store.Get(key, opts...)` calls, each goroutine completing
before the next call. -/
def Store.getSeq {K V : Type} [DecidableEq K] (key : K) (opts : List Iface)
    (cs : List (Int × Int)) (m : Store K V) : Store K V :=
  cs.foldl (fun m c => m.GetJoin key opts c) m

/-- Clock readings of a sequence of calls, in the order they are taken: the
call, then the completion of its goroutine. -/
def readings : List (Int × Int) → List Int
  | [] => []
  | c :: rest => c.1 :: c.2 :: readings rest

/-- Clock readings of the builder invocations made between the states `m0`
and `m`, latest first. -/
def Store.invocationsSince {K V : Type} (m0 m : Store K V) : List Int :=
  (m.calls.take (m.calls.length - m0.calls.length)).map (fun c => c.at_)

/-- Fresh store with ttl 10 whose builder always returns nil. -/
def missStore10 : Store Nat Nat := Store.NewStore (fun _ _ _ => none) 10

/-- Fresh store with ttl 1 whose builder always returns nil. -/
def missStore1 : Store Nat Nat := Store.NewStore (fun _ _ _ => none) 1

/-! ## Sample states -/

/-- List cache holding `[1, 2]`, expiring at 100, ttl 10, failing source. -/
def sampleList : ListCache Nat :=
  { cache := [1, 2], expiredAt := 100, expire := 10, source := fun _ => none, calls := [90] }

/-- Map cache holding `1 ↦ 7`, expiring at 100, ttl 10, failing source. -/
def sampleMap : MapCache Nat Nat :=
  { cache := AList.insert 1 7 ∅, expiredAt := 100, expire := 10, source := fun _ => none,
    calls := [90] }

/-- Set cache holding `{1}`, expiring at 100, ttl 10, failing source. -/
def sampleSet : SetCache Nat :=
  { cache := AList.insert 1 () ∅, expiredAt := 100, expire := 10, source := fun _ => none,
    calls := [90] }

/-- Keyed store with one unit (key 5, value 7, expiring at 100), ttl 10,
failing source. -/
def sampleStore : Store Nat Nat :=
  { heap := fun a => if a = 0 then ⟨100, some 7⟩ else ⟨0, none⟩, next := 1,
    cache := AList.insert 5 0 ∅, expire := 10, source := fun _ _ _ => none,
    calls := [⟨90, 5, [Iface.slice []]⟩] }

/-- Source returning `[1, 2, 3]` on its first invocation and `[4, 5, 6]` afterwards. -/
def sampleListSource : Nat → Option (List Nat) :=
  fun n => if n = 0 then some [1, 2, 3] else some [4, 5, 6]

/-- A run of a List cache: read at 0, sweeper tick at 5, read at 9 whose
goroutine completes at 9, forced build at 12. -/
def sampleListOps : List (Int × ListOp) :=
  [(0, .Build []), (5, .check), (9, .Build []), (9, .detached 10), (12, .Build [true])]

/-- Fresh store with ttl 10 whose builder returns the key plus 100. -/
def hitStore10 : Store Nat Nat := Store.NewStore (fun _ k _ => some (k + 100)) 10

/-- Map cache with ttl 10 holding the overlay `9 ↦ 9`, whose next build
yields `1 ↦ 7`, `2 ↦ 8`. -/
def overlayMap : MapCache Nat Nat :=
  { cache := AList.insert 9 9 ∅, expiredAt := 0, expire := 10,
    source := fun _ => some (AList.insert 1 7 (AList.insert 2 8 ∅)), calls := [] }

/-- Set cache with ttl 10 holding the overlay `{9}`, whose next build yields
the slice `[1, 2, 1]`. -/
def overlaySet : SetCache Nat :=
  { cache := AList.insert 9 () ∅, expiredAt := 0, expire := 10,
    source := fun _ => some [1, 2, 1], calls := [] }

/-- List cache holding `[1, 2]`, expired at 100, whose next build yields `[4, 5, 6]`. -/
def staleList : ListCache Nat :=
  { cache := [1, 2], expiredAt := 100, expire := 10, source := fun _ => some [4, 5, 6],
    calls := [90] }

/-- Every key of the store maps to an allocated unit. -/
def Store.Allocated {K V : Type} [DecidableEq K] (m : Store K V) : Prop :=
  ∀ k a, m.cache.lookup k = some a → a < m.next

/-- Final state of a container driven by timed operations. -/
def runWith {σ Op : Type} (step : Int → Op → σ → σ) (ops : List (Int × Op)) (s : σ) :
    σ :=
  ops.foldl (fun s o => step o.1 o.2 s) s

/-- Operations of a read-only workload on a List cache: the non-forced
`Build` every read starts with, and goroutine completions. -/
def ListOp.isRead : ListOp → Bool
  | .Build force => !forced force
  | .detached _ => true
  | .check => false

/-- Operations of a read-only workload on a Map cache. -/
def MapOp.isRead {K V : Type} : MapOp K V → Bool
  | .Build force => !forced force
  | .detached _ => true
  | _ => false

/-- Operations of a read-only workload on a Set cache. -/
def SetOp.isRead {K : Type} : SetOp K → Bool
  | .Build force => !forced force
  | .detached _ => true
  | _ => false

/-- State of a List cache that has served only reads up to clock reading `b`:
either never built, or last built at some `T <= b`, with `expiredAt = T + ttl`
and, when that invocation returned a non-nil slice, that slice as payload. -/
def ListCache.ReadInv {V : Type} (b : Int) (s : ListCache V) : Prop :=
  (s.calls = [] ∧ s.expiredAt = 0) ∨
  ∃ T rest, s.calls = T :: rest ∧ T ≤ b ∧ s.expiredAt = T + s.expire ∧
    ∀ r, s.source rest.length = some r → s.cache = r

/-- State of a Map cache that has served only reads up to clock reading `b`. -/
def MapCache.ReadInv {K V : Type} [DecidableEq K] (b : Int) (m : MapCache K V) : Prop :=
  (m.calls = [] ∧ m.expiredAt = 0) ∨
  ∃ T rest, m.calls = T :: rest ∧ T ≤ b ∧ m.expiredAt = T + m.expire ∧
    ∀ r, m.source rest.length = some r → m.cache = MapCache.copyMap r

/-- State of a Set cache that has served only reads up to clock reading `b`. -/
def SetCache.ReadInv {K : Type} [DecidableEq K] (b : Int) (s : SetCache K) : Prop :=
  (s.calls = [] ∧ s.expiredAt = 0) ∨
  ∃ T rest, s.calls = T :: rest ∧ T ≤ b ∧ s.expiredAt = T + s.expire ∧
    ∀ r, s.source rest.length = some r → s.cache = SetCache.fromSlice r

/-- Map source that yields `1 ↦ 7` on its first invocation and nil afterwards. -/
def flakyMapSource : Nat → Option (GoMap Nat Nat) :=
  fun n => if n = 0 then some (AList.insert 1 7 ∅) else none

/-- State of a store in which `key` has only been read, up to clock reading
`b`: either the key has no unit, or the latest invocation was made for it at
some `T <= b`, its unit has `expiredAt = T + ttl` and, when that invocation
returned a non-nil value, that value. -/
def Store.ReadInv {K V : Type} [DecidableEq K] (b : Int) (key : K) (m : Store K V) : Prop :=
  m.cache.lookup key = none ∨
  ∃ val T o rest, m.cache.lookup key = some val ∧ m.calls = ⟨T, key, o⟩ :: rest ∧
    T ≤ b ∧
    (m.heap val).expiredAt = T + m.expire ∧
    ∀ r, m.source rest.length key o = some r → (m.heap val).value = some r

/-- Keyed store with one unit (key 5, value 7, expired at 100), ttl 10, whose
builder returns 9. -/
def staleStore : Store Nat Nat :=
  { heap := fun a => if a = 0 then ⟨100, some 7⟩ else ⟨0, none⟩, next := 1,
    cache := AList.insert 5 0 ∅, expire := 10, source := fun _ _ _ => some 9,
    calls := [⟨90, 5, [Iface.slice []]⟩] }

/-- The latest non-nil result among the first `n` invocations of a builder. -/
def lastResult {R : Type} (source : Nat → Option R) : Nat → Option R
  | 0 => none
  | n + 1 =>
    match source n with
    | some r => some r
    | none => lastResult source n

/-- The payload of the List cache is the latest non-nil result of its
builder, the empty payload when there is none. -/
def ListCache.PayloadInv {V : Type} (s : ListCache V) : Prop :=
  s.cache = (lastResult s.source s.calls.length).getD []

/-- The payload of the Map cache is the latest non-nil result of its
builder, the empty payload when there is none. -/
def MapCache.PayloadInv {K V : Type} [DecidableEq K] (m : MapCache K V) : Prop :=
  m.cache = ((lastResult m.source m.calls.length).map copyMap).getD ∅

/-- The payload of the Set cache is the latest non-nil result of its
builder, the empty payload when there is none. -/
def SetCache.PayloadInv {K : Type} [DecidableEq K] (s : SetCache K) : Prop :=
  s.cache = ((lastResult s.source s.calls.length).map fromSlice).getD ∅

/-- Clock reading of the latest recorded builder invocation for `key`; the
record is latest first. -/
def lastCallAt {K : Type} [DecidableEq K] (key : K) : List (StoreCall K) → Option Int
  | [] => none
  | c :: rest => if c.key = key then some c.at_ else lastCallAt key rest

/-- The latest non-nil value the builder returned for `key`, over the record
of invocations (latest first): the invocation recorded at the head of
`c :: rest` was the one numbered `rest.length`. -/
def lastValueFor {K V : Type} [DecidableEq K] (source : Nat → K → List Iface → Option V)
    (key : K) : List (StoreCall K) → Option V
  | [] => none
  | c :: rest =>
    if c.key = key then
      match source rest.length c.key c.opts with
      | some r => some r
      | none => lastValueFor source key rest
    else lastValueFor source key rest

/-- Operations of a read-only workload on a keyed store: the non-forced
`Build` every `Get` starts with, and goroutine completions. -/
def StoreOp.isRead {K : Type} : StoreOp K → Bool
  | .Build force _ _ => !force
  | .run _ => true
  | .check => false

/-- State of a keyed store that has only been read, up to clock reading `b`:
keys map to allocated units, no two keys share a unit, a key without unit has
no recorded invocation, and the unit of a key holds the latest non-nil value
built for the key and either is a placeholder or has
`expiredAt = T + ttl` for the latest invocation `T <= b` for the key. -/
def Store.KeyedInv {K V : Type} [DecidableEq K] (b : Int) (m : Store K V) : Prop :=
  (∀ k a, m.cache.lookup k = some a → a < m.next) ∧
  (∀ k1 k2 a, m.cache.lookup k1 = some a → m.cache.lookup k2 = some a → k1 = k2) ∧
  (∀ k, m.cache.lookup k = none → lastCallAt k m.calls = none) ∧
  (∀ k a, m.cache.lookup k = some a →
    (m.heap a).value = lastValueFor m.source k m.calls ∧
    ((lastCallAt k m.calls = none ∧ (m.heap a).expiredAt = 0) ∨
      ∃ T, lastCallAt k m.calls = some T ∧ T ≤ b ∧ (m.heap a).expiredAt = T + m.expire))

/-- State of a keyed store with pending goroutines that has only been read:
the store's invariant, and every goroutine holds the unit of its key. -/
def StoreSys.ReadInv {K V : Type} [DecidableEq K] (b : Int) (y : StoreSys K V) : Prop :=
  y.store.KeyedInv b ∧ ∀ task ∈ y.pending, y.store.cache.lookup task.key = some task.val

/-- Store source whose first two invocations yield the key plus 100 and whose
later invocations yield nil. -/
def flakyStoreSource : Nat → Nat → List Iface → Option Nat :=
  fun n k _ => if n < 2 then some (k + 100) else none

/-! # Theorems -/

/-! ## Basic facts about the rebuild procedures -/

theorem prebuildDuration_pos (expire : Int) : 1 ≤ prebuildDuration expire := by
  unfold prebuildDuration
  dsimp only
  split <;> omega

namespace ListCache

variable {V : Type}

@[simp] theorem list_build_expiredAt (now : Int) (s : ListCache V) :
    (s.build now).expiredAt = now + s.expire := by
  cases h : s.source s.calls.length <;> simp [build, h]

@[simp] theorem list_build_expire (now : Int) (s : ListCache V) :
    (s.build now).expire = s.expire := by
  cases h : s.source s.calls.length <;> simp [build, h]

@[simp] theorem list_build_source (now : Int) (s : ListCache V) :
    (s.build now).source = s.source := by
  cases h : s.source s.calls.length <;> simp [build, h]

@[simp] theorem list_build_calls (now : Int) (s : ListCache V) :
    (s.build now).calls = now :: s.calls := by
  cases h : s.source s.calls.length <;> simp [build, h]

theorem list_build_cache_none (now : Int) (s : ListCache V) (h : s.source s.calls.length = none) :
    (s.build now).cache = s.cache := by
  simp [build, h]

theorem list_build_cache_some (now : Int) (s : ListCache V) (r : List V)
    (h : s.source s.calls.length = some r) : (s.build now).cache = r := by
  simp [build, h]

end ListCache

namespace MapCache

variable {K V : Type} [DecidableEq K]

@[simp] theorem map_build_expiredAt (now : Int) (m : MapCache K V) :
    (m.build now).expiredAt = now + m.expire := by
  cases h : m.source m.calls.length <;> simp [build, h]

@[simp] theorem map_build_expire (now : Int) (m : MapCache K V) :
    (m.build now).expire = m.expire := by
  cases h : m.source m.calls.length <;> simp [build, h]

@[simp] theorem map_build_source (now : Int) (m : MapCache K V) :
    (m.build now).source = m.source := by
  cases h : m.source m.calls.length <;> simp [build, h]

@[simp] theorem map_build_calls (now : Int) (m : MapCache K V) :
    (m.build now).calls = now :: m.calls := by
  cases h : m.source m.calls.length <;> simp [build, h]

theorem map_build_cache_none (now : Int) (m : MapCache K V) (h : m.source m.calls.length = none) :
    (m.build now).cache = m.cache := by
  simp [build, h]

theorem map_build_cache_some (now : Int) (m : MapCache K V) (r : GoMap K V)
    (h : m.source m.calls.length = some r) : (m.build now).cache = copyMap r := by
  simp [build, h]

end MapCache

namespace SetCache

variable {K : Type} [DecidableEq K]

@[simp] theorem set_build_expiredAt (now : Int) (s : SetCache K) :
    (s.build now).expiredAt = now + s.expire := by
  cases h : s.source s.calls.length <;> simp [build, h]

@[simp] theorem set_build_expire (now : Int) (s : SetCache K) :
    (s.build now).expire = s.expire := by
  cases h : s.source s.calls.length <;> simp [build, h]

@[simp] theorem set_build_source (now : Int) (s : SetCache K) :
    (s.build now).source = s.source := by
  cases h : s.source s.calls.length <;> simp [build, h]

@[simp] theorem set_build_calls (now : Int) (s : SetCache K) :
    (s.build now).calls = now :: s.calls := by
  cases h : s.source s.calls.length <;> simp [build, h]

theorem set_build_cache_none (now : Int) (s : SetCache K) (h : s.source s.calls.length = none) :
    (s.build now).cache = s.cache := by
  simp [build, h]

theorem set_build_cache_some (now : Int) (s : SetCache K) (r : List K)
    (h : s.source s.calls.length = some r) : (s.build now).cache = fromSlice r := by
  simp [build, h]

end SetCache

namespace Store

variable {K V : Type}

/-- Effect of `Store.build` on the heap: only the unit at `val` is written; it
gets `expiredAt = now + expire` and the result when that is not nil. -/
theorem store_build_heap (val : Nat) (key : K) (opts : List Iface) (now : Int) (m : Store K V)
    (a : Nat) :
    (m.build val key opts now).heap a =
      if a = val then
        ⟨now + m.expire, match m.source m.calls.length key [Iface.slice opts] with
          | some r => some r
          | none => (m.heap val).value⟩
      else m.heap a := by
  cases hres : m.source m.calls.length key [Iface.slice opts] <;>
    by_cases h : a = val <;> simp [build, store, hres, h]

@[simp] theorem store_build_expire (val : Nat) (key : K) (opts : List Iface) (now : Int)
    (m : Store K V) : (m.build val key opts now).expire = m.expire := by
  cases hres : m.source m.calls.length key [Iface.slice opts] <;> simp [build, store, hres]

@[simp] theorem store_build_source (val : Nat) (key : K) (opts : List Iface) (now : Int)
    (m : Store K V) : (m.build val key opts now).source = m.source := by
  cases hres : m.source m.calls.length key [Iface.slice opts] <;> simp [build, store, hres]

@[simp] theorem store_build_next (val : Nat) (key : K) (opts : List Iface) (now : Int)
    (m : Store K V) : (m.build val key opts now).next = m.next := by
  cases hres : m.source m.calls.length key [Iface.slice opts] <;> simp [build, store, hres]

@[simp] theorem store_build_cache (val : Nat) (key : K) (opts : List Iface) (now : Int)
    (m : Store K V) : (m.build val key opts now).cache = m.cache := by
  cases hres : m.source m.calls.length key [Iface.slice opts] <;> simp [build, store, hres]

@[simp] theorem store_build_calls (val : Nat) (key : K) (opts : List Iface) (now : Int)
    (m : Store K V) :
    (m.build val key opts now).calls = ⟨now, key, [Iface.slice opts]⟩ :: m.calls := by
  cases hres : m.source m.calls.length key [Iface.slice opts] <;> simp [build, store, hres]

@[simp] theorem store_build_heap_expiredAt (val : Nat) (key : K) (opts : List Iface) (now : Int)
    (m : Store K V) : ((m.build val key opts now).heap val).expiredAt = now + m.expire := by
  rw [store_build_heap]; simp

theorem store_build_heap_value_none (val : Nat) (key : K) (opts : List Iface) (now : Int)
    (m : Store K V) (h : m.source m.calls.length key [Iface.slice opts] = none) :
    ((m.build val key opts now).heap val).value = (m.heap val).value := by
  rw [store_build_heap]; simp [h]

theorem store_build_heap_value_some (val : Nat) (key : K) (opts : List Iface) (now : Int)
    (m : Store K V) (r : V) (h : m.source m.calls.length key [Iface.slice opts] = some r) :
    ((m.build val key opts now).heap val).value = some r := by
  rw [store_build_heap]; simp [h]

theorem store_build_heap_ne (val : Nat) (key : K) (opts : List Iface) (now : Int)
    (m : Store K V) (a : Nat) (h : a ≠ val) :
    (m.build val key opts now).heap a = m.heap a := by
  rw [store_build_heap]; simp [h]

end Store

/-! ## C1: a failed build keeps the payload -/

/-- C1. When the rebuild procedure of a List, Map, Set or Store unit runs at
clock reading `now` and the builder returns nil, the payload is what it was
before and `expiredAt` is `now + ttl`. -/
theorem failed_build_keeps_payload (K V : Type) [DecidableEq K] (now : Int) :
    (∀ s : ListCache V, s.source s.calls.length = none →
      (s.build now).cache = s.cache ∧ (s.build now).expiredAt = now + s.expire) ∧
    (∀ m : MapCache K V, m.source m.calls.length = none →
      (m.build now).cache = m.cache ∧ (m.build now).expiredAt = now + m.expire) ∧
    (∀ s : SetCache K, s.source s.calls.length = none →
      (s.build now).cache = s.cache ∧ (s.build now).expiredAt = now + s.expire) ∧
    (∀ (m : Store K V) (val : Nat) (key : K) (opts : List Iface),
      m.source m.calls.length key [Iface.slice opts] = none →
      ((m.build val key opts now).heap val).value = (m.heap val).value ∧
      ((m.build val key opts now).heap val).expiredAt = now + m.expire) :=
  ⟨fun s h => ⟨s.list_build_cache_none now h, s.list_build_expiredAt now⟩,
   fun m h => ⟨m.map_build_cache_none now h, m.map_build_expiredAt now⟩,
   fun s h => ⟨s.set_build_cache_none now h, s.set_build_expiredAt now⟩,
   fun m val key opts h =>
     ⟨m.store_build_heap_value_none val key opts now h,
      m.store_build_heap_expiredAt val key opts now⟩⟩

/-- Witness for C1 on the sample states, rebuilt at clock reading 100. -/
theorem failed_build_keeps_payload_witness :
    ((sampleList.build 100).cache = [1, 2] ∧ (sampleList.build 100).expiredAt = 110) ∧
    (((sampleStore.build 0 5 [] 100).heap 0).value = some 7 ∧
      ((sampleStore.build 0 5 [] 100).heap 0).expiredAt = 110) :=
  ⟨(failed_build_keeps_payload Nat Nat 100).1 sampleList rfl,
   (failed_build_keeps_payload Nat Nat 100).2.2.2 sampleStore 0 5 [] rfl⟩


/-! ## The copy loops of Map.build and Set.build -/


namespace MapCache
variable {K V : Type} [DecidableEq K]

theorem map_fold_insert_lookup (k : K) :
    ∀ (l : List (Sigma (fun _ : K => V))) (acc : GoMap K V), l.NodupKeys →
      (l.foldl (fun c kv => c.insert kv.1 kv.2) acc).lookup k =
        match List.dlookup k l with
        | some v => some v
        | none => acc.lookup k := by
  intro l
  induction l with
  | nil => intro acc _; simp
  | cons hd tl ih =>
    intro acc hnd
    obtain ⟨hk, v⟩ := hd
    rw [List.nodupKeys_cons] at hnd
    simp only [List.foldl_cons]
    rw [ih _ hnd.2]
    by_cases h : k = hk
    · subst h
      have hnone : List.dlookup k tl = none := List.dlookup_eq_none.mpr hnd.1
      rw [hnone, List.dlookup_cons_eq]
      simp
    · rw [List.dlookup_cons_ne tl ⟨hk, v⟩ h, AList.lookup_insert_ne h]

/-- The copy loop of `Map.build` yields a map with the bindings of its argument. -/
theorem map_copyMap_lookup (r : GoMap K V) (k : K) : (copyMap r).lookup k = r.lookup k := by
  unfold copyMap
  rw [map_fold_insert_lookup k r.entries ∅ r.nodupKeys]
  simp only [AList.lookup_empty]
  show (match r.lookup k with | some v => some v | none => none) = r.lookup k
  cases r.lookup k <;> rfl

theorem map_copyMap_perm (r : GoMap K V) : (copyMap r).entries.Perm r.entries := by
  apply List.lookup_ext (copyMap r).nodupKeys r.nodupKeys
  intro x y
  have := map_copyMap_lookup r x
  simp only [AList.lookup] at this
  rw [this]

theorem map_copyMap_length (r : GoMap K V) : (copyMap r).entries.length = r.entries.length :=
  (map_copyMap_perm r).length_eq

end MapCache

namespace SetCache
variable {K : Type} [DecidableEq K]

theorem set_fold_insert_mem (k : K) :
    ∀ (l : List K) (acc : GoSet K),
      k ∈ l.foldl (fun c v => c.insert v ()) acc ↔ k ∈ l ∨ k ∈ acc := by
  intro l
  induction l with
  | nil => intro acc; simp
  | cons hd tl ih =>
    intro acc
    simp only [List.foldl_cons, List.mem_cons]
    rw [ih, AList.mem_insert]
    tauto

/-- The fill loop of `Set.build` yields the set of the elements of the slice. -/
theorem set_fromSlice_mem (r : List K) (k : K) : k ∈ fromSlice r ↔ k ∈ r := by
  unfold fromSlice
  rw [set_fold_insert_mem]
  simp

theorem set_fromSlice_lookup (r : List K) (k : K) :
    ((fromSlice r).lookup k).isSome = true ↔ k ∈ r := by
  rw [AList.lookup_isSome]; exact set_fromSlice_mem r k

theorem set_fromSlice_length (r : List K) : (fromSlice r).entries.length = r.dedup.length := by
  have hperm : (fromSlice r).keys.Perm r.dedup := by
    rw [List.perm_ext_iff_of_nodup (fromSlice r).keys_nodup (List.nodup_dedup r)]
    intro a
    rw [← AList.mem_keys, set_fromSlice_mem, List.mem_dedup]
  have hlen : (fromSlice r).entries.length = (fromSlice r).keys.length := by
    simp [AList.keys, List.keys]
  rw [hlen]
  exact hperm.length_eq

end SetCache

/-! ## The gate, container by container -/

namespace ListCache

variable {V : Type}

theorem list_lockedRebuild_self (now : Int) (s : ListCache V) :
    s.lockedRebuild s.expiredAt now = s.build now := by
  simp [lockedRebuild]

theorem list_lockedRebuild_ne (exp now : Int) (s : ListCache V) (h : exp ≠ s.expiredAt) :
    s.lockedRebuild exp now = s := by
  simp [lockedRebuild, h]

theorem list_Build_forced (force : List Bool) (now : Int) (s : ListCache V)
    (hf : forced force = true) : s.Build force now = (s.build now, none) := by
  simp [Build, hf]

theorem list_Build_expired (force : List Bool) (now : Int) (s : ListCache V)
    (hf : forced force = false) (h : s.expiredAt ≤ now) :
    s.Build force now = (s.build now, none) := by
  simp [Build, hf, h, lockedRebuild]

theorem list_Build_prebuild (force : List Bool) (now : Int) (s : ListCache V)
    (hf : forced force = false) (h0 : 0 < s.expiredAt - now)
    (h1 : s.expiredAt - now ≤ prebuildDuration s.expire) :
    s.Build force now = (s, some s.expiredAt) := by
  have h : ¬ s.expiredAt ≤ now := by omega
  simp [Build, hf, h, h1]

theorem list_Build_fresh (force : List Bool) (now : Int) (s : ListCache V)
    (hf : forced force = false) (h1 : prebuildDuration s.expire < s.expiredAt - now) :
    s.Build force now = (s, none) := by
  have hp := prebuildDuration_pos s.expire
  have h : ¬ s.expiredAt ≤ now := by omega
  have h2 : ¬ s.expiredAt - now ≤ prebuildDuration s.expire := by omega
  simp [Build, hf, h, h2]

theorem list_BuildJoin_calls (force : List Bool) (now later : Int) (s : ListCache V)
    (hf : forced force = false) :
    (s.BuildJoin force now later).calls.length = s.calls.length + 1 ↔
      (s.expiredAt ≤ now ∨
        (0 < s.expiredAt - now ∧ s.expiredAt - now ≤ prebuildDuration s.expire)) := by
  by_cases h : s.expiredAt ≤ now
  · simp [BuildJoin, list_Build_expired force now s hf h, h]
  · by_cases h1 : s.expiredAt - now ≤ prebuildDuration s.expire
    · have h0 : 0 < s.expiredAt - now := by omega
      simp [BuildJoin, list_Build_prebuild force now s hf h0 h1, h0, h1, detached,
        list_lockedRebuild_self]
    · have h2 : prebuildDuration s.expire < s.expiredAt - now := by omega
      simp [BuildJoin, list_Build_fresh force now s hf h2, h, h1]

/-- Gate of a non-forced `Build`, case by case. -/
theorem list_gate (force : List Bool) (now later : Int) (s : ListCache V)
    (hf : forced force = false) :
    (s.expiredAt ≤ now → s.Build force now = (s.build now, none)) ∧
    (0 < s.expiredAt - now → s.expiredAt - now ≤ prebuildDuration s.expire →
      s.Build force now = (s, some s.expiredAt) ∧
      s.detached s.expiredAt later = s.build later) ∧
    (prebuildDuration s.expire < s.expiredAt - now → s.Build force now = (s, none)) ∧
    ((s.BuildJoin force now later).calls.length = s.calls.length + 1 ↔
      (s.expiredAt ≤ now ∨
        (0 < s.expiredAt - now ∧ s.expiredAt - now ≤ prebuildDuration s.expire))) :=
  ⟨list_Build_expired force now s hf,
   fun h0 h1 => ⟨list_Build_prebuild force now s hf h0 h1, list_lockedRebuild_self later s⟩,
   list_Build_fresh force now s hf,
   list_BuildJoin_calls force now later s hf⟩

end ListCache

namespace MapCache

variable {K V : Type} [DecidableEq K]

theorem map_lockedRebuild_self (now : Int) (m : MapCache K V) :
    m.lockedRebuild m.expiredAt now = m.build now := by
  simp [lockedRebuild]

theorem map_lockedRebuild_ne (exp now : Int) (m : MapCache K V) (h : exp ≠ m.expiredAt) :
    m.lockedRebuild exp now = m := by
  simp [lockedRebuild, h]

theorem map_Build_forced (force : List Bool) (now : Int) (m : MapCache K V)
    (hf : forced force = true) : m.Build force now = (m.build now, none) := by
  simp [Build, hf]

theorem map_Build_expired (force : List Bool) (now : Int) (m : MapCache K V)
    (hf : forced force = false) (h : m.expiredAt ≤ now) :
    m.Build force now = (m.build now, none) := by
  simp [Build, hf, h, lockedRebuild]

theorem map_Build_prebuild (force : List Bool) (now : Int) (m : MapCache K V)
    (hf : forced force = false) (h0 : 0 < m.expiredAt - now)
    (h1 : m.expiredAt - now ≤ prebuildDuration m.expire) :
    m.Build force now = (m, some m.expiredAt) := by
  have h : ¬ m.expiredAt ≤ now := by omega
  simp [Build, hf, h, h1]

theorem map_Build_fresh (force : List Bool) (now : Int) (m : MapCache K V)
    (hf : forced force = false) (h1 : prebuildDuration m.expire < m.expiredAt - now) :
    m.Build force now = (m, none) := by
  have hp := prebuildDuration_pos m.expire
  have h : ¬ m.expiredAt ≤ now := by omega
  have h2 : ¬ m.expiredAt - now ≤ prebuildDuration m.expire := by omega
  simp [Build, hf, h, h2]

theorem map_BuildJoin_calls (force : List Bool) (now later : Int) (m : MapCache K V)
    (hf : forced force = false) :
    (m.BuildJoin force now later).calls.length = m.calls.length + 1 ↔
      (m.expiredAt ≤ now ∨
        (0 < m.expiredAt - now ∧ m.expiredAt - now ≤ prebuildDuration m.expire)) := by
  by_cases h : m.expiredAt ≤ now
  · simp [BuildJoin, map_Build_expired force now m hf h, h]
  · by_cases h1 : m.expiredAt - now ≤ prebuildDuration m.expire
    · have h0 : 0 < m.expiredAt - now := by omega
      simp [BuildJoin, map_Build_prebuild force now m hf h0 h1, h0, h1, detached,
        map_lockedRebuild_self]
    · have h2 : prebuildDuration m.expire < m.expiredAt - now := by omega
      simp [BuildJoin, map_Build_fresh force now m hf h2, h, h1]

/-- Gate of a non-forced `Build`, case by case. -/
theorem map_gate (force : List Bool) (now later : Int) (m : MapCache K V)
    (hf : forced force = false) :
    (m.expiredAt ≤ now → m.Build force now = (m.build now, none)) ∧
    (0 < m.expiredAt - now → m.expiredAt - now ≤ prebuildDuration m.expire →
      m.Build force now = (m, some m.expiredAt) ∧
      m.detached m.expiredAt later = m.build later) ∧
    (prebuildDuration m.expire < m.expiredAt - now → m.Build force now = (m, none)) ∧
    ((m.BuildJoin force now later).calls.length = m.calls.length + 1 ↔
      (m.expiredAt ≤ now ∨
        (0 < m.expiredAt - now ∧ m.expiredAt - now ≤ prebuildDuration m.expire))) :=
  ⟨map_Build_expired force now m hf,
   fun h0 h1 => ⟨map_Build_prebuild force now m hf h0 h1, map_lockedRebuild_self later m⟩,
   map_Build_fresh force now m hf,
   map_BuildJoin_calls force now later m hf⟩

end MapCache

namespace SetCache

variable {K : Type} [DecidableEq K]

theorem set_lockedRebuild_self (now : Int) (s : SetCache K) :
    s.lockedRebuild s.expiredAt now = s.build now := by
  simp [lockedRebuild]

theorem set_lockedRebuild_ne (exp now : Int) (s : SetCache K) (h : exp ≠ s.expiredAt) :
    s.lockedRebuild exp now = s := by
  simp [lockedRebuild, h]

theorem set_Build_forced (force : List Bool) (now : Int) (s : SetCache K)
    (hf : forced force = true) : s.Build force now = (s.build now, none) := by
  simp [Build, hf]

theorem set_Build_expired (force : List Bool) (now : Int) (s : SetCache K)
    (hf : forced force = false) (h : s.expiredAt ≤ now) :
    s.Build force now = (s.build now, none) := by
  simp [Build, hf, h, lockedRebuild]

theorem set_Build_prebuild (force : List Bool) (now : Int) (s : SetCache K)
    (hf : forced force = false) (h0 : 0 < s.expiredAt - now)
    (h1 : s.expiredAt - now ≤ prebuildDuration s.expire) :
    s.Build force now = (s, some s.expiredAt) := by
  have h : ¬ s.expiredAt ≤ now := by omega
  simp [Build, hf, h, h1]

theorem set_Build_fresh (force : List Bool) (now : Int) (s : SetCache K)
    (hf : forced force = false) (h1 : prebuildDuration s.expire < s.expiredAt - now) :
    s.Build force now = (s, none) := by
  have hp := prebuildDuration_pos s.expire
  have h : ¬ s.expiredAt ≤ now := by omega
  have h2 : ¬ s.expiredAt - now ≤ prebuildDuration s.expire := by omega
  simp [Build, hf, h, h2]

theorem set_BuildJoin_calls (force : List Bool) (now later : Int) (s : SetCache K)
    (hf : forced force = false) :
    (s.BuildJoin force now later).calls.length = s.calls.length + 1 ↔
      (s.expiredAt ≤ now ∨
        (0 < s.expiredAt - now ∧ s.expiredAt - now ≤ prebuildDuration s.expire)) := by
  by_cases h : s.expiredAt ≤ now
  · simp [BuildJoin, set_Build_expired force now s hf h, h]
  · by_cases h1 : s.expiredAt - now ≤ prebuildDuration s.expire
    · have h0 : 0 < s.expiredAt - now := by omega
      simp [BuildJoin, set_Build_prebuild force now s hf h0 h1, h0, h1, detached,
        set_lockedRebuild_self]
    · have h2 : prebuildDuration s.expire < s.expiredAt - now := by omega
      simp [BuildJoin, set_Build_fresh force now s hf h2, h, h1]

/-- Gate of a non-forced `Build`, case by case. -/
theorem set_gate (force : List Bool) (now later : Int) (s : SetCache K)
    (hf : forced force = false) :
    (s.expiredAt ≤ now → s.Build force now = (s.build now, none)) ∧
    (0 < s.expiredAt - now → s.expiredAt - now ≤ prebuildDuration s.expire →
      s.Build force now = (s, some s.expiredAt) ∧
      s.detached s.expiredAt later = s.build later) ∧
    (prebuildDuration s.expire < s.expiredAt - now → s.Build force now = (s, none)) ∧
    ((s.BuildJoin force now later).calls.length = s.calls.length + 1 ↔
      (s.expiredAt ≤ now ∨
        (0 < s.expiredAt - now ∧ s.expiredAt - now ≤ prebuildDuration s.expire))) :=
  ⟨set_Build_expired force now s hf,
   fun h0 h1 => ⟨set_Build_prebuild force now s hf h0 h1, set_lockedRebuild_self later s⟩,
   set_Build_fresh force now s hf,
   set_BuildJoin_calls force now later s hf⟩

end SetCache
namespace Store

variable {K V : Type} [DecidableEq K]

theorem store_ensure_present (key : K) (m : Store K V) (val : Nat)
    (h : m.cache.lookup key = some val) : m.ensure key = (val, m) := by
  simp [ensure, h]

@[simp] theorem store_ensure_calls (key : K) (m : Store K V) :
    (m.ensure key).2.calls = m.calls := by
  cases h : m.cache.lookup key <;> simp [ensure, h, store]

@[simp] theorem store_ensure_expire (key : K) (m : Store K V) :
    (m.ensure key).2.expire = m.expire := by
  cases h : m.cache.lookup key <;> simp [ensure, h, store]

@[simp] theorem store_ensure_source (key : K) (m : Store K V) :
    (m.ensure key).2.source = m.source := by
  cases h : m.cache.lookup key <;> simp [ensure, h, store]

theorem store_ensure_lookup (key : K) (m : Store K V) :
    (m.ensure key).2.cache.lookup key = some (m.ensure key).1 := by
  cases h : m.cache.lookup key <;> simp [ensure, h, store]

theorem store_ensure_absent (key : K) (m : Store K V) (h : m.cache.lookup key = none) :
    m.ensure key =
      (m.next, { heap := fun a => if a = m.next then ⟨0, none⟩ else m.heap a,
                 next := m.next + 1, cache := m.cache.insert key m.next,
                 expire := m.expire, source := m.source, calls := m.calls }) := by
  simp [ensure, h, store]

omit [DecidableEq K] in
theorem store_lockedRebuild_self (val : Nat) (key : K) (opts : List Iface) (now : Int)
    (m : Store K V) :
    m.lockedRebuild val (m.heap val).expiredAt key opts now = m.build val key opts now := by
  simp [lockedRebuild]

omit [DecidableEq K] in
theorem store_lockedRebuild_ne (val : Nat) (exp : Int) (key : K) (opts : List Iface)
    (now : Int) (m : Store K V) (h : exp ≠ (m.heap val).expiredAt) :
    m.lockedRebuild val exp key opts now = m := by
  simp [lockedRebuild, h]

theorem store_Build_forced (key : K) (opts : List Iface) (now : Int) (m : Store K V) :
    m.Build true key opts now =
      ((m.ensure key).2.build (m.ensure key).1 key opts now, none) := by
  simp [Build]

theorem store_Build_expired (key : K) (opts : List Iface) (now : Int) (m : Store K V)
    (h : ((m.ensure key).2.heap (m.ensure key).1).expiredAt ≤ now) :
    m.Build false key opts now =
      ((m.ensure key).2.build (m.ensure key).1 key opts now, none) := by
  simp [Build, h, lockedRebuild]

theorem store_Build_prebuild (key : K) (opts : List Iface) (now : Int) (m : Store K V)
    (h0 : 0 < ((m.ensure key).2.heap (m.ensure key).1).expiredAt - now)
    (h1 : ((m.ensure key).2.heap (m.ensure key).1).expiredAt - now ≤
      prebuildDuration m.expire) :
    m.Build false key opts now =
      ((m.ensure key).2,
        some ⟨(m.ensure key).1, ((m.ensure key).2.heap (m.ensure key).1).expiredAt,
          key, opts⟩) := by
  have h : ¬ ((m.ensure key).2.heap (m.ensure key).1).expiredAt ≤ now := by omega
  simp [Build, h, h1]

theorem store_Build_fresh (key : K) (opts : List Iface) (now : Int) (m : Store K V)
    (h1 : prebuildDuration m.expire <
      ((m.ensure key).2.heap (m.ensure key).1).expiredAt - now) :
    m.Build false key opts now = ((m.ensure key).2, none) := by
  have hp := prebuildDuration_pos m.expire
  have h : ¬ ((m.ensure key).2.heap (m.ensure key).1).expiredAt ≤ now := by omega
  have h2 : ¬ ((m.ensure key).2.heap (m.ensure key).1).expiredAt - now ≤
      prebuildDuration m.expire := by omega
  simp [Build, h, h2]

theorem store_BuildJoin_calls (key : K) (opts : List Iface) (now later : Int) (m : Store K V) :
    (m.BuildJoin false key opts now later).calls.length = m.calls.length + 1 ↔
      (((m.ensure key).2.heap (m.ensure key).1).expiredAt ≤ now ∨
        (0 < ((m.ensure key).2.heap (m.ensure key).1).expiredAt - now ∧
          ((m.ensure key).2.heap (m.ensure key).1).expiredAt - now ≤
            prebuildDuration m.expire)) := by
  by_cases h : ((m.ensure key).2.heap (m.ensure key).1).expiredAt ≤ now
  · simp [BuildJoin, store_Build_expired key opts now m h, h]
  · by_cases h1 : ((m.ensure key).2.heap (m.ensure key).1).expiredAt - now ≤
        prebuildDuration m.expire
    · have h0 : 0 < ((m.ensure key).2.heap (m.ensure key).1).expiredAt - now := by omega
      simp [BuildJoin, store_Build_prebuild key opts now m h0 h1, h0, h1, detached,
        store_lockedRebuild_self]
    · have h2 : prebuildDuration m.expire <
          ((m.ensure key).2.heap (m.ensure key).1).expiredAt - now := by omega
      simp [BuildJoin, store_Build_fresh key opts now m h2, h, h1]

/-- Gate of a non-forced `Store.Build`, case by case, on the unit `val` that
the prologue finds or allocates for `key`. -/
theorem store_gate (key : K) (opts : List Iface) (now later : Int) (m m1 : Store K V)
    (val : Nat) (he : m.ensure key = (val, m1)) :
    ((m1.heap val).expiredAt ≤ now →
      m.Build false key opts now = (m1.build val key opts now, none)) ∧
    (0 < (m1.heap val).expiredAt - now →
      (m1.heap val).expiredAt - now ≤ prebuildDuration m.expire →
      m.Build false key opts now = (m1, some ⟨val, (m1.heap val).expiredAt, key, opts⟩) ∧
      m1.detached ⟨val, (m1.heap val).expiredAt, key, opts⟩ later =
        m1.build val key opts later) ∧
    (prebuildDuration m.expire < (m1.heap val).expiredAt - now →
      m.Build false key opts now = (m1, none) ∧ m1.calls = m.calls ∧
      (m.cache.lookup key = some val → m1 = m)) ∧
    ((m.BuildJoin false key opts now later).calls.length = m.calls.length + 1 ↔
      ((m1.heap val).expiredAt ≤ now ∨
        (0 < (m1.heap val).expiredAt - now ∧
          (m1.heap val).expiredAt - now ≤ prebuildDuration m.expire))) := by
  have e1 : (m.ensure key).1 = val := by rw [he]
  have e2 : (m.ensure key).2 = m1 := by rw [he]
  refine ⟨fun h => ?_, fun h0 h1 => ⟨?_, ?_⟩, fun h => ⟨?_, ?_, fun hl => ?_⟩, ?_⟩
  · have := store_Build_expired key opts now m (by rw [e1, e2]; exact h)
    rwa [e1, e2] at this
  · have := store_Build_prebuild key opts now m (by rw [e1, e2]; exact h0)
      (by rw [e1, e2]; exact h1)
    rwa [e1, e2] at this
  · exact store_lockedRebuild_self val key opts later m1
  · have := store_Build_fresh key opts now m (by rw [e1, e2]; exact h)
    rwa [e2] at this
  · rw [← e2]; exact store_ensure_calls key m
  · have := store_ensure_present key m val hl
    rw [he] at this
    exact (Prod.mk.inj this).2
  · have := store_BuildJoin_calls key opts now later m
    rwa [e1, e2] at this

end Store

/-! ## C2: the gate of a non-forced Build -/

/-- C2. A non-forced `Build` at clock reading `now` on a unit whose
`expiredAt` is `exp`: when `exp <= now` it runs the rebuild procedure before
returning; when `0 < exp - now <= prebuildDuration(ttl)` it returns the state
untouched together with a goroutine whose body, run at `later`, is the rebuild
procedure; when `exp - now > prebuildDuration(ttl)` it returns the state
untouched and spawns nothing.  Counting the goroutine, the builder is invoked
(once) exactly in the first two cases.  For the Store the unit is the one the
prologue finds or allocates for the key. -/
theorem nonforced_build_gate (K V : Type) [DecidableEq K] (now later : Int) :
    (∀ (s : ListCache V) (force : List Bool), forced force = false →
      (s.expiredAt ≤ now → s.Build force now = (s.build now, none)) ∧
      (0 < s.expiredAt - now → s.expiredAt - now ≤ prebuildDuration s.expire →
        s.Build force now = (s, some s.expiredAt) ∧
        s.detached s.expiredAt later = s.build later) ∧
      (prebuildDuration s.expire < s.expiredAt - now → s.Build force now = (s, none)) ∧
      ((s.BuildJoin force now later).calls.length = s.calls.length + 1 ↔
        (s.expiredAt ≤ now ∨
          (0 < s.expiredAt - now ∧ s.expiredAt - now ≤ prebuildDuration s.expire)))) ∧
    (∀ (m : MapCache K V) (force : List Bool), forced force = false →
      (m.expiredAt ≤ now → m.Build force now = (m.build now, none)) ∧
      (0 < m.expiredAt - now → m.expiredAt - now ≤ prebuildDuration m.expire →
        m.Build force now = (m, some m.expiredAt) ∧
        m.detached m.expiredAt later = m.build later) ∧
      (prebuildDuration m.expire < m.expiredAt - now → m.Build force now = (m, none)) ∧
      ((m.BuildJoin force now later).calls.length = m.calls.length + 1 ↔
        (m.expiredAt ≤ now ∨
          (0 < m.expiredAt - now ∧ m.expiredAt - now ≤ prebuildDuration m.expire)))) ∧
    (∀ (s : SetCache K) (force : List Bool), forced force = false →
      (s.expiredAt ≤ now → s.Build force now = (s.build now, none)) ∧
      (0 < s.expiredAt - now → s.expiredAt - now ≤ prebuildDuration s.expire →
        s.Build force now = (s, some s.expiredAt) ∧
        s.detached s.expiredAt later = s.build later) ∧
      (prebuildDuration s.expire < s.expiredAt - now → s.Build force now = (s, none)) ∧
      ((s.BuildJoin force now later).calls.length = s.calls.length + 1 ↔
        (s.expiredAt ≤ now ∨
          (0 < s.expiredAt - now ∧ s.expiredAt - now ≤ prebuildDuration s.expire)))) ∧
    (∀ (m m1 : Store K V) (key : K) (opts : List Iface) (val : Nat),
      m.ensure key = (val, m1) →
      ((m1.heap val).expiredAt ≤ now →
        m.Build false key opts now = (m1.build val key opts now, none)) ∧
      (0 < (m1.heap val).expiredAt - now →
        (m1.heap val).expiredAt - now ≤ prebuildDuration m.expire →
        m.Build false key opts now = (m1, some ⟨val, (m1.heap val).expiredAt, key, opts⟩) ∧
        m1.detached ⟨val, (m1.heap val).expiredAt, key, opts⟩ later =
          m1.build val key opts later) ∧
      (prebuildDuration m.expire < (m1.heap val).expiredAt - now →
        m.Build false key opts now = (m1, none) ∧ m1.calls = m.calls ∧
        (m.cache.lookup key = some val → m1 = m)) ∧
      ((m.BuildJoin false key opts now later).calls.length = m.calls.length + 1 ↔
        ((m1.heap val).expiredAt ≤ now ∨
          (0 < (m1.heap val).expiredAt - now ∧
            (m1.heap val).expiredAt - now ≤ prebuildDuration m.expire)))) :=
  ⟨fun s force hf => ListCache.list_gate force now later s hf,
   fun m force hf => MapCache.map_gate force now later m hf,
   fun s force hf => SetCache.set_gate force now later s hf,
   fun m m1 key opts val he => Store.store_gate key opts now later m m1 val he⟩

/-- Witness for C2: the sample list (expiredAt 100, ttl 10, window 1) is
rebuilt by a read at 100, pre-built by a read at 99, left alone at 98; the
sample store likewise for key 5. -/
theorem nonforced_build_gate_witness :
    (sampleList.Build [] 100 = (sampleList.build 100, none) ∧
     sampleList.Build [] 99 = (sampleList, some 100) ∧
     sampleList.Build [] 98 = (sampleList, none)) ∧
    (sampleStore.Build false 5 [] 100 = (sampleStore.build 0 5 [] 100, none) ∧
     (sampleStore.Build false 5 [] 98 = (sampleStore, none) ∧
      sampleStore.calls = sampleStore.calls ∧
      (sampleStore.cache.lookup 5 = some 0 → sampleStore = sampleStore))) :=
  ⟨⟨((nonforced_build_gate Nat Nat 100 100).1 sampleList [] rfl).1 (by decide),
    (((nonforced_build_gate Nat Nat 99 99).1 sampleList [] rfl).2.1 (by decide) (by decide)).1,
    ((nonforced_build_gate Nat Nat 98 98).1 sampleList [] rfl).2.2.1 (by decide)⟩,
   ((nonforced_build_gate Nat Nat 100 100).2.2.2 sampleStore sampleStore 5 [] 0 rfl).1
      (by decide),
   ((nonforced_build_gate Nat Nat 98 98).2.2.2 sampleStore sampleStore 5 [] 0 rfl).2.2.1
      (by decide)⟩

/-! ## C3: forced Build -/

/-- C3. A forced `Build` at clock reading `now` runs the rebuild procedure
whatever `expiredAt` is: the builder is invoked exactly once (one new entry
in `calls`, stamped `now`), `expiredAt` becomes `now + ttl`, and a non-nil
result becomes the payload (the list itself, the map's bindings, the set of
the slice's elements, the unit's value).  For the Store this is the unit of
the key. -/
theorem forced_build_always_rebuilds (K V : Type) [DecidableEq K] (now : Int) :
    (∀ (s : ListCache V) (force : List Bool), forced force = true →
      s.Build force now = (s.build now, none) ∧
      (s.Build force now).1.calls = now :: s.calls ∧
      (s.Build force now).1.expiredAt = now + s.expire ∧
      (∀ r, s.source s.calls.length = some r → (s.Build force now).1.cache = r)) ∧
    (∀ (m : MapCache K V) (force : List Bool), forced force = true →
      m.Build force now = (m.build now, none) ∧
      (m.Build force now).1.calls = now :: m.calls ∧
      (m.Build force now).1.expiredAt = now + m.expire ∧
      (∀ r, m.source m.calls.length = some r →
        ∀ k, (m.Build force now).1.cache.lookup k = r.lookup k)) ∧
    (∀ (s : SetCache K) (force : List Bool), forced force = true →
      s.Build force now = (s.build now, none) ∧
      (s.Build force now).1.calls = now :: s.calls ∧
      (s.Build force now).1.expiredAt = now + s.expire ∧
      (∀ r, s.source s.calls.length = some r →
        ∀ k, ((s.Build force now).1.cache.lookup k).isSome = true ↔ k ∈ r)) ∧
    (∀ (m m1 : Store K V) (key : K) (opts : List Iface) (val : Nat),
      m.ensure key = (val, m1) →
      m.Build true key opts now = (m1.build val key opts now, none) ∧
      (m.Build true key opts now).1.cache.lookup key = some val ∧
      (m.Build true key opts now).1.calls = ⟨now, key, [Iface.slice opts]⟩ :: m.calls ∧
      ((m.Build true key opts now).1.heap val).expiredAt = now + m.expire ∧
      (∀ r, m.source m.calls.length key [Iface.slice opts] = some r →
        ((m.Build true key opts now).1.heap val).value = some r)) := by
  refine ⟨fun s force hf => ?_, fun m force hf => ?_, fun s force hf => ?_,
    fun m m1 key opts val he => ?_⟩
  · rw [ListCache.list_Build_forced force now s hf]
    exact ⟨rfl, s.list_build_calls now, s.list_build_expiredAt now,
      fun r hr => s.list_build_cache_some now r hr⟩
  · rw [MapCache.map_Build_forced force now m hf]
    exact ⟨rfl, m.map_build_calls now, m.map_build_expiredAt now,
      fun r hr k => by rw [m.map_build_cache_some now r hr, MapCache.map_copyMap_lookup]⟩
  · rw [SetCache.set_Build_forced force now s hf]
    exact ⟨rfl, s.set_build_calls now, s.set_build_expiredAt now,
      fun r hr k => by rw [s.set_build_cache_some now r hr, SetCache.set_fromSlice_lookup]⟩
  · have e1 : (m.ensure key).1 = val := by rw [he]
    have e2 : (m.ensure key).2 = m1 := by rw [he]
    have hc : m1.calls = m.calls := by rw [← e2]; exact Store.store_ensure_calls key m
    have hx : m1.expire = m.expire := by rw [← e2]; exact Store.store_ensure_expire key m
    have hs : m1.source = m.source := by rw [← e2]; exact Store.store_ensure_source key m
    have hl : m1.cache.lookup key = some val := by
      have := Store.store_ensure_lookup key m
      rwa [e1, e2] at this
    rw [Store.store_Build_forced key opts now m, e1, e2]
    refine ⟨rfl, ?_, ?_, ?_, fun r hr => ?_⟩
    · simpa using hl
    · simp [hc]
    · simp [hx]
    · exact m1.store_build_heap_value_some val key opts now r (by rw [hs, hc]; exact hr)

/-- Witness for C3: a forced build at 50 on the sample list, which expires
at 100 and is outside its pre-build window. -/
theorem forced_build_always_rebuilds_witness :
    sampleList.Build [true] 50 = (sampleList.build 50, none) ∧
    (sampleList.Build [true] 50).1.calls = 50 :: sampleList.calls ∧
    (sampleList.Build [true] 50).1.expiredAt = 50 + sampleList.expire ∧
    (∀ r, sampleList.source sampleList.calls.length = some r →
      (sampleList.Build [true] 50).1.cache = r) :=
  (forced_build_always_rebuilds Nat Nat 50).1 sampleList [true] rfl

/-! ## Operation sequences: what no operation decreases -/


theorem traceWith_eq_cons {σ Op : Type} (step : Int → Op → σ → σ) (ops : List (Int × Op))
    (s : σ) : traceWith step ops s = s :: (traceWith step ops s).tail := by
  cases ops with
  | nil => rfl
  | cons hd rest => obtain ⟨t, op⟩ := hd; rfl

/-- A measure that no operation decreases, under an invariant indexed by a
lower bound on the clock, is non-decreasing along every trace. -/
theorem traceWith_pairwise {σ Op : Type} (step : Int → Op → σ → σ) (f : σ → Int)
    (Inv : Int → σ → Prop)
    (hstep : ∀ t0 t op s, Inv t0 s → t0 ≤ t →
      Inv t (step t op s) ∧ f s ≤ f (step t op s)) :
    ∀ (ops : List (Int × Op)) (s : σ) (t0 : Int), Inv t0 s →
      List.Chain (· ≤ ·) t0 (ops.map Prod.fst) →
      List.Pairwise (· ≤ ·) ((traceWith step ops s).map f) := by
  intro ops s t0 hinv hchain
  rw [← List.chain'_iff_pairwise]
  induction ops generalizing s t0 with
  | nil => simp [traceWith]
  | cons hd rest ih =>
    obtain ⟨t, op⟩ := hd
    simp only [List.map_cons, List.chain_cons] at hchain
    obtain ⟨hle, hrest⟩ := hchain
    obtain ⟨hinv', hmono⟩ := hstep t0 t op s hinv hle
    have htail := ih (step t op s) t hinv' hrest
    rw [traceWith_eq_cons] at htail
    simp only [traceWith, List.map_cons]
    rw [traceWith_eq_cons step rest (step t op s)]
    simp only [List.map_cons] at htail ⊢
    exact List.Chain'.cons hmono htail

namespace ListCache

variable {V : Type}

/-- Every operation keeps the ttl and either leaves `expiredAt` and the
invocation record alone or is one rebuild attempt: one more invocation,
stamped `t`, and `expiredAt = t + expire`. -/
theorem list_step_cases (t : Int) (op : ListOp) (s : ListCache V) :
    (s.step t op).expire = s.expire ∧
    (((s.step t op).expiredAt = s.expiredAt ∧ (s.step t op).calls = s.calls) ∨
     ((s.step t op).expiredAt = t + s.expire ∧ (s.step t op).calls = t :: s.calls)) := by
  cases op <;> simp only [step, Build, detached, lockedRebuild, check] <;>
    (repeat' split) <;> simp

theorem list_step_inv (t0 t : Int) (op : ListOp) (s : ListCache V)
    (hinv : s.expiredAt ≤ t0 + s.expire ∧ 0 ≤ s.expire) (hle : t0 ≤ t) :
    ((s.step t op).expiredAt ≤ t + (s.step t op).expire ∧ 0 ≤ (s.step t op).expire) ∧
    s.expiredAt ≤ (s.step t op).expiredAt := by
  obtain ⟨he, hc⟩ := list_step_cases t op s
  rw [he]
  rcases hc with ⟨h, _⟩ | ⟨h, _⟩ <;> rw [h] <;> omega

/-- Along every run at non-decreasing clock readings, from a state whose
`expiredAt` is at most `t0 + ttl` with `ttl >= 0`, `expiredAt` never decreases. -/
theorem list_trace_mono (ops : List (Int × ListOp)) (s : ListCache V) (t0 : Int)
    (hinv : s.expiredAt ≤ t0 + s.expire ∧ 0 ≤ s.expire)
    (hchain : List.Chain (· ≤ ·) t0 (ops.map Prod.fst)) :
    List.Pairwise (· ≤ ·) ((traceWith step ops s).map (fun x => x.expiredAt)) :=
  traceWith_pairwise step (fun x => x.expiredAt)
    (fun t x => x.expiredAt ≤ t + x.expire ∧ 0 ≤ x.expire)
    (fun t0 t op x hx hle => list_step_inv t0 t op x hx hle) ops s t0 hinv hchain

end ListCache

namespace MapCache

variable {K V : Type} [DecidableEq K]

/-- Every operation keeps the ttl and either leaves `expiredAt` and the
invocation record alone or is one rebuild attempt: one more invocation,
stamped `t`, and `expiredAt = t + expire`. -/
theorem map_step_cases (t : Int) (op : MapOp K V) (m : MapCache K V) :
    (m.step t op).expire = m.expire ∧
    (((m.step t op).expiredAt = m.expiredAt ∧ (m.step t op).calls = m.calls) ∨
     ((m.step t op).expiredAt = t + m.expire ∧ (m.step t op).calls = t :: m.calls)) := by
  cases op <;> simp only [step, Build, detached, lockedRebuild, check, Set, Delete] <;>
    (repeat' split) <;> simp

theorem map_step_inv (t0 t : Int) (op : MapOp K V) (m : MapCache K V)
    (hinv : m.expiredAt ≤ t0 + m.expire ∧ 0 ≤ m.expire) (hle : t0 ≤ t) :
    ((m.step t op).expiredAt ≤ t + (m.step t op).expire ∧ 0 ≤ (m.step t op).expire) ∧
    m.expiredAt ≤ (m.step t op).expiredAt := by
  obtain ⟨he, hc⟩ := map_step_cases t op m
  rw [he]
  rcases hc with ⟨h, _⟩ | ⟨h, _⟩ <;> rw [h] <;> omega

/-- Along every run at non-decreasing clock readings, from a state whose
`expiredAt` is at most `t0 + ttl` with `ttl >= 0`, `expiredAt` never decreases. -/
theorem map_trace_mono (ops : List (Int × MapOp K V)) (m : MapCache K V) (t0 : Int)
    (hinv : m.expiredAt ≤ t0 + m.expire ∧ 0 ≤ m.expire)
    (hchain : List.Chain (· ≤ ·) t0 (ops.map Prod.fst)) :
    List.Pairwise (· ≤ ·) ((traceWith step ops m).map (fun x => x.expiredAt)) :=
  traceWith_pairwise step (fun x => x.expiredAt)
    (fun t x => x.expiredAt ≤ t + x.expire ∧ 0 ≤ x.expire)
    (fun t0 t op x hx hle => map_step_inv t0 t op x hx hle) ops m t0 hinv hchain

end MapCache

namespace SetCache

variable {K : Type} [DecidableEq K]

/-- Every operation keeps the ttl and either leaves `expiredAt` and the
invocation record alone or is one rebuild attempt: one more invocation,
stamped `t`, and `expiredAt = t + expire`. -/
theorem set_step_cases (t : Int) (op : SetOp K) (s : SetCache K) :
    (s.step t op).expire = s.expire ∧
    (((s.step t op).expiredAt = s.expiredAt ∧ (s.step t op).calls = s.calls) ∨
     ((s.step t op).expiredAt = t + s.expire ∧ (s.step t op).calls = t :: s.calls)) := by
  cases op <;> simp only [step, Build, detached, lockedRebuild, check, Add, Delete] <;>
    (repeat' split) <;> simp

theorem set_step_inv (t0 t : Int) (op : SetOp K) (s : SetCache K)
    (hinv : s.expiredAt ≤ t0 + s.expire ∧ 0 ≤ s.expire) (hle : t0 ≤ t) :
    ((s.step t op).expiredAt ≤ t + (s.step t op).expire ∧ 0 ≤ (s.step t op).expire) ∧
    s.expiredAt ≤ (s.step t op).expiredAt := by
  obtain ⟨he, hc⟩ := set_step_cases t op s
  rw [he]
  rcases hc with ⟨h, _⟩ | ⟨h, _⟩ <;> rw [h] <;> omega

/-- Along every run at non-decreasing clock readings, from a state whose
`expiredAt` is at most `t0 + ttl` with `ttl >= 0`, `expiredAt` never decreases. -/
theorem set_trace_mono (ops : List (Int × SetOp K)) (s : SetCache K) (t0 : Int)
    (hinv : s.expiredAt ≤ t0 + s.expire ∧ 0 ≤ s.expire)
    (hchain : List.Chain (· ≤ ·) t0 (ops.map Prod.fst)) :
    List.Pairwise (· ≤ ·) ((traceWith step ops s).map (fun x => x.expiredAt)) :=
  traceWith_pairwise step (fun x => x.expiredAt)
    (fun t x => x.expiredAt ≤ t + x.expire ∧ 0 ≤ x.expire)
    (fun t0 t op x hx hle => set_step_inv t0 t op x hx hle) ops s t0 hinv hchain

end SetCache
namespace Store
variable {K V : Type} [DecidableEq K]

@[simp] theorem store_check_heap (t : Int) (m : Store K V) : (m.check t).heap = m.heap := rfl
@[simp] theorem store_check_next (t : Int) (m : Store K V) : (m.check t).next = m.next := rfl
@[simp] theorem store_check_expire (t : Int) (m : Store K V) : (m.check t).expire = m.expire := rfl
@[simp] theorem store_check_calls (t : Int) (m : Store K V) : (m.check t).calls = m.calls := rfl

theorem store_sweep_lookup (heap : Nat → storeEelment V) (t : Int)
    (l : List (Sigma (fun _ : K => Nat))) (c : AList (fun _ : K => Nat)) (k : K) (a : Nat)
    (h : (l.foldl (fun c kv => if (heap kv.2).expiredAt ≤ t then c.erase kv.1 else c) c).lookup k
      = some a) : c.lookup k = some a := by
  induction l generalizing c with
  | nil => simpa using h
  | cons hd rest ih =>
    simp only [List.foldl_cons] at h
    have h1 := ih _ h
    split at h1
    · by_cases hk : k = hd.1
      · subst hk; simp at h1
      · rwa [AList.lookup_erase_ne hk] at h1
    · exact h1

theorem store_check_lookup (t : Int) (m : Store K V) (k : K) (a : Nat)
    (h : (m.check t).cache.lookup k = some a) : m.cache.lookup k = some a :=
  store_sweep_lookup m.heap t m.cache.entries m.cache k a h

theorem store_ensure_heap_expiredAt (key : K) (m : Store K V)
    (h2 : ∀ a, m.next ≤ a → (m.heap a).expiredAt = 0) (a : Nat) :
    ((m.ensure key).2.heap a).expiredAt = (m.heap a).expiredAt := by
  cases h : m.cache.lookup key with
  | some val => simp [ensure, h]
  | none =>
    simp only [ensure, h, store]
    by_cases ha : a = m.next
    · simp [ha, h2 m.next le_rfl]
    · simp [ha]

theorem store_ensure_inv (t0 : Int) (key : K) (m : Store K V) (hinv : m.Inv t0) :
    (m.ensure key).2.Inv t0 ∧ (m.ensure key).1 < (m.ensure key).2.next ∧
    m.next ≤ (m.ensure key).2.next := by
  obtain ⟨h0, h1, h2, h3⟩ := hinv
  cases h : m.cache.lookup key with
  | some val =>
    rw [store_ensure_present key m val h]
    exact ⟨⟨h0, h1, h2, h3⟩, h3 key val h, le_rfl⟩
  | none =>
    have hx := store_ensure_heap_expiredAt key m h2
    rw [store_ensure_absent key m h] at hx ⊢
    refine ⟨⟨h0, fun a => ?_, fun a ha => ?_, fun k a hk => ?_⟩, ?_, ?_⟩
    · rw [hx a]; exact h1 a
    · rw [hx a]; exact h2 a (by simp at ha; omega)
    · simp only at hk ⊢
      by_cases hkk : k = key
      · subst hkk; simp at hk; omega
      · rw [AList.lookup_insert_ne hkk] at hk
        have := h3 k a hk; omega
    · simp
    · simp

theorem store_build_inv (t0 t : Int) (val : Nat) (key : K) (opts : List Iface) (m : Store K V)
    (hinv : m.Inv t0) (hle : t0 ≤ t) (hv : val < m.next) :
    (m.build val key opts t).Inv t ∧
    ∀ a, (m.heap a).expiredAt ≤ ((m.build val key opts t).heap a).expiredAt := by
  obtain ⟨h0, h1, h2, h3⟩ := hinv
  refine ⟨⟨by simpa using h0, fun a => ?_, fun a ha => ?_, fun k a hk => ?_⟩, fun a => ?_⟩
  · rw [store_build_heap]; simp only [store_build_expire]
    split
    · simp
    · have := h1 a; omega
  · simp only [store_build_next] at ha
    rw [store_build_heap_ne _ _ _ _ _ _ (by omega)]
    exact h2 a ha
  · simp only [store_build_cache, store_build_next] at hk ⊢
    exact h3 k a hk
  · rw [store_build_heap]
    split
    · rename_i h; subst h; simp only; have := h1 a; omega
    · exact le_rfl

theorem store_inv_mono (t0 t : Int) (m : Store K V) (hinv : m.Inv t0) (hle : t0 ≤ t) :
    m.Inv t := by
  obtain ⟨h0, h1, h2, h3⟩ := hinv
  exact ⟨h0, fun a => by have := h1 a; omega, h2, h3⟩

theorem store_lockedRebuild_inv (t0 t : Int) (val : Nat) (exp : Int) (key : K)
    (opts : List Iface) (m : Store K V) (hinv : m.Inv t0) (hle : t0 ≤ t) (hv : val < m.next) :
    (m.lockedRebuild val exp key opts t).Inv t ∧
    (m.lockedRebuild val exp key opts t).next = m.next ∧
    ∀ a, (m.heap a).expiredAt ≤ ((m.lockedRebuild val exp key opts t).heap a).expiredAt := by
  unfold lockedRebuild
  split
  · exact ⟨(store_build_inv t0 t val key opts m hinv hle hv).1, by simp,
      (store_build_inv t0 t val key opts m hinv hle hv).2⟩
  · exact ⟨store_inv_mono t0 t m hinv hle, rfl, fun a => le_rfl⟩

end Store
namespace Store
variable {K V : Type} [DecidableEq K]

theorem store_Build_inv (t0 t : Int) (force : Bool) (key : K) (opts : List Iface)
    (m : Store K V) (hinv : m.Inv t0) (hle : t0 ≤ t) :
    (m.Build force key opts t).1.Inv t ∧
    m.next ≤ (m.Build force key opts t).1.next ∧
    (∀ task ∈ (m.Build force key opts t).2, task.val < (m.Build force key opts t).1.next) ∧
    ∀ a, (m.heap a).expiredAt ≤ ((m.Build force key opts t).1.heap a).expiredAt := by
  obtain ⟨hi, hv, hn⟩ := store_ensure_inv t0 key m hinv
  have hx := store_ensure_heap_expiredAt key m hinv.2.2.1
  have hb := store_build_inv t0 t (m.ensure key).1 key opts (m.ensure key).2 hi hle hv
  have hkeep := store_inv_mono t0 t (m.ensure key).2 hi hle
  simp only [Build, lockedRebuild]
  cases force with
  | true =>
    simp only [if_true]
    exact ⟨hb.1, by simpa using hn, by simp, fun a => by rw [← hx a]; exact hb.2 a⟩
  | false =>
    simp only [Bool.false_eq_true, if_false, if_true]
    split
    · exact ⟨hb.1, by simpa using hn, by simp, fun a => by rw [← hx a]; exact hb.2 a⟩
    · split
      · refine ⟨hkeep, hn, ?_, fun a => by rw [hx a]⟩
        intro task htask
        simp only [Option.mem_def, Option.some.injEq] at htask
        subst htask
        exact hv
      · exact ⟨hkeep, hn, by simp, fun a => by rw [hx a]⟩

theorem store_Build_cases (t : Int) (force : Bool) (key : K) (opts : List Iface)
    (m : Store K V) :
    (m.Build force key opts t).1.expire = m.expire ∧
    ((m.Build force key opts t).1.calls = m.calls ∨
     ((m.Build force key opts t).1.calls = ⟨t, key, [Iface.slice opts]⟩ :: m.calls ∧
      ((m.Build force key opts t).1.heap (m.ensure key).1).expiredAt = t + m.expire)) := by
  simp only [Build, lockedRebuild]
  cases force <;> (repeat' split) <;> simp

end Store

namespace StoreSys
variable {K V : Type} [DecidableEq K]

theorem storesys_step_inv (t0 t : Int) (op : StoreOp K) (y : StoreSys K V)
    (hinv : y.Inv t0) (hle : t0 ≤ t) :
    (y.step t op).Inv t ∧
    ∀ a, (y.store.heap a).expiredAt ≤ ((y.step t op).store.heap a).expiredAt := by
  obtain ⟨hs, hp⟩ := hinv
  cases op with
  | Build force key opts =>
    obtain ⟨h1, h2, h3, h4⟩ := Store.store_Build_inv t0 t force key opts y.store hs hle
    refine ⟨⟨h1, fun task htask => ?_⟩, h4⟩
    simp only [step, List.mem_append, Option.mem_toList] at htask
    rcases htask with h | h
    · have := hp task h
      simp only [step]; omega
    · exact h3 task h
  | run i =>
    simp only [step]
    cases hi : y.pending[i]? with
    | none => exact ⟨⟨Store.store_inv_mono t0 t y.store hs hle, hp⟩, fun a => le_rfl⟩
    | some task =>
      have hmem : task ∈ y.pending := List.getElem?_mem hi
      obtain ⟨h1, h2, h3⟩ := Store.store_lockedRebuild_inv t0 t task.val task.exp task.key
        task.opts y.store hs hle (hp task hmem)
      refine ⟨⟨h1, fun task2 h => ?_⟩, h3⟩
      simp only [Store.detached] at h ⊢
      rw [h2]
      exact hp task2 (List.mem_of_mem_eraseIdx h)
  | check =>
    simp only [step]
    obtain ⟨h0, h1, h2, h3⟩ := hs
    refine ⟨⟨⟨h0, fun a => ?_, h2, fun k a hk => ?_⟩, hp⟩, fun a => le_rfl⟩
    · have := h1 a; simp only [Store.store_check_heap, Store.store_check_expire]; omega
    · exact h3 k a (Store.store_check_lookup t y.store k a hk)

/-- Every operation keeps the ttl and either makes no invocation or is one
rebuild attempt: one more invocation, stamped `t`, after which the rebuilt
unit has `expiredAt = t + expire`. -/
theorem storesys_step_cases (t : Int) (op : StoreOp K) (y : StoreSys K V) :
    (y.step t op).store.expire = y.store.expire ∧
    ((y.step t op).store.calls = y.store.calls ∨
     ∃ val key opts,
      (y.step t op).store.calls = ⟨t, key, [Iface.slice opts]⟩ :: y.store.calls ∧
      ((y.step t op).store.heap val).expiredAt = t + y.store.expire) := by
  cases op with
  | Build force key opts =>
    obtain ⟨h1, h2⟩ := Store.store_Build_cases t force key opts y.store
    refine ⟨h1, ?_⟩
    rcases h2 with h | h
    · exact Or.inl h
    · exact Or.inr ⟨_, key, opts, h⟩
  | run i =>
    simp only [step]
    cases hi : y.pending[i]? with
    | none => exact ⟨rfl, Or.inl rfl⟩
    | some task =>
      simp only [Store.detached, Store.lockedRebuild]
      split
      · exact ⟨by simp, Or.inr ⟨task.val, task.key, task.opts, by simp, by simp⟩⟩
      · exact ⟨rfl, Or.inl rfl⟩
  | check => exact ⟨rfl, Or.inl rfl⟩

/-- Along every run at non-decreasing clock readings the `expiredAt` of every
unit of the store never decreases. -/
theorem storesys_trace_mono (ops : List (Int × StoreOp K)) (y : StoreSys K V) (t0 : Int)
    (hinv : y.Inv t0) (hchain : List.Chain (· ≤ ·) t0 (ops.map Prod.fst)) (a : Nat) :
    List.Pairwise (· ≤ ·)
      ((traceWith step ops y).map (fun x => (x.store.heap a).expiredAt)) :=
  traceWith_pairwise step (fun x => (x.store.heap a).expiredAt) Inv
    (fun t0 t op x hx hle =>
      ⟨(storesys_step_inv t0 t op x hx hle).1, (storesys_step_inv t0 t op x hx hle).2 a⟩)
    ops y t0 hinv hchain

theorem storesys_new_inv (source : Nat → K → List Iface → Option V) (expire : Int)
    (h : 0 ≤ expire) : (StoreSys.mk (Store.NewStore source expire) []).Inv 0 := by
  refine ⟨⟨h, fun a => ?_, fun a _ => rfl, fun k a hk => ?_⟩, fun task ht => ?_⟩
  · simpa [Store.NewStore] using h
  · simp [Store.NewStore] at hk
  · simp at ht

end StoreSys

/-! ## Rebuild attempts stamp the unit they rebuild -/

namespace ListCache

variable {V : Type}

/-- The operations that run the rebuild procedure stamp the unit: a forced
`Build`, a non-forced `Build` on a hard-expired unit and a goroutine whose
snapshot is still current each record one invocation at `t` and leave
`expiredAt = t + expire`. -/
theorem list_attempts_stamp (t : Int) (s : ListCache V) :
    (∀ force, forced force = true →
      (s.step t (.Build force)).expiredAt = t + s.expire ∧
      (s.step t (.Build force)).calls = t :: s.calls) ∧
    (∀ force, forced force = false → s.expiredAt ≤ t →
      (s.step t (.Build force)).expiredAt = t + s.expire ∧
      (s.step t (.Build force)).calls = t :: s.calls) ∧
    ((s.step t (.detached s.expiredAt)).expiredAt = t + s.expire ∧
      (s.step t (.detached s.expiredAt)).calls = t :: s.calls) := by
  refine ⟨fun force hf => ?_, fun force hf he => ?_, ?_⟩
  · simp only [step, list_Build_forced force t s hf]
    exact ⟨list_build_expiredAt t s, list_build_calls t s⟩
  · simp only [step, list_Build_expired force t s hf he]
    exact ⟨list_build_expiredAt t s, list_build_calls t s⟩
  · simp only [step, detached, list_lockedRebuild_self]
    exact ⟨list_build_expiredAt t s, list_build_calls t s⟩

end ListCache

namespace MapCache

variable {K V : Type} [DecidableEq K]

/-- The operations that run the rebuild procedure stamp the unit: a forced
`Build`, a non-forced `Build` on a hard-expired unit and a goroutine whose
snapshot is still current each record one invocation at `t` and leave
`expiredAt = t + expire`. -/
theorem map_attempts_stamp (t : Int) (m : MapCache K V) :
    (∀ force, forced force = true →
      (m.step t (.Build force)).expiredAt = t + m.expire ∧
      (m.step t (.Build force)).calls = t :: m.calls) ∧
    (∀ force, forced force = false → m.expiredAt ≤ t →
      (m.step t (.Build force)).expiredAt = t + m.expire ∧
      (m.step t (.Build force)).calls = t :: m.calls) ∧
    ((m.step t (.detached m.expiredAt)).expiredAt = t + m.expire ∧
      (m.step t (.detached m.expiredAt)).calls = t :: m.calls) := by
  refine ⟨fun force hf => ?_, fun force hf he => ?_, ?_⟩
  · simp only [step, map_Build_forced force t m hf]
    exact ⟨map_build_expiredAt t m, map_build_calls t m⟩
  · simp only [step, map_Build_expired force t m hf he]
    exact ⟨map_build_expiredAt t m, map_build_calls t m⟩
  · simp only [step, detached, map_lockedRebuild_self]
    exact ⟨map_build_expiredAt t m, map_build_calls t m⟩

end MapCache

namespace SetCache

variable {K : Type} [DecidableEq K]

/-- The operations that run the rebuild procedure stamp the unit: a forced
`Build`, a non-forced `Build` on a hard-expired unit and a goroutine whose
snapshot is still current each record one invocation at `t` and leave
`expiredAt = t + expire`. -/
theorem set_attempts_stamp (t : Int) (s : SetCache K) :
    (∀ force, forced force = true →
      (s.step t (.Build force)).expiredAt = t + s.expire ∧
      (s.step t (.Build force)).calls = t :: s.calls) ∧
    (∀ force, forced force = false → s.expiredAt ≤ t →
      (s.step t (.Build force)).expiredAt = t + s.expire ∧
      (s.step t (.Build force)).calls = t :: s.calls) ∧
    ((s.step t (.detached s.expiredAt)).expiredAt = t + s.expire ∧
      (s.step t (.detached s.expiredAt)).calls = t :: s.calls) := by
  refine ⟨fun force hf => ?_, fun force hf he => ?_, ?_⟩
  · simp only [step, set_Build_forced force t s hf]
    exact ⟨set_build_expiredAt t s, set_build_calls t s⟩
  · simp only [step, set_Build_expired force t s hf he]
    exact ⟨set_build_expiredAt t s, set_build_calls t s⟩
  · simp only [step, detached, set_lockedRebuild_self]
    exact ⟨set_build_expiredAt t s, set_build_calls t s⟩

end SetCache

namespace Store
variable {K V : Type} [DecidableEq K]

theorem store_Build_lookup (force : Bool) (key : K) (opts : List Iface) (now : Int)
    (m : Store K V) :
    (m.Build force key opts now).1.cache.lookup key = some (m.ensure key).1 := by
  have hl := store_ensure_lookup key m
  simp only [Build, lockedRebuild]
  cases force <;> (repeat' split) <;> simpa using hl

/-- The rebuilding paths of `Store.Build` and of its goroutine stamp the unit
they rebuild: the unit the key maps to, respectively the unit the goroutine
captured, gets `expiredAt = t + expire`, with one invocation recorded at `t`. -/
theorem store_attempts_stamp (t : Int) (m : Store K V) :
    (∀ key opts,
      (m.Build true key opts t).1.cache.lookup key = some (m.ensure key).1 ∧
      ((m.Build true key opts t).1.heap (m.ensure key).1).expiredAt = t + m.expire ∧
      (m.Build true key opts t).1.calls = ⟨t, key, [Iface.slice opts]⟩ :: m.calls) ∧
    (∀ key opts, ((m.ensure key).2.heap (m.ensure key).1).expiredAt ≤ t →
      (m.Build false key opts t).1.cache.lookup key = some (m.ensure key).1 ∧
      ((m.Build false key opts t).1.heap (m.ensure key).1).expiredAt = t + m.expire ∧
      (m.Build false key opts t).1.calls = ⟨t, key, [Iface.slice opts]⟩ :: m.calls) ∧
    (∀ task : StoreTask K, task.exp = (m.heap task.val).expiredAt →
      ((m.detached task t).heap task.val).expiredAt = t + m.expire ∧
      (m.detached task t).calls = ⟨t, task.key, [Iface.slice task.opts]⟩ :: m.calls) := by
  refine ⟨fun key opts => ⟨store_Build_lookup true key opts t m, ?_, ?_⟩,
    fun key opts he => ⟨store_Build_lookup false key opts t m, ?_, ?_⟩,
    fun task he => ?_⟩
  · rw [store_Build_forced]; simp
  · rw [store_Build_forced]; simp
  · rw [store_Build_expired key opts t m he]; simp
  · rw [store_Build_expired key opts t m he]; simp
  · simp only [detached, lockedRebuild, if_pos he]
    exact ⟨by simp, by simp⟩

end Store

namespace StoreSys
variable {K V : Type} [DecidableEq K]

/-- An operation of the store that records an invocation has stamped the unit
it rebuilt: the unit of the key for a `Build`, the captured unit for a
goroutine; a sweeper tick records none. -/
theorem storesys_attempt_unit (t : Int) (y : StoreSys K V) :
    (∀ force key opts,
      (y.step t (.Build force key opts)).store.calls ≠ y.store.calls →
      (y.step t (.Build force key opts)).store.calls =
        ⟨t, key, [Iface.slice opts]⟩ :: y.store.calls ∧
      (y.step t (.Build force key opts)).store.cache.lookup key = some (y.store.ensure key).1 ∧
      ((y.step t (.Build force key opts)).store.heap (y.store.ensure key).1).expiredAt =
        t + y.store.expire) ∧
    (∀ i task, y.pending[i]? = some task →
      (y.step t (.run i)).store.calls ≠ y.store.calls →
      (y.step t (.run i)).store.calls =
        ⟨t, task.key, [Iface.slice task.opts]⟩ :: y.store.calls ∧
      ((y.step t (.run i)).store.heap task.val).expiredAt = t + y.store.expire) ∧
    (∀ i, y.pending[i]? = none → y.step t (.run i) = y) ∧
    (y.step t .check).store.calls = y.store.calls := by
  refine ⟨fun force key opts h => ?_, fun i task hi h => ?_, fun i hi => ?_, rfl⟩
  · have hl := Store.store_Build_lookup force key opts t y.store
    rcases (Store.store_Build_cases t force key opts y.store).2 with hx | ⟨hx, hs⟩
    · exact absurd hx h
    · exact ⟨hx, hl, hs⟩
  · simp only [step, hi, Store.detached, Store.lockedRebuild] at h ⊢
    split
    · exact ⟨by simp, by simp⟩
    · rename_i hne
      rw [if_neg hne] at h
      exact absurd rfl h
  · simp only [step, hi]

end StoreSys

/-! ## C4: expiredAt only advances -/

/-- C4. With `ttl >= 0`, along every sequence of operations (non-forced and
forced `Build`, goroutine completions, `Set`/`Add`/`Delete`, sweeper ticks)
applied to a freshly constructed container at non-negative, non-decreasing
clock readings, the `expiredAt` of the unit (of every unit, for the Store)
never decreases.  Every rebuild attempt made at clock reading `t`, whatever
the builder returns, leaves `expiredAt = t + ttl` on the unit it rebuilds and
records one invocation at `t`: a forced `Build`, a non-forced `Build` on a
hard-expired unit and a goroutine whose snapshot is still current (for the
Store the unit is the one the key maps to, respectively the one the goroutine
captured).  Conversely an operation that records an invocation is such an
attempt and has stamped that unit. -/
theorem expiredAt_never_decreases (K V : Type) [DecidableEq K] (ttl : Int) (httl : 0 ≤ ttl) :
    (∀ (source : Nat → Option (List V)) (ops : List (Int × ListOp)),
      List.Chain (· ≤ ·) 0 (ops.map Prod.fst) →
      List.Pairwise (· ≤ ·)
        ((traceWith ListCache.step ops (ListCache.NewList source ttl)).map
          (fun x => x.expiredAt))) ∧
    (∀ (source : Nat → Option (GoMap K V)) (ops : List (Int × MapOp K V)),
      List.Chain (· ≤ ·) 0 (ops.map Prod.fst) →
      List.Pairwise (· ≤ ·)
        ((traceWith MapCache.step ops (MapCache.NewMap source ttl)).map
          (fun x => x.expiredAt))) ∧
    (∀ (source : Nat → Option (List K)) (ops : List (Int × SetOp K)),
      List.Chain (· ≤ ·) 0 (ops.map Prod.fst) →
      List.Pairwise (· ≤ ·)
        ((traceWith SetCache.step ops (SetCache.NewSet source ttl)).map
          (fun x => x.expiredAt))) ∧
    (∀ (source : Nat → K → List Iface → Option V) (ops : List (Int × StoreOp K)) (a : Nat),
      List.Chain (· ≤ ·) 0 (ops.map Prod.fst) →
      List.Pairwise (· ≤ ·)
        ((traceWith StoreSys.step ops (StoreSys.mk (Store.NewStore source ttl) [])).map
          (fun x => (x.store.heap a).expiredAt))) ∧
    (∀ (s : ListCache V) (t : Int) (op : ListOp),
      (s.step t op).calls ≠ s.calls → (s.step t op).expiredAt = t + s.expire) ∧
    (∀ (m : MapCache K V) (t : Int) (op : MapOp K V),
      (m.step t op).calls ≠ m.calls → (m.step t op).expiredAt = t + m.expire) ∧
    (∀ (s : SetCache K) (t : Int) (op : SetOp K),
      (s.step t op).calls ≠ s.calls → (s.step t op).expiredAt = t + s.expire) ∧
    (∀ (y : StoreSys K V) (t : Int) (op : StoreOp K),
      (y.step t op).store.calls ≠ y.store.calls →
      ∃ val key opts,
        (y.step t op).store.calls = ⟨t, key, [Iface.slice opts]⟩ :: y.store.calls ∧
        ((y.step t op).store.heap val).expiredAt = t + y.store.expire) ∧
    (∀ (s : ListCache V) (t : Int),
      (∀ force, forced force = true →
        (s.step t (.Build force)).expiredAt = t + s.expire ∧
        (s.step t (.Build force)).calls = t :: s.calls) ∧
      (∀ force, forced force = false → s.expiredAt ≤ t →
        (s.step t (.Build force)).expiredAt = t + s.expire ∧
        (s.step t (.Build force)).calls = t :: s.calls) ∧
      ((s.step t (.detached s.expiredAt)).expiredAt = t + s.expire ∧
        (s.step t (.detached s.expiredAt)).calls = t :: s.calls)) ∧
    (∀ (m : MapCache K V) (t : Int),
      (∀ force, forced force = true →
        (m.step t (.Build force)).expiredAt = t + m.expire ∧
        (m.step t (.Build force)).calls = t :: m.calls) ∧
      (∀ force, forced force = false → m.expiredAt ≤ t →
        (m.step t (.Build force)).expiredAt = t + m.expire ∧
        (m.step t (.Build force)).calls = t :: m.calls) ∧
      ((m.step t (.detached m.expiredAt)).expiredAt = t + m.expire ∧
        (m.step t (.detached m.expiredAt)).calls = t :: m.calls)) ∧
    (∀ (s : SetCache K) (t : Int),
      (∀ force, forced force = true →
        (s.step t (.Build force)).expiredAt = t + s.expire ∧
        (s.step t (.Build force)).calls = t :: s.calls) ∧
      (∀ force, forced force = false → s.expiredAt ≤ t →
        (s.step t (.Build force)).expiredAt = t + s.expire ∧
        (s.step t (.Build force)).calls = t :: s.calls) ∧
      ((s.step t (.detached s.expiredAt)).expiredAt = t + s.expire ∧
        (s.step t (.detached s.expiredAt)).calls = t :: s.calls)) ∧
    (∀ (m : Store K V) (t : Int),
      (∀ key opts,
        (m.Build true key opts t).1.cache.lookup key = some (m.ensure key).1 ∧
        ((m.Build true key opts t).1.heap (m.ensure key).1).expiredAt = t + m.expire ∧
        (m.Build true key opts t).1.calls = ⟨t, key, [Iface.slice opts]⟩ :: m.calls) ∧
      (∀ key opts, ((m.ensure key).2.heap (m.ensure key).1).expiredAt ≤ t →
        (m.Build false key opts t).1.cache.lookup key = some (m.ensure key).1 ∧
        ((m.Build false key opts t).1.heap (m.ensure key).1).expiredAt = t + m.expire ∧
        (m.Build false key opts t).1.calls = ⟨t, key, [Iface.slice opts]⟩ :: m.calls) ∧
      (∀ task : StoreTask K, task.exp = (m.heap task.val).expiredAt →
        ((m.detached task t).heap task.val).expiredAt = t + m.expire ∧
        (m.detached task t).calls = ⟨t, task.key, [Iface.slice task.opts]⟩ :: m.calls)) ∧
    (∀ (y : StoreSys K V) (t : Int),
      (∀ force key opts,
        (y.step t (.Build force key opts)).store.calls ≠ y.store.calls →
        (y.step t (.Build force key opts)).store.calls =
          ⟨t, key, [Iface.slice opts]⟩ :: y.store.calls ∧
        (y.step t (.Build force key opts)).store.cache.lookup key =
          some (y.store.ensure key).1 ∧
        ((y.step t (.Build force key opts)).store.heap (y.store.ensure key).1).expiredAt =
          t + y.store.expire) ∧
      (∀ i task, y.pending[i]? = some task →
        (y.step t (.run i)).store.calls ≠ y.store.calls →
        (y.step t (.run i)).store.calls =
          ⟨t, task.key, [Iface.slice task.opts]⟩ :: y.store.calls ∧
        ((y.step t (.run i)).store.heap task.val).expiredAt = t + y.store.expire) ∧
      (∀ i, y.pending[i]? = none → y.step t (.run i) = y) ∧
      (y.step t .check).store.calls = y.store.calls) := by
  refine ⟨fun source ops hc => ?_, fun source ops hc => ?_, fun source ops hc => ?_,
    fun source ops a hc => ?_, fun s t op h => ?_, fun m t op h => ?_, fun s t op h => ?_,
    fun y t op h => ?_, fun s t => ListCache.list_attempts_stamp t s,
    fun m t => MapCache.map_attempts_stamp t m, fun s t => SetCache.set_attempts_stamp t s,
    fun m t => Store.store_attempts_stamp t m, fun y t => StoreSys.storesys_attempt_unit t y⟩
  · exact ListCache.list_trace_mono ops _ 0 ⟨by simpa [ListCache.NewList] using httl, httl⟩ hc
  · exact MapCache.map_trace_mono ops _ 0 ⟨by simpa [MapCache.NewMap] using httl, httl⟩ hc
  · exact SetCache.set_trace_mono ops _ 0 ⟨by simpa [SetCache.NewSet] using httl, httl⟩ hc
  · exact StoreSys.storesys_trace_mono ops _ 0 (StoreSys.storesys_new_inv source ttl httl) hc a
  · rcases (ListCache.list_step_cases t op s).2 with ⟨_, hx⟩ | ⟨hx, _⟩
    · exact absurd hx h
    · exact hx
  · rcases (MapCache.map_step_cases t op m).2 with ⟨_, hx⟩ | ⟨hx, _⟩
    · exact absurd hx h
    · exact hx
  · rcases (SetCache.set_step_cases t op s).2 with ⟨_, hx⟩ | ⟨hx, _⟩
    · exact absurd hx h
    · exact hx
  · rcases (StoreSys.storesys_step_cases t op y).2 with hx | hx
    · exact absurd hx h
    · exact hx

/-- Witness for C4: the sample run of a List cache with ttl 10 visits
`expiredAt` = 0, 10, 10, 10, 19, 22; a forced build at 50 stamps the sample
set with 60, and a forced build of the new key 7 at 50 on the sample store
allocates unit 1 for it and stamps that unit with 60, unit 0 (of key 5)
keeping its 100. -/
theorem expiredAt_never_decreases_witness :
    (List.Pairwise (· ≤ ·)
      ((traceWith ListCache.step sampleListOps (ListCache.NewList sampleListSource 10)).map
        (fun x => x.expiredAt)) ∧
    (traceWith ListCache.step sampleListOps (ListCache.NewList sampleListSource 10)).map
        (fun x => x.expiredAt) = [0, 10, 10, 10, 19, 22]) ∧
    ((sampleSet.step 50 (.Build [true])).expiredAt = 50 + sampleSet.expire ∧
      (sampleSet.step 50 (.Build [true])).calls = 50 :: sampleSet.calls) ∧
    ((sampleSet.step 50 (.Build [true])).expiredAt = 60 ∧
      (sampleSet.step 50 (.Build [true])).calls = [50, 90]) ∧
    ((sampleStore.Build true 7 [] 50).1.cache.lookup 7 = some (sampleStore.ensure 7).1 ∧
      ((sampleStore.Build true 7 [] 50).1.heap (sampleStore.ensure 7).1).expiredAt =
        50 + sampleStore.expire ∧
      (sampleStore.Build true 7 [] 50).1.calls =
        ⟨50, 7, [Iface.slice []]⟩ :: sampleStore.calls) ∧
    ((sampleStore.ensure 7).1 = 1 ∧ ((sampleStore.Build true 7 [] 50).1.heap 1).expiredAt = 60 ∧
      ((sampleStore.Build true 7 [] 50).1.heap 0).expiredAt = 100) :=
  ⟨⟨(expiredAt_never_decreases Nat Nat 10 (by decide)).1 sampleListSource sampleListOps
      (by simp [sampleListOps]), by decide⟩,
   ((expiredAt_never_decreases Nat Nat 10 (by decide)).2.2.2.2.2.2.2.2.2.2.1 sampleSet 50).1
      [true] rfl,
   by decide,
   ((expiredAt_never_decreases Nat Nat 10 (by decide)).2.2.2.2.2.2.2.2.2.2.2.1
      sampleStore 50).1 7 [],
   by decide, by decide, by decide⟩

/-! ## Racing callers -/

namespace ListCache

variable {V : Type}

theorem list_race_idle (exp : Int) (times : List Int) (s : ListCache V) (h : exp ≠ s.expiredAt) :
    s.race exp times = s := by
  induction times with
  | nil => rfl
  | cons t rest ih =>
    simp only [race, List.foldl_cons] at ih ⊢
    rw [list_lockedRebuild_ne exp t s h]
    exact ih

/-- Racing callers that share the hard-expired snapshot: the first locked
section rebuilds, and when its `t + ttl` differs from the snapshot the others
find `expiredAt` moved and do nothing. -/
theorem list_race_once (t : Int) (rest : List Int) (s : ListCache V)
    (h : t + s.expire ≠ s.expiredAt) :
    s.race s.expiredAt (t :: rest) = s.build t := by
  simp only [race, List.foldl_cons]
  rw [list_lockedRebuild_self]
  exact list_race_idle s.expiredAt rest (s.build t) (by simpa using h.symm)

end ListCache

namespace MapCache

variable {K V : Type} [DecidableEq K]

theorem map_race_idle (exp : Int) (times : List Int) (m : MapCache K V) (h : exp ≠ m.expiredAt) :
    m.race exp times = m := by
  induction times with
  | nil => rfl
  | cons t rest ih =>
    simp only [race, List.foldl_cons] at ih ⊢
    rw [map_lockedRebuild_ne exp t m h]
    exact ih

/-- Racing callers that share the hard-expired snapshot: the first locked
section rebuilds, and when its `t + ttl` differs from the snapshot the others
find `expiredAt` moved and do nothing. -/
theorem map_race_once (t : Int) (rest : List Int) (m : MapCache K V)
    (h : t + m.expire ≠ m.expiredAt) :
    m.race m.expiredAt (t :: rest) = m.build t := by
  simp only [race, List.foldl_cons]
  rw [map_lockedRebuild_self]
  exact map_race_idle m.expiredAt rest (m.build t) (by simpa using h.symm)

end MapCache

namespace SetCache

variable {K : Type} [DecidableEq K]

theorem set_race_idle (exp : Int) (times : List Int) (s : SetCache K) (h : exp ≠ s.expiredAt) :
    s.race exp times = s := by
  induction times with
  | nil => rfl
  | cons t rest ih =>
    simp only [race, List.foldl_cons] at ih ⊢
    rw [set_lockedRebuild_ne exp t s h]
    exact ih

/-- Racing callers that share the hard-expired snapshot: the first locked
section rebuilds, and when its `t + ttl` differs from the snapshot the others
find `expiredAt` moved and do nothing. -/
theorem set_race_once (t : Int) (rest : List Int) (s : SetCache K)
    (h : t + s.expire ≠ s.expiredAt) :
    s.race s.expiredAt (t :: rest) = s.build t := by
  simp only [race, List.foldl_cons]
  rw [set_lockedRebuild_self]
  exact set_race_idle s.expiredAt rest (s.build t) (by simpa using h.symm)

end SetCache
namespace Store

variable {K V : Type} [DecidableEq K]

theorem store_race_idle (val : Nat) (exp : Int) (key : K) (callers : List (Int × List Iface))
    (m : Store K V) (h : exp ≠ (m.heap val).expiredAt) :
    m.race val exp key callers = m := by
  induction callers with
  | nil => rfl
  | cons c rest ih =>
    simp only [race, List.foldl_cons] at ih ⊢
    rw [store_lockedRebuild_ne val exp key c.2 c.1 m h]
    exact ih

theorem store_race_once (val : Nat) (key : K) (c : Int × List Iface)
    (rest : List (Int × List Iface)) (m : Store K V)
    (h : c.1 + m.expire ≠ (m.heap val).expiredAt) :
    m.race val (m.heap val).expiredAt key (c :: rest) = m.build val key c.2 c.1 := by
  simp only [race, List.foldl_cons]
  rw [store_lockedRebuild_self]
  exact store_race_idle val (m.heap val).expiredAt key rest (m.build val key c.2 c.1)
    (by simpa using h.symm)

end Store

/-! ## C5: racing callers on one hard-expired snapshot -/

/-- C5, counterexample. With ttl 0 (a sub-second ttl truncates to 0), two
callers that snapshot `exp = 100` at clock reading 100 and run their locked
sections at 100 both invoke the builder: the first rebuild sets
`expiredAt = 100 + 0`, which still equals the snapshot. -/
theorem race_zero_ttl_rebuilds_twice :
    zeroTtlMap.expire = 0 ∧ zeroTtlMap.expiredAt = 100 ∧ zeroTtlMap.expiredAt ≤ 100 ∧
    (zeroTtlMap.race 100 [100, 100]).calls.length = zeroTtlMap.calls.length + 2 ∧
    (zeroTtlMap.race 100 [100, 100]).calls.length ≠ zeroTtlMap.calls.length + 1 := by
  decide

/-- C5, amended. For every ttl >= 1 and every N >= 1: when N callers of a
non-forced `Build` share the hard-expired snapshot `exp <= now` of one unit
and run their locked sections one at a time at clock readings `>= now`, the
builder is invoked exactly once. -/
theorem race_rebuilds_once (K V : Type) [DecidableEq K] (now : Int) :
    (∀ (s : ListCache V) (times : List Int), 1 ≤ s.expire → s.expiredAt ≤ now →
      times ≠ [] → (∀ t ∈ times, now ≤ t) →
      (s.race s.expiredAt times).calls.length = s.calls.length + 1) ∧
    (∀ (m : MapCache K V) (times : List Int), 1 ≤ m.expire → m.expiredAt ≤ now →
      times ≠ [] → (∀ t ∈ times, now ≤ t) →
      (m.race m.expiredAt times).calls.length = m.calls.length + 1) ∧
    (∀ (s : SetCache K) (times : List Int), 1 ≤ s.expire → s.expiredAt ≤ now →
      times ≠ [] → (∀ t ∈ times, now ≤ t) →
      (s.race s.expiredAt times).calls.length = s.calls.length + 1) ∧
    (∀ (m : Store K V) (val : Nat) (key : K) (callers : List (Int × List Iface)),
      1 ≤ m.expire → (m.heap val).expiredAt ≤ now →
      callers ≠ [] → (∀ c ∈ callers, now ≤ c.1) →
      (m.race val (m.heap val).expiredAt key callers).calls.length = m.calls.length + 1) := by
  refine ⟨fun s times h1 he hn ht => ?_, fun m times h1 he hn ht => ?_,
    fun s times h1 he hn ht => ?_, fun m val key callers h1 he hn ht => ?_⟩
  · cases times with
    | nil => exact absurd rfl hn
    | cons t rest =>
      have := ht t (List.mem_cons_self t rest)
      rw [ListCache.list_race_once t rest s (by omega)]; simp
  · cases times with
    | nil => exact absurd rfl hn
    | cons t rest =>
      have := ht t (List.mem_cons_self t rest)
      rw [MapCache.map_race_once t rest m (by omega)]; simp
  · cases times with
    | nil => exact absurd rfl hn
    | cons t rest =>
      have := ht t (List.mem_cons_self t rest)
      rw [SetCache.set_race_once t rest s (by omega)]; simp
  · cases callers with
    | nil => exact absurd rfl hn
    | cons c rest =>
      have := ht c (List.mem_cons_self c rest)
      rw [Store.store_race_once val key c rest m (by omega)]; simp

/-- Witness for C5 (amended): three callers racing on the sample map (ttl 10,
snapshot 100) at clock readings 101, 100, 103. -/
theorem race_rebuilds_once_witness :
    (sampleMap.race sampleMap.expiredAt [101, 100, 103]).calls.length =
      sampleMap.calls.length + 1 :=
  (race_rebuilds_once Nat Nat 100).2.1 sampleMap [101, 100, 103] (by decide) (by decide)
    (by decide) (by decide)

/-! ## Sequences of Get calls on one key -/

namespace Store
variable {K V : Type} [DecidableEq K]

theorem store_Get_state (key : K) (opts : List Iface) (now : Int) (m : Store K V) :
    (m.Get key opts now).2 = m.Build false key opts now := by
  simp only [Get]
  split <;> rfl

theorem store_GetJoin_eq (key : K) (opts : List Iface) (c : Int × Int) (m : Store K V) :
    m.GetJoin key opts c = m.BuildJoin false key opts c.1 c.2 := by
  have h := store_Get_state key opts c.1 m
  simp only [GetJoin, BuildJoin]
  rcases hg : m.Get key opts c.1 with ⟨r, m1, task⟩
  rw [hg] at h
  simp only at h
  rw [← h]
  cases task <;> rfl

/-- What a non-forced `Build` with its goroutine joined does to the unit of
`key`: either no invocation, or one invocation at a clock reading `T` between
the call and the join with the old `expiredAt` at most `T + window`, after
which `expiredAt = T + ttl`. -/
theorem store_BuildJoin_cases (key : K) (opts : List Iface) (t d : Int) (m : Store K V)
    (htd : t ≤ d) :
    (m.BuildJoin false key opts t d).cache.lookup key = some (m.ensure key).1 ∧
    (m.BuildJoin false key opts t d).expire = m.expire ∧
    (((m.BuildJoin false key opts t d).calls = m.calls ∧
      ((m.BuildJoin false key opts t d).heap (m.ensure key).1).expiredAt =
        ((m.ensure key).2.heap (m.ensure key).1).expiredAt) ∨
     ∃ T, t ≤ T ∧ T ≤ d ∧
      ((m.ensure key).2.heap (m.ensure key).1).expiredAt ≤ T + prebuildDuration m.expire ∧
      (m.BuildJoin false key opts t d).calls = ⟨T, key, [Iface.slice opts]⟩ :: m.calls ∧
      ((m.BuildJoin false key opts t d).heap (m.ensure key).1).expiredAt = T + m.expire) := by
  have hl := store_ensure_lookup key m
  have hp := prebuildDuration_pos m.expire
  by_cases h : ((m.ensure key).2.heap (m.ensure key).1).expiredAt ≤ t
  · simp only [BuildJoin, store_Build_expired key opts t m h]
    refine ⟨by simpa using hl, by simp, Or.inr ⟨t, le_rfl, htd, by omega, by simp, by simp⟩⟩
  · by_cases h1 : ((m.ensure key).2.heap (m.ensure key).1).expiredAt - t ≤
        prebuildDuration m.expire
    · have h0 : 0 < ((m.ensure key).2.heap (m.ensure key).1).expiredAt - t := by omega
      simp only [BuildJoin, store_Build_prebuild key opts t m h0 h1, detached,
        store_lockedRebuild_self]
      refine ⟨by simpa using hl, by simp,
        Or.inr ⟨d, htd, le_rfl, by omega, by simp, by simp⟩⟩
    · have h2 : prebuildDuration m.expire <
          ((m.ensure key).2.heap (m.ensure key).1).expiredAt - t := by omega
      simp only [BuildJoin, store_Build_fresh key opts t m h2]
      exact ⟨hl, by simp, Or.inl (by simp)⟩

end Store

namespace Store
variable {K V : Type} [DecidableEq K]

theorem store_getSeq_gap (key : K) (opts : List Iface) (ttl : Int) (base : List (StoreCall K)) :
    ∀ (cs : List (Int × Int)) (b : Int) (m : Store K V) (L : List (StoreCall K)),
      List.Chain (· ≤ ·) b (readings cs) →
      m.calls = L ++ base → m.expire = ttl →
      L.Pairwise (fun later earlier => earlier.at_ + (ttl - prebuildDuration ttl) ≤ later.at_) →
      (∀ x ∈ L, x.at_ ≤ b) →
      (∀ hd, L.head? = some hd →
        ∃ val, m.cache.lookup key = some val ∧ (m.heap val).expiredAt = hd.at_ + ttl) →
      ∃ L', (m.getSeq key opts cs).calls = L' ++ base ∧
        L'.Pairwise
          (fun later earlier => earlier.at_ + (ttl - prebuildDuration ttl) ≤ later.at_) := by
  intro cs
  induction cs with
  | nil => intro b m L _ hc _ hpw _ _; exact ⟨L, hc, hpw⟩
  | cons c rest ih =>
    intro b m L hchain hc he hpw hle hhd
    obtain ⟨t, d⟩ := c
    simp only [readings, List.chain_cons] at hchain
    obtain ⟨hbt, htd, hrest⟩ := hchain
    simp only [getSeq, List.foldl_cons]
    rw [store_GetJoin_eq]
    obtain ⟨hl, hx, hcase⟩ := store_BuildJoin_cases key opts t d m htd
    have hp := prebuildDuration_pos ttl
    rcases hcase with ⟨hcalls, hexp⟩ | ⟨T, htT, hTd, hold, hcalls, hexp⟩
    · refine ih d _ L hrest (by rw [hcalls, hc]) (by rw [hx, he]) hpw
        (fun x hxL => by have := hle x hxL; omega) (fun hd hhead => ?_)
      obtain ⟨val, hlk, hv⟩ := hhd hd hhead
      have hens := store_ensure_present key m val hlk
      rw [hens] at hl hexp
      exact ⟨val, hl, by rw [hexp]; exact hv⟩
    · refine ih d _ (⟨T, key, [Iface.slice opts]⟩ :: L) hrest (by rw [hcalls, hc]; rfl)
        (by rw [hx, he]) ?_ ?_ ?_
      · rw [List.pairwise_cons]
        refine ⟨fun x hxL => ?_, hpw⟩
        simp only
        cases L with
        | nil => simp at hxL
        | cons hd tl =>
          obtain ⟨val, hlk, hv⟩ := hhd hd rfl
          have hens := store_ensure_present key m val hlk
          rw [hens, he] at hold
          simp only at hold
          rw [hv] at hold
          rcases List.mem_cons.mp hxL with rfl | hxtl
          · omega
          · have h1 := (List.pairwise_cons.mp hpw).1 x hxtl
            have h2 := hle hd (List.mem_cons_self hd tl)
            simp only at h1
            omega
      · intro x hxL
        rcases List.mem_cons.mp hxL with rfl | hxL
        · exact hTd
        · have := hle x hxL; omega
      · intro hd hhead
        simp only [List.head?_cons, Option.some.injEq] at hhead
        subst hhead
        exact ⟨_, hl, by rw [hexp, he]⟩

end Store

/-! ## C6: repeated Get of a key -/

/-- C6, counterexample. Builder always nil, ttl 10 (pre-build window 1): `Get`
at 0 rebuilds, `Get` at 9 is inside the window and its goroutine rebuilds at
9, so two invocations are 9 < ttl seconds apart.  With ttl 1 the window is the
whole ttl and three `Get` calls in the same second invoke the builder three
times, once per call. -/
theorem get_invocations_closer_than_ttl :
    Store.invocationsSince missStore10 (missStore10.getSeq 7 [] [(0, 0), (9, 9)]) = [9, 0] ∧
    ¬ (0 + missStore10.expire ≤ 9) ∧
    Store.invocationsSince missStore1 (missStore1.getSeq 7 [] [(0, 0), (0, 0), (0, 0)])
      = [0, 0, 0] := by
  decide

/-- C6, amended. Over every sequence of `Get(key)` calls at non-decreasing
clock readings, each goroutine completing before the next call and no sweeper
tick in between, any two builder invocations made for the key are at least
`ttl - prebuildDuration(ttl)` seconds apart (whatever the builder returns, in
particular when it always returns nil). -/
theorem get_invocation_gap (K V : Type) [DecidableEq K] (m : Store K V) (key : K)
    (opts : List Iface) (cs : List (Int × Int))
    (hchain : List.Chain' (· ≤ ·) (readings cs)) :
    (m.getSeq key opts cs).calls =
      (m.getSeq key opts cs).calls.take
        ((m.getSeq key opts cs).calls.length - m.calls.length) ++ m.calls ∧
    List.Pairwise
      (fun later earlier => earlier + (m.expire - prebuildDuration m.expire) ≤ later)
      (Store.invocationsSince m (m.getSeq key opts cs)) := by
  have hch : List.Chain (· ≤ ·) ((readings cs).headD 0) (readings cs) := by
    cases cs with
    | nil => simp [readings]
    | cons c rest =>
      simp only [readings, List.headD_cons, List.chain_cons]
      simp only [readings, List.chain'_cons] at hchain
      exact ⟨le_rfl, hchain.1, hchain.2⟩
  obtain ⟨L, hL, hpw⟩ := Store.store_getSeq_gap key opts m.expire m.calls cs
    ((readings cs).headD 0) m [] hch rfl rfl List.Pairwise.nil (by simp) (by simp)
  have htake : (m.getSeq key opts cs).calls.take
      ((m.getSeq key opts cs).calls.length - m.calls.length) = L := by
    rw [hL]; simp
  refine ⟨by rw [htake]; exact hL, ?_⟩
  rw [Store.invocationsSince, htake, List.pairwise_map]
  exact hpw

/-- Witness for C6 (amended): five `Get` calls on a missing key with ttl 10;
the invocations are at 0, 9, 19 and 40. -/
theorem get_invocation_gap_witness :
    List.Pairwise (fun later earlier => earlier + (10 - 1) ≤ later)
      (Store.invocationsSince missStore10
        (missStore10.getSeq 7 [] [(0, 0), (9, 9), (12, 12), (18, 19), (40, 40)])) ∧
    Store.invocationsSince missStore10
        (missStore10.getSeq 7 [] [(0, 0), (9, 9), (12, 12), (18, 19), (40, 40)])
      = [40, 19, 9, 0] :=
  ⟨(get_invocation_gap Nat Nat missStore10 7 []
      [(0, 0), (9, 9), (12, 12), (18, 19), (40, 40)] (by simp [readings])).2, by decide⟩

/-! ## Store.Get -/

namespace Store
variable {K V : Type} [DecidableEq K]

/-- `Store.Get` in terms of `Store.Build`: the entry is always found, the
value returned is the payload of the key's unit after the gate, and `found`
says whether it is non-nil. -/
theorem store_Get_eq (key : K) (opts : List Iface) (now : Int) (m : Store K V) :
    m.Get key opts now =
      (some (((m.Build false key opts now).1.heap (m.ensure key).1).value,
             (((m.Build false key opts now).1.heap (m.ensure key).1).value).isSome),
       (m.Build false key opts now).1, (m.Build false key opts now).2) := by
  have hl := store_Build_lookup false key opts now m
  simp only [Get, hl]
  cases ((m.Build false key opts now).1.heap (m.ensure key).1).value <;> rfl

theorem store_Get_first (key : K) (opts : List Iface) (now : Int) (m : Store K V)
    (habs : m.cache.lookup key = none) (hnow : 0 ≤ now) :
    (m.Get key opts now).1 =
      some (m.source m.calls.length key [Iface.slice opts],
            (m.source m.calls.length key [Iface.slice opts]).isSome) ∧
    (m.Get key opts now).2.1.calls = ⟨now, key, [Iface.slice opts]⟩ :: m.calls ∧
    (m.Get key opts now).2.2 = none := by
  have he := store_ensure_absent key m habs
  have hexp : ((m.ensure key).2.heap (m.ensure key).1).expiredAt ≤ now := by
    rw [he]; simpa using hnow
  have hb := store_Build_expired key opts now m hexp
  rw [store_Get_eq, hb]
  simp only [store_build_calls, store_ensure_calls, and_true]
  have hv : (((m.ensure key).2.build (m.ensure key).1 key opts now).heap (m.ensure key).1).value
      = m.source m.calls.length key [Iface.slice opts] := by
    rw [store_build_heap]
    simp only [if_true, store_ensure_source, store_ensure_calls]
    cases hres : m.source m.calls.length key [Iface.slice opts] with
    | some r => rfl
    | none => simp only [he]; simp
  rw [hv]

theorem store_Get_stale (key : K) (opts : List Iface) (now : Int) (m : Store K V)
    (val : Nat) (v : V) (hl : m.cache.lookup key = some val)
    (hv : (m.heap val).value = some v)
    (hnil : m.source m.calls.length key [Iface.slice opts] = none) :
    (m.Get key opts now).1 = some (some v, true) := by
  have he := store_ensure_present key m val hl
  have hb : ((m.build val key opts now).heap val).value = some v := by
    rw [store_build_heap_value_none val key opts now m hnil]; exact hv
  rw [store_Get_eq, he]
  simp only [Build, he, lockedRebuild]
  (repeat' split) <;> simp [hb, hv]

end Store

/-! ## Store.Get in sequential execution -/

namespace Store
variable {K V : Type} [DecidableEq K]

/-- `Store.Build` is its prologue followed by `gate` on the unit found. -/
theorem store_Build_eq_gate (force : Bool) (key : K) (opts : List Iface) (now : Int)
    (m : Store K V) :
    m.Build force key opts now = (m.ensure key).2.gate force (m.ensure key).1 key opts now := by
  simp only [Build, gate]

/-- `Store.Get` is `Build` followed by `fetch`. -/
theorem store_Get_eq_fetch (key : K) (opts : List Iface) (now : Int) (m : Store K V) :
    m.Get key opts now =
      ((m.Build false key opts now).1.fetch key, (m.Build false key opts now).1,
        (m.Build false key opts now).2) := by
  simp only [Get, fetch]
  split <;> rfl

/-- With nothing running in between, the interleaved call is `Store.Get`. -/
theorem store_GetInterleaved_id (key : K) (opts : List Iface) (now : Int) (m : Store K V) :
    m.GetInterleaved key opts now id = m.Get key opts now := by
  rw [store_Get_eq_fetch, store_Build_eq_gate]
  rfl

theorem store_Get_fresh_value (key : K) (opts : List Iface) (now : Int) (m : Store K V)
    (val : Nat) (r : V) (hl : m.cache.lookup key = some val)
    (he : (m.heap val).expiredAt ≤ now)
    (hr : m.source m.calls.length key [Iface.slice opts] = some r) :
    (m.Get key opts now).1 = some (some r, true) := by
  have hens := store_ensure_present key m val hl
  have hexp : ((m.ensure key).2.heap (m.ensure key).1).expiredAt ≤ now := by
    rw [hens]; exact he
  rw [store_Get_eq, store_Build_expired key opts now m hexp, hens]
  simp only
  rw [store_build_heap_value_some val key opts now m r hr]
  rfl

end Store

/-- Sequential behaviour of `Store.Get(key)`.  Its state and goroutine are
those of `Build(false, key)`; it always finds the entry of `key` and returns
`(value, found)` with `value` the payload of the key's unit after the gate
and `found` true exactly when that payload is non-nil.  The first `Get` of a
key not in the store (clock reading `now >= 0`, the Unix clock) invokes the
builder exactly once, spawns nothing, and returns `(v, true)` when the
builder yields a non-nil `v` and `(nil, false)` when it yields nil.  A `Get`
on a hard-expired unit whose builder yields `r` returns `(r, true)`; a `Get`
on a unit that holds `v`, whose builder invocation (if the gate makes one)
yields nil, still returns `(v, true)`. -/
theorem get_returns_payload (K V : Type) [DecidableEq K] (m : Store K V) (key : K)
    (opts : List Iface) (now : Int) :
    (∃ val, (m.Get key opts now).2.1.cache.lookup key = some val ∧
      (m.Get key opts now).1 =
        some (((m.Get key opts now).2.1.heap val).value,
              (((m.Get key opts now).2.1.heap val).value).isSome)) ∧
    (m.cache.lookup key = none → 0 ≤ now →
      (m.Get key opts now).2.1.calls = ⟨now, key, [Iface.slice opts]⟩ :: m.calls ∧
      (m.Get key opts now).2.2 = none ∧
      (∀ v, m.source m.calls.length key [Iface.slice opts] = some v →
        (m.Get key opts now).1 = some (some v, true)) ∧
      (m.source m.calls.length key [Iface.slice opts] = none →
        (m.Get key opts now).1 = some (none, false))) ∧
    (∀ (val : Nat) (v : V), m.cache.lookup key = some val → (m.heap val).value = some v →
      m.source m.calls.length key [Iface.slice opts] = none →
      (m.Get key opts now).1 = some (some v, true)) ∧
    (m.Get key opts now).2 = m.Build false key opts now ∧
    (m.Get key opts now).1 = (m.Build false key opts now).1.fetch key ∧
    (∀ (val : Nat) (r : V), m.cache.lookup key = some val → (m.heap val).expiredAt ≤ now →
      m.source m.calls.length key [Iface.slice opts] = some r →
      (m.Get key opts now).1 = some (some r, true)) := by
  refine ⟨⟨(m.ensure key).1, ?_, ?_⟩, fun habs hnow => ?_, fun val v hl hv hnil => ?_,
    Store.store_Get_state key opts now m, by rw [Store.store_Get_eq_fetch],
    fun val r hl he hr => Store.store_Get_fresh_value key opts now m val r hl he hr⟩
  · rw [Store.store_Get_eq]
    exact Store.store_Build_lookup false key opts now m
  · rw [Store.store_Get_eq]
  · obtain ⟨h1, h2, h3⟩ := Store.store_Get_first key opts now m habs hnow
    refine ⟨h2, h3, fun v hv => ?_, fun hn => ?_⟩
    · rw [h1, hv]; rfl
    · rw [h1, hn]; rfl
  · exact Store.store_Get_stale key opts now m val v hl hv hnil

/-- Sequential `Get` on samples: first `Get` of key 7 at clock reading 0 on a
store whose builder yields 107, on one whose builder yields nil, a `Get` of
key 5 at 100 on the sample store (value 7, failing builder), and on the stale
store (value 7, hard-expired, builder yields 9). -/
theorem get_returns_payload_witness :
    (hitStore10.Get 7 [] 0).1 = some (some 107, true) ∧
    (missStore10.Get 7 [] 0).1 = some (none, false) ∧
    (sampleStore.Get 5 [] 100).1 = some (some 7, true) ∧
    (staleStore.Get 5 [] 100).1 = some (some 9, true) :=
  ⟨((get_returns_payload Nat Nat hitStore10 7 [] 0).2.1 rfl (by decide)).2.2.1 107 rfl,
   ((get_returns_payload Nat Nat missStore10 7 [] 0).2.1 rfl (by decide)).2.2.2 rfl,
   (get_returns_payload Nat Nat sampleStore 5 [] 100).2.2.1 0 7 rfl rfl rfl,
   (get_returns_payload Nat Nat staleStore 5 [] 100).2.2.2.2.2 0 9 rfl (by decide) rfl⟩

/-! ## C7: what Store.Get returns -/

/-- C7, the code at the failing schedule.  `Get(7)` at clock reading 100 on a
fresh store whose builder yields 107 returns `(107, true)` when nothing runs
in between.  When the sweeper ticks at 100 between the prologue of `Build`,
which has inserted the placeholder with `expiredAt = 0`, and the rest of the
call, the tick deletes the placeholder; `Build` then invokes the builder and
writes 107 into the unit no key maps to any more, the lookup in `Get` finds
no entry, and `val.value` dereferences the nil pointer: no `(value, found)`
is returned.  With nothing in between the interleaved call is `Get` itself,
which runs the gate: on the stale store (key 5 holds 7, hard-expired, the
builder yields 9) `Get(5)` at 100 returns `(9, true)`. -/
theorem get_panics_when_swept_mid_build :
    (hitStore10.Get 7 [] 100).1 = some (some 107, true) ∧
    (hitStore10.GetInterleaved 7 [] 100 (Store.check 100)).1 = none ∧
    (hitStore10.GetInterleaved 7 [] 100 (Store.check 100)).2.1.cache.lookup 7 = none ∧
    (hitStore10.GetInterleaved 7 [] 100 (Store.check 100)).2.1.calls.map
      (fun c => (c.at_, c.key)) = [(100, 7)] ∧
    (hitStore10.GetInterleaved 7 [] 100 (Store.check 100)).2.1.heap 0 = ⟨110, some 107⟩ ∧
    (∀ (m : Store Nat Nat) (key : Nat) (opts : List Iface) (now : Int),
      m.GetInterleaved key opts now id = m.Get key opts now) ∧
    (staleStore.Get 5 [] 100).1 = some (some 9, true) ∧
    (staleStore.GetInterleaved 5 [] 100 id).1 = some (some 9, true) :=
  ⟨by decide, by decide, by decide, by decide, by decide,
   fun m key opts now => Store.store_GetInterleaved_id key opts now m,
   by decide, by decide⟩

/-! ## C8: the options the builder receives -/

/-- C8, the code at the failing input. `Get(7, 1, 2)` on a fresh store, and a
forced `Build(true, 7, 1, 2)`, invoke the builder with key 7 and with a
one-element option list whose only element is the caller's slice `[1, 2]`:
`Store.build` passes `opts` without spreading it. -/
theorem builder_receives_wrapped_options :
    (hitStore10.Get 7 [Iface.int 1, Iface.int 2] 0).2.1.calls.map (fun c => (c.key, c.opts)) =
      [(7, [Iface.slice [Iface.int 1, Iface.int 2]])] ∧
    (hitStore10.Build true 7 [Iface.int 1, Iface.int 2] 0).1.calls.map
        (fun c => (c.key, c.opts)) =
      [(7, [Iface.slice [Iface.int 1, Iface.int 2]])] ∧
    (hitStore10.Get 7 [Iface.int 1, Iface.int 2] 0).2.1.calls.map (fun c => c.opts.length) =
      [1] ∧
    [Iface.int 1, Iface.int 2].length = 2 :=
  ⟨rfl, rfl, rfl, rfl⟩

/-! ## C9: a successful rebuild replaces the payload wholesale -/

/-- C9. When the rebuild procedure of a List, Map or Set runs and the builder
returns a non-nil `r`, the payload afterwards is exactly `r`: the List's
sequence is `r`; the Map has the bindings of `r` and as many entries; an
element is in the Set iff it occurs in `r`, and `Size` is the number of
distinct elements of `r`.  A key added with `Set`/`Add` that `r` lacks is
gone, a key removed with `Delete` is as in `r` again. -/
theorem rebuild_replaces_payload (K V : Type) [DecidableEq K] (now : Int) :
    (∀ (s : ListCache V) (r : List V), s.source s.calls.length = some r →
      (s.build now).cache = r) ∧
    (∀ (m : MapCache K V) (r : GoMap K V), m.source m.calls.length = some r →
      (∀ k, (m.build now).cache.lookup k = r.lookup k) ∧
      (m.build now).Size = r.entries.length ∧
      (∀ k v, r.lookup k = none → ((m.Set k v).build now).cache.lookup k = none) ∧
      (∀ k, ((m.Delete k).build now).cache.lookup k = r.lookup k)) ∧
    (∀ (s : SetCache K) (r : List K), s.source s.calls.length = some r →
      (∀ k, ((s.build now).cache.lookup k).isSome = true ↔ k ∈ r) ∧
      (s.build now).Size = r.dedup.length ∧
      (∀ k, k ∉ r → (((s.Add k).build now).cache.lookup k).isSome = false) ∧
      (∀ k, k ∈ r → (((s.Delete k).build now).cache.lookup k).isSome = true)) := by
  refine ⟨fun s r h => s.list_build_cache_some now r h, fun m r h => ?_, fun s r h => ?_⟩
  · have hS : ∀ k v, ((m.Set k v).build now).cache = MapCache.copyMap r :=
      fun k v => (m.Set k v).map_build_cache_some now r h
    have hD : ∀ k, ((m.Delete k).build now).cache = MapCache.copyMap r :=
      fun k => (m.Delete k).map_build_cache_some now r h
    refine ⟨fun k => ?_, ?_, fun k v hk => ?_, fun k => ?_⟩
    · rw [m.map_build_cache_some now r h, MapCache.map_copyMap_lookup]
    · rw [MapCache.Size, m.map_build_cache_some now r h, MapCache.map_copyMap_length]
    · rw [hS k v, MapCache.map_copyMap_lookup, hk]
    · rw [hD k, MapCache.map_copyMap_lookup]
  · have hA : ∀ k, ((s.Add k).build now).cache = SetCache.fromSlice r :=
      fun k => (s.Add k).set_build_cache_some now r h
    have hD : ∀ k, ((s.Delete k).build now).cache = SetCache.fromSlice r :=
      fun k => (s.Delete k).set_build_cache_some now r h
    refine ⟨fun k => ?_, ?_, fun k hk => ?_, fun k hk => ?_⟩
    · rw [s.set_build_cache_some now r h, SetCache.set_fromSlice_lookup]
    · rw [SetCache.Size, s.set_build_cache_some now r h, SetCache.set_fromSlice_length]
    · rw [hA k, Bool.eq_false_iff, ne_eq, SetCache.set_fromSlice_lookup]; exact hk
    · rw [hD k, SetCache.set_fromSlice_lookup]; exact hk

/-- Witness for C9: the overlay map rebuilt at 5 holds `1 ↦ 7`, `2 ↦ 8` and
not the overlay key 9; the overlay set rebuilt from `[1, 2, 1]` has size 2. -/
theorem rebuild_replaces_payload_witness :
    ((∀ k, (overlayMap.build 5).cache.lookup k =
        (AList.insert 1 7 (AList.insert 2 8 (∅ : GoMap Nat Nat))).lookup k) ∧
      (overlayMap.build 5).Size = 2 ∧ (overlayMap.build 5).cache.lookup 9 = none) ∧
    (overlaySet.build 5).Size = 2 :=
  ⟨⟨((rebuild_replaces_payload Nat Nat 5).2.1 overlayMap _ rfl).1,
    ((rebuild_replaces_payload Nat Nat 5).2.1 overlayMap _ rfl).2.1, by decide⟩,
   ((rebuild_replaces_payload Nat Nat 5).2.2 overlaySet [1, 2, 1] rfl).2.1⟩

/-! ## C10: direct mutations -/

/-- C10. `Map.Set`, `Map.Delete`, `Set.Add` and `Set.Delete` make no builder
invocation and leave `expiredAt`, the ttl and the source alone.  `Set(k, v)`
makes `k` map to `v`, `Delete(k)` makes `k` absent, `Add(x)` makes `x` a
member, `Delete(x)` makes it a non-member; every other key is as before. -/
theorem direct_mutations_frame (K V : Type) [DecidableEq K] :
    (∀ (m : MapCache K V) (k : K) (v : V),
      (m.Set k v).calls = m.calls ∧ (m.Set k v).expiredAt = m.expiredAt ∧
      (m.Set k v).expire = m.expire ∧ (m.Set k v).source = m.source ∧
      (m.Set k v).cache.lookup k = some v ∧
      ∀ k2, k2 ≠ k → (m.Set k v).cache.lookup k2 = m.cache.lookup k2) ∧
    (∀ (m : MapCache K V) (k : K),
      (m.Delete k).calls = m.calls ∧ (m.Delete k).expiredAt = m.expiredAt ∧
      (m.Delete k).expire = m.expire ∧ (m.Delete k).source = m.source ∧
      (m.Delete k).cache.lookup k = none ∧
      ∀ k2, k2 ≠ k → (m.Delete k).cache.lookup k2 = m.cache.lookup k2) ∧
    (∀ (s : SetCache K) (x : K),
      (s.Add x).calls = s.calls ∧ (s.Add x).expiredAt = s.expiredAt ∧
      (s.Add x).expire = s.expire ∧ (s.Add x).source = s.source ∧
      (s.Add x).cache.lookup x = some () ∧
      ∀ y, y ≠ x → (s.Add x).cache.lookup y = s.cache.lookup y) ∧
    (∀ (s : SetCache K) (x : K),
      (s.Delete x).calls = s.calls ∧ (s.Delete x).expiredAt = s.expiredAt ∧
      (s.Delete x).expire = s.expire ∧ (s.Delete x).source = s.source ∧
      (s.Delete x).cache.lookup x = none ∧
      ∀ y, y ≠ x → (s.Delete x).cache.lookup y = s.cache.lookup y) := by
  refine ⟨fun m k v => ⟨rfl, rfl, rfl, rfl, ?_, fun k2 h => ?_⟩,
    fun m k => ⟨rfl, rfl, rfl, rfl, ?_, fun k2 h => ?_⟩,
    fun s x => ⟨rfl, rfl, rfl, rfl, ?_, fun y h => ?_⟩,
    fun s x => ⟨rfl, rfl, rfl, rfl, ?_, fun y h => ?_⟩⟩
  · exact AList.lookup_insert m.cache
  · exact AList.lookup_insert_ne h
  · exact AList.lookup_erase k m.cache
  · exact AList.lookup_erase_ne h
  · exact AList.lookup_insert s.cache
  · exact AList.lookup_insert_ne h
  · exact AList.lookup_erase x s.cache
  · exact AList.lookup_erase_ne h

/-- Witness for C10 on the sample map and set: key 1 is untouched by
`Set(2, 8)`, `Delete(2)`, `Add(2)`. -/
theorem direct_mutations_frame_witness :
    (sampleMap.Set 2 8).cache.lookup 1 = sampleMap.cache.lookup 1 ∧
    (sampleMap.Delete 2).cache.lookup 1 = sampleMap.cache.lookup 1 ∧
    (sampleSet.Add 2).cache.lookup 1 = sampleSet.cache.lookup 1 ∧
    (sampleSet.Delete 1).cache.lookup 2 = sampleSet.cache.lookup 2 :=
  ⟨((direct_mutations_frame Nat Nat).1 sampleMap 2 8).2.2.2.2.2 1 (by decide),
   ((direct_mutations_frame Nat Nat).2.1 sampleMap 2).2.2.2.2.2 1 (by decide),
   ((direct_mutations_frame Nat Nat).2.2.1 sampleSet 2).2.2.2.2.2 1 (by decide),
   ((direct_mutations_frame Nat Nat).2.2.2 sampleSet 1).2.2.2.2.2 2 (by decide)⟩

/-! ## The sweep loop of Store.check -/


namespace Store
variable {K V : Type} [DecidableEq K]

/-- Lookup after the sweep loop: a binding of the accumulator survives unless
the swept list holds an expired entry for its key. -/
theorem store_sweep_lookup_eq (heap : Nat → storeEelment V) (t : Int) (k : K) :
    ∀ (l : List (Sigma (fun _ : K => Nat))) (c : AList (fun _ : K => Nat)),
      (l.foldl (fun c kv => if (heap kv.2).expiredAt ≤ t then c.erase kv.1 else c) c).lookup k =
        if ∃ kv ∈ l, kv.1 = k ∧ (heap kv.2).expiredAt ≤ t then none else c.lookup k := by
  intro l
  induction l with
  | nil => intro c; simp
  | cons hd tl ih =>
    intro c
    simp only [List.foldl_cons]
    rw [ih]
    by_cases htl : ∃ kv ∈ tl, kv.1 = k ∧ (heap kv.2).expiredAt ≤ t
    · have : ∃ kv ∈ hd :: tl, kv.1 = k ∧ (heap kv.2).expiredAt ≤ t := by
        obtain ⟨kv, hkv, h⟩ := htl
        exact ⟨kv, List.mem_cons_of_mem hd hkv, h⟩
      rw [if_pos htl, if_pos this]
    · rw [if_neg htl]
      by_cases hhd : hd.1 = k ∧ (heap hd.2).expiredAt ≤ t
      · have : ∃ kv ∈ hd :: tl, kv.1 = k ∧ (heap kv.2).expiredAt ≤ t :=
          ⟨hd, List.mem_cons_self hd tl, hhd⟩
        rw [if_pos this, if_pos hhd.2, ← hhd.1]
        exact AList.lookup_erase hd.1 c
      · have : ¬ ∃ kv ∈ hd :: tl, kv.1 = k ∧ (heap kv.2).expiredAt ≤ t := by
          rintro ⟨kv, hkv, h⟩
          rcases List.mem_cons.mp hkv with rfl | hkv
          · exact hhd h
          · exact htl ⟨kv, hkv, h⟩
        rw [if_neg this]
        split
        · rename_i hexp
          have hne : k ≠ hd.1 := fun h => hhd ⟨h.symm, hexp⟩
          exact AList.lookup_erase_ne hne
        · rfl

/-- One sweeper tick on the store, key by key. -/
theorem store_check_lookup_eq (t : Int) (m : Store K V) (k : K) :
    (m.check t).cache.lookup k =
      match m.cache.lookup k with
      | some a => if (m.heap a).expiredAt ≤ t then none else some a
      | none => none := by
  have h := store_sweep_lookup_eq m.heap t k m.cache.entries m.cache
  simp only [check]
  rw [h]
  cases hl : m.cache.lookup k with
  | none =>
    have hk : k ∉ m.cache.keys := by
      rw [← AList.mem_keys, ← AList.lookup_isSome, hl]; simp
    have : ¬ ∃ kv ∈ m.cache.entries, kv.1 = k ∧ (m.heap kv.2).expiredAt ≤ t := by
      rintro ⟨kv, hkv, rfl, _⟩
      exact hk (List.mem_keys_of_mem hkv)
    rw [if_neg this]
  | some a =>
    have hmem : (⟨k, a⟩ : Sigma (fun _ : K => Nat)) ∈ m.cache.entries :=
      AList.mem_lookup_iff.mp hl
    by_cases hexp : (m.heap a).expiredAt ≤ t
    · have : ∃ kv ∈ m.cache.entries, kv.1 = k ∧ (m.heap kv.2).expiredAt ≤ t :=
        ⟨⟨k, a⟩, hmem, rfl, hexp⟩
      simp only [if_pos this, if_pos hexp]
    · have : ¬ ∃ kv ∈ m.cache.entries, kv.1 = k ∧ (m.heap kv.2).expiredAt ≤ t := by
        rintro ⟨⟨k2, a2⟩, hkv, hk, h2⟩
        simp only at hk h2
        subst hk
        have h3 : m.cache.lookup k2 = some a2 := AList.mem_lookup_iff.mpr hkv
        rw [hl] at h3
        cases h3
        exact hexp h2
      simp only [if_neg this, if_neg hexp]

end Store

/-! ## C11: a sweeper tick on a whole-cache container -/

/-- C11. A sweeper tick at `t` on a List, Map or Set empties the payload when
`expiredAt <= t` and leaves it as it is when `expiredAt > t`; either way it
makes no builder invocation and leaves `expiredAt`, the ttl and the source
alone. -/
theorem sweeper_tick_whole_cache (K V : Type) [DecidableEq K] (t : Int) :
    (∀ s : ListCache V,
      (s.expiredAt ≤ t → (s.check t).cache = []) ∧
      (t < s.expiredAt → (s.check t).cache = s.cache) ∧
      (s.check t).calls = s.calls ∧ (s.check t).expiredAt = s.expiredAt ∧
      (s.check t).expire = s.expire ∧ (s.check t).source = s.source) ∧
    (∀ m : MapCache K V,
      (m.expiredAt ≤ t → (m.check t).cache = ∅) ∧
      (t < m.expiredAt → (m.check t).cache = m.cache) ∧
      (m.check t).calls = m.calls ∧ (m.check t).expiredAt = m.expiredAt ∧
      (m.check t).expire = m.expire ∧ (m.check t).source = m.source) ∧
    (∀ s : SetCache K,
      (s.expiredAt ≤ t → (s.check t).cache = ∅) ∧
      (t < s.expiredAt → (s.check t).cache = s.cache) ∧
      (s.check t).calls = s.calls ∧ (s.check t).expiredAt = s.expiredAt ∧
      (s.check t).expire = s.expire ∧ (s.check t).source = s.source) := by
  refine ⟨fun s => ?_, fun m => ?_, fun s => ?_⟩
  · by_cases h : s.expiredAt ≤ t
    · simp [ListCache.check, h]
    · simp [ListCache.check, h]
  · by_cases h : m.expiredAt ≤ t
    · simp [MapCache.check, h]
    · simp [MapCache.check, h]
  · by_cases h : s.expiredAt ≤ t
    · simp [SetCache.check, h]
    · simp [SetCache.check, h]

/-- Witness for C11: the sample list (expiredAt 100) is emptied by the tick
at 100 and kept by the tick at 99; the sample map likewise. -/
theorem sweeper_tick_whole_cache_witness :
    (sampleList.check 100).cache = [] ∧ (sampleList.check 99).cache = sampleList.cache ∧
    (sampleMap.check 100).cache = ∅ ∧ (sampleMap.check 99).cache = sampleMap.cache :=
  ⟨((sweeper_tick_whole_cache Nat Nat 100).1 sampleList).1 (by decide),
   ((sweeper_tick_whole_cache Nat Nat 99).1 sampleList).2.1 (by decide),
   ((sweeper_tick_whole_cache Nat Nat 100).2.1 sampleMap).1 (by decide),
   ((sweeper_tick_whole_cache Nat Nat 99).2.1 sampleMap).2.1 (by decide)⟩

/-! ## C12: a sweeper tick on the keyed store -/

/-- C12. A sweeper tick at `t` on a Store deletes exactly the keys whose unit
has `expiredAt <= t`: afterwards a key is present iff it was present with a
unit expiring after `t`; a surviving key keeps its unit, no unit is written
(value and `expiredAt` are as before), and no builder invocation is made. -/
theorem sweeper_tick_store (K V : Type) [DecidableEq K] (t : Int) (m : Store K V) :
    (∀ k, ((m.check t).cache.lookup k).isSome = true ↔
      ∃ a, m.cache.lookup k = some a ∧ t < (m.heap a).expiredAt) ∧
    (∀ k a, (m.check t).cache.lookup k = some a →
      m.cache.lookup k = some a ∧ (m.check t).heap a = m.heap a) ∧
    (m.check t).heap = m.heap ∧ (m.check t).calls = m.calls ∧
    (m.check t).expire = m.expire := by
  refine ⟨fun k => ?_, fun k a h => ⟨Store.store_check_lookup t m k a h, rfl⟩,
    rfl, rfl, rfl⟩
  rw [Store.store_check_lookup_eq]
  cases hl : m.cache.lookup k with
  | none => simp
  | some a =>
    by_cases hexp : (m.heap a).expiredAt ≤ t
    · simp only [if_pos hexp, Option.isSome_none, Bool.false_eq_true, false_iff]
      rintro ⟨a2, h2, h3⟩
      cases h2
      omega
    · simp only [if_neg hexp, Option.isSome_some, true_iff]
      exact ⟨a, rfl, by omega⟩

/-- Witness for C12: the sample store holds key 5 with a unit expiring at
100; the tick at 100 deletes it, the tick at 99 keeps it with its unit. -/
theorem sweeper_tick_store_witness :
    (sampleStore.check 100).cache.lookup 5 = none ∧ (sampleStore.check 100).Size = 0 ∧
    (sampleStore.cache.lookup 5 = some 0 ∧ (sampleStore.check 99).heap 0 = sampleStore.heap 0) :=
  ⟨by decide, by decide,
   (sweeper_tick_store Nat Nat 99 sampleStore).2.1 5 0 (by decide)⟩

/-! ## Store.Get on a key without unit -/

namespace Store
variable {K V : Type} [DecidableEq K]

theorem store_Build_cache (force : Bool) (key : K) (opts : List Iface) (now : Int)
    (m : Store K V) : (m.Build force key opts now).1.cache = (m.ensure key).2.cache := by
  simp only [Build, lockedRebuild]
  cases force <;> (repeat' split) <;> simp

theorem store_Build_next (force : Bool) (key : K) (opts : List Iface) (now : Int)
    (m : Store K V) : (m.Build force key opts now).1.next = (m.ensure key).2.next := by
  simp only [Build, lockedRebuild]
  cases force <;> (repeat' split) <;> simp

/-- `Build` writes no unit other than the one of its key. -/
theorem store_Build_heap_ne (force : Bool) (key : K) (opts : List Iface) (now : Int)
    (m : Store K V) (a : Nat) (h : a ≠ (m.ensure key).1) :
    (m.Build force key opts now).1.heap a = (m.ensure key).2.heap a := by
  simp only [Build, lockedRebuild]
  cases force <;> (repeat' split) <;> simp [store_build_heap_ne _ _ _ _ _ _ h]

theorem store_Size_insert (key : K) (m : Store K V) (h : m.cache.lookup key = none) :
    (m.cache.insert key m.next).entries.length = m.Size + 1 := by
  have hk : key ∉ m.cache := by
    rw [← AList.lookup_isSome, h]; simp
  rw [AList.insert_entries_of_neg hk]
  simp [Size]

theorem store_Get_size_absent (key : K) (opts : List Iface) (now : Int) (m : Store K V)
    (h : m.cache.lookup key = none) :
    (m.Get key opts now).2.1.cache = m.cache.insert key m.next ∧
    (m.Get key opts now).2.1.Size = m.Size + 1 := by
  have hc : (m.Get key opts now).2.1.cache = m.cache.insert key m.next := by
    rw [store_Get_eq]
    simp only
    rw [store_Build_cache, store_ensure_absent key m h]
  refine ⟨hc, ?_⟩
  rw [Size, hc]
  exact store_Size_insert key m h

theorem store_allocated_new (source : Nat → K → List Iface → Option V) (expire : Int) :
    (NewStore source expire).Allocated := by
  intro k a h
  simp [NewStore] at h

theorem store_allocated_ensure (key : K) (m : Store K V) (h : m.Allocated) :
    (m.ensure key).2.Allocated := by
  cases hl : m.cache.lookup key with
  | some val => rw [store_ensure_present key m val hl]; exact h
  | none =>
    rw [store_ensure_absent key m hl]
    intro k a hk
    simp only at hk ⊢
    by_cases hkk : k = key
    · subst hkk; simp at hk; omega
    · rw [AList.lookup_insert_ne hkk] at hk
      have := h k a hk; omega

theorem store_allocated_Build (force : Bool) (key : K) (opts : List Iface) (now : Int)
    (m : Store K V) (h : m.Allocated) : (m.Build force key opts now).1.Allocated := by
  intro k a hk
  rw [store_Build_cache] at hk
  rw [store_Build_next]
  exact store_allocated_ensure key m h k a hk

theorem store_allocated_detached (t : StoreTask K) (now : Int) (m : Store K V)
    (h : m.Allocated) : (m.detached t now).Allocated := by
  intro k a hk
  simp only [detached, lockedRebuild] at hk ⊢
  split at hk
  · rw [if_pos (by assumption)]
    simp only [store_build_cache] at hk
    simp only [store_build_next]
    exact h k a hk
  · rw [if_neg (by assumption)]
    exact h k a hk

theorem store_allocated_check (t : Int) (m : Store K V) (h : m.Allocated) :
    (m.check t).Allocated := by
  intro k a hk
  exact h k a (store_check_lookup t m k a hk)

/-- A `Get` of a key without unit leaves the other keys and their units alone. -/
theorem store_Get_frame (key : K) (opts : List Iface) (now : Int) (m : Store K V)
    (habs : m.cache.lookup key = none) (hal : m.Allocated) (k2 : K) (a : Nat)
    (hne : k2 ≠ key) (hk : m.cache.lookup k2 = some a) :
    (m.Get key opts now).2.1.cache.lookup k2 = some a ∧
    (m.Get key opts now).2.1.heap a = m.heap a := by
  have hlt : a < m.next := hal k2 a hk
  have he := store_ensure_absent key m habs
  have hv : (m.ensure key).1 = m.next := by rw [he]
  refine ⟨?_, ?_⟩
  · rw [(store_Get_size_absent key opts now m habs).1, AList.lookup_insert_ne hne]
    exact hk
  · rw [store_Get_eq]
    simp only
    rw [store_Build_heap_ne false key opts now m a (by rw [hv]; omega), he]
    simp only
    rw [if_neg (by omega)]

/-- A first `Get` whose builder invocation returns nil leaves the placeholder:
value nil, `expiredAt = now + ttl`. -/
theorem store_Get_placeholder (key : K) (opts : List Iface) (now : Int) (m : Store K V)
    (habs : m.cache.lookup key = none) (hnow : 0 ≤ now)
    (hnil : m.source m.calls.length key [Iface.slice opts] = none) :
    (m.Get key opts now).2.1.heap m.next = ⟨now + m.expire, none⟩ := by
  have he := store_ensure_absent key m habs
  have hv : (m.ensure key).1 = m.next := by rw [he]
  have hexp : ((m.ensure key).2.heap (m.ensure key).1).expiredAt ≤ now := by
    rw [he]; simpa using hnow
  rw [store_Get_eq]
  simp only
  rw [store_Build_expired key opts now m hexp, hv, store_build_heap]
  simp only [if_true, store_ensure_expire, store_ensure_source, store_ensure_calls, hnil]
  rw [he]
  simp

end Store

/-! ## C13: Size and Length -/

/-- C13, counterexample. `Length` and `Size` read the payload without calling
`Build`: on the stale list (hard-expired at 100, payload `[1, 2]`, next build
`[4, 5, 6]`) `Length` is 2 although the payload after the rebuild at 100 has
3 elements; on the overlay map (hard-expired at 5, one entry, next build two
entries) `Size` is 1, not 2. -/
theorem length_skips_rebuild_gate :
    staleList.expiredAt ≤ 100 ∧ staleList.Length = 2 ∧
    (staleList.Build [] 100).1.cache.length = 3 ∧
    overlayMap.expiredAt ≤ 5 ∧ overlayMap.Size = 1 ∧ (overlayMap.Build [] 5).1.Size = 2 := by
  decide

/-- C13, amended. `Size` (Map, Set, Store) and `Length` (List) return the
count of the payload as it stands, without running the gate.  On a
hard-expired unit the count of the rebuilt payload is what they return once a
gated read (`Get`, `Copy`, `Has`) at `now` has run the rebuild; the Store's
`Size` counts keys and has grown by one after the `Get` of a key that had no
unit. -/
theorem size_counts_current_payload (K V : Type) [DecidableEq K] (now : Int) :
    (∀ (s : ListCache V) (r : List V), s.expiredAt ≤ now →
      s.source s.calls.length = some r →
      s.Length = s.cache.length ∧ (s.Get now).1 = r ∧
      (s.Get now).2.1.Length = r.length ∧ (s.Copy now).2.1.Length = r.length) ∧
    (∀ (m : MapCache K V) (r : GoMap K V) (key : K), m.expiredAt ≤ now →
      m.source m.calls.length = some r →
      m.Size = m.cache.entries.length ∧ (m.Get key now).2.1.Size = r.entries.length) ∧
    (∀ (s : SetCache K) (r : List K) (key : K), s.expiredAt ≤ now →
      s.source s.calls.length = some r →
      s.Size = s.cache.entries.length ∧ (s.Has key now).2.1.Size = r.dedup.length) ∧
    (∀ (m : Store K V) (key : K) (opts : List Iface), m.cache.lookup key = none →
      m.Size = m.cache.entries.length ∧ (m.Get key opts now).2.1.Size = m.Size + 1) := by
  refine ⟨fun s r he hr => ?_, fun m r key he hr => ?_, fun s r key he hr => ?_,
    fun m key opts habs => ⟨rfl, (Store.store_Get_size_absent key opts now m habs).2⟩⟩
  · have hb := ListCache.list_Build_expired [] now s rfl he
    have hc := s.list_build_cache_some now r hr
    refine ⟨rfl, ?_, ?_, ?_⟩
    · simp only [ListCache.Get, hb, hc]
    · simp only [ListCache.Get, ListCache.Length, hb, hc]
    · simp only [ListCache.Copy, ListCache.Length, hb, hc]
  · have hb := MapCache.map_Build_expired [] now m rfl he
    have hc := m.map_build_cache_some now r hr
    refine ⟨rfl, ?_⟩
    simp only [MapCache.Get, MapCache.Size, hb, hc]
    exact MapCache.map_copyMap_length r
  · have hb := SetCache.set_Build_expired [] now s rfl he
    have hc := s.set_build_cache_some now r hr
    refine ⟨rfl, ?_⟩
    simp only [SetCache.Has, SetCache.Size, hb, hc]
    exact SetCache.set_fromSlice_length r

/-- Witness for C13 (amended): the stale list read with `Get` at 100. -/
theorem size_counts_current_payload_witness :
    staleList.Length = staleList.cache.length ∧ (staleList.Get 100).1 = [4, 5, 6] ∧
    (staleList.Get 100).2.1.Length = [4, 5, 6].length ∧
    (staleList.Copy 100).2.1.Length = [4, 5, 6].length :=
  (size_counts_current_payload Nat Nat 100).1 staleList [4, 5, 6] (by decide) rfl

/-! ## Read-only workloads -/

theorem chain_append_last (l : List Int) : ∀ (b t : Int),
    List.Chain (· ≤ ·) b (l ++ [t]) → b ≤ t := by
  induction l with
  | nil => intro b t h; simp only [List.nil_append, List.chain_cons] at h; exact h.1
  | cons a tl ih =>
    intro b t h
    simp only [List.cons_append, List.chain_cons] at h
    exact le_trans h.1 (ih a t h.2)

namespace ListCache

variable {V : Type}

theorem list_read_step (t : Int) (op : ListOp) (s : ListCache V) (hop : op.isRead = true) :
    s.step t op = s.build t ∨ s.step t op = s := by
  cases op <;> simp only [ListOp.isRead, Bool.not_eq_true', Bool.false_eq_true] at hop <;>
    simp only [step, Build, detached, lockedRebuild, hop] <;>
    (repeat' split) <;> simp

theorem list_readInv_build (t : Int) (s : ListCache V) : (s.build t).ReadInv t := by
  refine Or.inr ⟨t, s.calls, list_build_calls t s, le_rfl, by simp, fun r hr => ?_⟩
  rw [list_build_source] at hr
  exact list_build_cache_some t s r hr

theorem list_readInv_mono (b t : Int) (s : ListCache V) (h : s.ReadInv b) (hle : b ≤ t) :
    s.ReadInv t := by
  rcases h with h | ⟨T, rest, h1, h2, h3, h4⟩
  · exact Or.inl h
  · exact Or.inr ⟨T, rest, h1, by omega, h3, h4⟩

theorem list_readInv_step (b t : Int) (op : ListOp) (s : ListCache V) (hop : op.isRead = true)
    (h : s.ReadInv b) (hle : b ≤ t) : (s.step t op).ReadInv t := by
  rcases list_read_step t op s hop with hs | hs <;> rw [hs]
  · exact list_readInv_build t s
  · exact list_readInv_mono b t s h hle

theorem list_readInv_run (ops : List (Int × ListOp)) :
    ∀ (b t : Int) (s : ListCache V), s.ReadInv b →
      List.Chain (· ≤ ·) b (ops.map Prod.fst ++ [t]) →
      (∀ o ∈ ops, o.2.isRead = true) → (runWith step ops s).ReadInv t := by
  induction ops with
  | nil =>
    intro b t s h hc _
    simp only [List.map_nil, List.nil_append, List.chain_cons] at hc
    exact list_readInv_mono b t s h hc.1
  | cons o rest ih =>
    intro b t s h hc hall
    simp only [List.map_cons, List.cons_append, List.chain_cons] at hc
    simp only [runWith, List.foldl_cons]
    exact ih o.1 t _ (list_readInv_step b o.1 o.2 s (hall o (List.mem_cons_self o rest)) h hc.1)
      hc.2 (fun x hx => hall x (List.mem_cons_of_mem o hx))

/-- The state a gated read at `t >= 0` returns from, after a read-only
history: the latest builder invocation is no older than the ttl plus the
pre-build window, and its non-nil result is the payload. -/
theorem list_read_fresh (t : Int) (s : ListCache V) (h : s.ReadInv t) (ht : 0 ≤ t)
    (httl : 0 ≤ s.expire) :
    ∃ T rest, (s.Build [] t).1.calls = T :: rest ∧
      t - (s.expire + prebuildDuration s.expire) ≤ T ∧ T ≤ t ∧
      ∀ r, s.source rest.length = some r → (s.Build [] t).1.cache = r := by
  have hp := prebuildDuration_pos s.expire
  by_cases he : s.expiredAt ≤ t
  · rw [list_Build_expired [] t s rfl he]
    exact ⟨t, s.calls, list_build_calls t s, by omega, le_rfl,
      fun r hr => list_build_cache_some t s r hr⟩
  · have hsame : (s.Build [] t).1 = s := by
      simp only [Build, forced, Bool.false_eq_true, if_false, if_neg he]
      split <;> rfl
    rw [hsame]
    rcases h with ⟨_, h0⟩ | ⟨T, rest, h1, h2, h3, h4⟩
    · omega
    · exact ⟨T, rest, h1, by omega, h2, h4⟩

theorem list_readInv_new (source : Nat → Option (List V)) (expire : Int) :
    (NewList source expire).ReadInv 0 :=
  Or.inl ⟨rfl, rfl⟩

theorem list_step_source (t : Int) (op : ListOp) (s : ListCache V) :
    (s.step t op).source = s.source := by
  cases op <;> simp only [step, Build, detached, lockedRebuild, check] <;>
    (repeat' split) <;> simp

theorem list_run_fields (ops : List (Int × ListOp)) :
    ∀ s : ListCache V, (runWith step ops s).expire = s.expire ∧
      (runWith step ops s).source = s.source := by
  induction ops with
  | nil => intro s; exact ⟨rfl, rfl⟩
  | cons o tl ih =>
    intro s
    simp only [runWith, List.foldl_cons]
    have h1 := ih (s.step o.1 o.2)
    simp only [runWith] at h1
    exact ⟨h1.1.trans (list_step_cases o.1 o.2 s).1, h1.2.trans (list_step_source o.1 o.2 s)⟩

/-- After a read-only history on a fresh container with `ttl >= 0`, the state
a read at `t` returns from. -/
theorem list_read_bound (source : Nat → Option (List V)) (ttl : Int) (httl : 0 ≤ ttl)
    (ops : List (Int × ListOp)) (t : Int) (hall : ∀ o ∈ ops, o.2.isRead = true)
    (hc : List.Chain (· ≤ ·) 0 (ops.map Prod.fst ++ [t])) :
    ∃ T rest, ((runWith step ops (NewList source ttl)).Build [] t).1.calls = T :: rest ∧
      t - (ttl + prebuildDuration ttl) ≤ T ∧ T ≤ t ∧
      ∀ r, source rest.length = some r →
        ((runWith step ops (NewList source ttl)).Build [] t).1.cache = r := by
  have ht := chain_append_last _ 0 t hc
  have hinv := list_readInv_run ops 0 t _ (list_readInv_new source ttl) hc hall
  obtain ⟨hx, hsrc⟩ := list_run_fields ops (NewList source ttl)
  have hx2 : (runWith step ops (NewList source ttl)).expire = ttl := hx
  have hsrc2 : (runWith step ops (NewList source ttl)).source = source := hsrc
  obtain ⟨T, rest, h1, h2, h3, h4⟩ := list_read_fresh t _ hinv ht (by rw [hx2]; exact httl)
  rw [hx2] at h2
  rw [hsrc2] at h4
  exact ⟨T, rest, h1, h2, h3, h4⟩

end ListCache

namespace MapCache

variable {K V : Type} [DecidableEq K]

theorem map_read_step (t : Int) (op : MapOp K V) (m : MapCache K V) (hop : op.isRead = true) :
    m.step t op = m.build t ∨ m.step t op = m := by
  cases op <;> simp only [MapOp.isRead, Bool.not_eq_true', Bool.false_eq_true] at hop <;>
    simp only [step, Build, detached, lockedRebuild, hop] <;>
    (repeat' split) <;> simp

theorem map_readInv_build (t : Int) (m : MapCache K V) : (m.build t).ReadInv t := by
  refine Or.inr ⟨t, m.calls, map_build_calls t m, le_rfl, by simp, fun r hr => ?_⟩
  rw [map_build_source] at hr
  exact map_build_cache_some t m r hr

theorem map_readInv_mono (b t : Int) (m : MapCache K V) (h : m.ReadInv b) (hle : b ≤ t) :
    m.ReadInv t := by
  rcases h with h | ⟨T, rest, h1, h2, h3, h4⟩
  · exact Or.inl h
  · exact Or.inr ⟨T, rest, h1, by omega, h3, h4⟩

theorem map_readInv_step (b t : Int) (op : MapOp K V) (m : MapCache K V) (hop : op.isRead = true)
    (h : m.ReadInv b) (hle : b ≤ t) : (m.step t op).ReadInv t := by
  rcases map_read_step t op m hop with hs | hs <;> rw [hs]
  · exact map_readInv_build t m
  · exact map_readInv_mono b t m h hle

theorem map_readInv_run (ops : List (Int × MapOp K V)) :
    ∀ (b t : Int) (m : MapCache K V), m.ReadInv b →
      List.Chain (· ≤ ·) b (ops.map Prod.fst ++ [t]) →
      (∀ o ∈ ops, o.2.isRead = true) → (runWith step ops m).ReadInv t := by
  induction ops with
  | nil =>
    intro b t m h hc _
    simp only [List.map_nil, List.nil_append, List.chain_cons] at hc
    exact map_readInv_mono b t m h hc.1
  | cons o rest ih =>
    intro b t m h hc hall
    simp only [List.map_cons, List.cons_append, List.chain_cons] at hc
    simp only [runWith, List.foldl_cons]
    exact ih o.1 t _ (map_readInv_step b o.1 o.2 m (hall o (List.mem_cons_self o rest)) h hc.1)
      hc.2 (fun x hx => hall x (List.mem_cons_of_mem o hx))

/-- The state a gated read at `t >= 0` returns from, after a read-only
history: the latest builder invocation is no older than the ttl plus the
pre-build window, and its non-nil result is the payload. -/
theorem map_read_fresh (t : Int) (m : MapCache K V) (h : m.ReadInv t) (ht : 0 ≤ t)
    (httl : 0 ≤ m.expire) :
    ∃ T rest, (m.Build [] t).1.calls = T :: rest ∧
      t - (m.expire + prebuildDuration m.expire) ≤ T ∧ T ≤ t ∧
      ∀ r, m.source rest.length = some r → (m.Build [] t).1.cache = copyMap r := by
  have hp := prebuildDuration_pos m.expire
  by_cases he : m.expiredAt ≤ t
  · rw [map_Build_expired [] t m rfl he]
    exact ⟨t, m.calls, map_build_calls t m, by omega, le_rfl,
      fun r hr => map_build_cache_some t m r hr⟩
  · have hsame : (m.Build [] t).1 = m := by
      simp only [Build, forced, Bool.false_eq_true, if_false, if_neg he]
      split <;> rfl
    rw [hsame]
    rcases h with ⟨_, h0⟩ | ⟨T, rest, h1, h2, h3, h4⟩
    · omega
    · exact ⟨T, rest, h1, by omega, h2, h4⟩

theorem map_readInv_new (source : Nat → Option (GoMap K V)) (expire : Int) :
    (NewMap source expire).ReadInv 0 :=
  Or.inl ⟨rfl, rfl⟩

theorem map_step_source (t : Int) (op : MapOp K V) (m : MapCache K V) :
    (m.step t op).source = m.source := by
  cases op <;> simp only [step, Build, detached, lockedRebuild, check, Set, Delete] <;>
    (repeat' split) <;> simp

theorem map_run_fields (ops : List (Int × MapOp K V)) :
    ∀ m : MapCache K V, (runWith step ops m).expire = m.expire ∧
      (runWith step ops m).source = m.source := by
  induction ops with
  | nil => intro m; exact ⟨rfl, rfl⟩
  | cons o tl ih =>
    intro m
    simp only [runWith, List.foldl_cons]
    have h1 := ih (m.step o.1 o.2)
    simp only [runWith] at h1
    exact ⟨h1.1.trans (map_step_cases o.1 o.2 m).1, h1.2.trans (map_step_source o.1 o.2 m)⟩

/-- After a read-only history on a fresh container with `ttl >= 0`, the state
a read at `t` returns from. -/
theorem map_read_bound (source : Nat → Option (GoMap K V)) (ttl : Int) (httl : 0 ≤ ttl)
    (ops : List (Int × MapOp K V)) (t : Int) (hall : ∀ o ∈ ops, o.2.isRead = true)
    (hc : List.Chain (· ≤ ·) 0 (ops.map Prod.fst ++ [t])) :
    ∃ T rest, ((runWith step ops (NewMap source ttl)).Build [] t).1.calls = T :: rest ∧
      t - (ttl + prebuildDuration ttl) ≤ T ∧ T ≤ t ∧
      ∀ r, source rest.length = some r →
        ((runWith step ops (NewMap source ttl)).Build [] t).1.cache = copyMap r := by
  have ht := chain_append_last _ 0 t hc
  have hinv := map_readInv_run ops 0 t _ (map_readInv_new source ttl) hc hall
  obtain ⟨hx, hsrc⟩ := map_run_fields ops (NewMap source ttl)
  have hx2 : (runWith step ops (NewMap source ttl)).expire = ttl := hx
  have hsrc2 : (runWith step ops (NewMap source ttl)).source = source := hsrc
  obtain ⟨T, rest, h1, h2, h3, h4⟩ := map_read_fresh t _ hinv ht (by rw [hx2]; exact httl)
  rw [hx2] at h2
  rw [hsrc2] at h4
  exact ⟨T, rest, h1, h2, h3, h4⟩

end MapCache

namespace SetCache

variable {K : Type} [DecidableEq K]

theorem set_read_step (t : Int) (op : SetOp K) (s : SetCache K) (hop : op.isRead = true) :
    s.step t op = s.build t ∨ s.step t op = s := by
  cases op <;> simp only [SetOp.isRead, Bool.not_eq_true', Bool.false_eq_true] at hop <;>
    simp only [step, Build, detached, lockedRebuild, hop] <;>
    (repeat' split) <;> simp

theorem set_readInv_build (t : Int) (s : SetCache K) : (s.build t).ReadInv t := by
  refine Or.inr ⟨t, s.calls, set_build_calls t s, le_rfl, by simp, fun r hr => ?_⟩
  rw [set_build_source] at hr
  exact set_build_cache_some t s r hr

theorem set_readInv_mono (b t : Int) (s : SetCache K) (h : s.ReadInv b) (hle : b ≤ t) :
    s.ReadInv t := by
  rcases h with h | ⟨T, rest, h1, h2, h3, h4⟩
  · exact Or.inl h
  · exact Or.inr ⟨T, rest, h1, by omega, h3, h4⟩

theorem set_readInv_step (b t : Int) (op : SetOp K) (s : SetCache K) (hop : op.isRead = true)
    (h : s.ReadInv b) (hle : b ≤ t) : (s.step t op).ReadInv t := by
  rcases set_read_step t op s hop with hs | hs <;> rw [hs]
  · exact set_readInv_build t s
  · exact set_readInv_mono b t s h hle

theorem set_readInv_run (ops : List (Int × SetOp K)) :
    ∀ (b t : Int) (s : SetCache K), s.ReadInv b →
      List.Chain (· ≤ ·) b (ops.map Prod.fst ++ [t]) →
      (∀ o ∈ ops, o.2.isRead = true) → (runWith step ops s).ReadInv t := by
  induction ops with
  | nil =>
    intro b t s h hc _
    simp only [List.map_nil, List.nil_append, List.chain_cons] at hc
    exact set_readInv_mono b t s h hc.1
  | cons o rest ih =>
    intro b t s h hc hall
    simp only [List.map_cons, List.cons_append, List.chain_cons] at hc
    simp only [runWith, List.foldl_cons]
    exact ih o.1 t _ (set_readInv_step b o.1 o.2 s (hall o (List.mem_cons_self o rest)) h hc.1)
      hc.2 (fun x hx => hall x (List.mem_cons_of_mem o hx))

/-- The state a gated read at `t >= 0` returns from, after a read-only
history: the latest builder invocation is no older than the ttl plus the
pre-build window, and its non-nil result is the payload. -/
theorem set_read_fresh (t : Int) (s : SetCache K) (h : s.ReadInv t) (ht : 0 ≤ t)
    (httl : 0 ≤ s.expire) :
    ∃ T rest, (s.Build [] t).1.calls = T :: rest ∧
      t - (s.expire + prebuildDuration s.expire) ≤ T ∧ T ≤ t ∧
      ∀ r, s.source rest.length = some r → (s.Build [] t).1.cache = fromSlice r := by
  have hp := prebuildDuration_pos s.expire
  by_cases he : s.expiredAt ≤ t
  · rw [set_Build_expired [] t s rfl he]
    exact ⟨t, s.calls, set_build_calls t s, by omega, le_rfl,
      fun r hr => set_build_cache_some t s r hr⟩
  · have hsame : (s.Build [] t).1 = s := by
      simp only [Build, forced, Bool.false_eq_true, if_false, if_neg he]
      split <;> rfl
    rw [hsame]
    rcases h with ⟨_, h0⟩ | ⟨T, rest, h1, h2, h3, h4⟩
    · omega
    · exact ⟨T, rest, h1, by omega, h2, h4⟩

theorem set_readInv_new (source : Nat → Option (List K)) (expire : Int) :
    (NewSet source expire).ReadInv 0 :=
  Or.inl ⟨rfl, rfl⟩

theorem set_step_source (t : Int) (op : SetOp K) (s : SetCache K) :
    (s.step t op).source = s.source := by
  cases op <;> simp only [step, Build, detached, lockedRebuild, check, Add, Delete] <;>
    (repeat' split) <;> simp

theorem set_run_fields (ops : List (Int × SetOp K)) :
    ∀ s : SetCache K, (runWith step ops s).expire = s.expire ∧
      (runWith step ops s).source = s.source := by
  induction ops with
  | nil => intro s; exact ⟨rfl, rfl⟩
  | cons o tl ih =>
    intro s
    simp only [runWith, List.foldl_cons]
    have h1 := ih (s.step o.1 o.2)
    simp only [runWith] at h1
    exact ⟨h1.1.trans (set_step_cases o.1 o.2 s).1, h1.2.trans (set_step_source o.1 o.2 s)⟩

/-- After a read-only history on a fresh container with `ttl >= 0`, the state
a read at `t` returns from. -/
theorem set_read_bound (source : Nat → Option (List K)) (ttl : Int) (httl : 0 ≤ ttl)
    (ops : List (Int × SetOp K)) (t : Int) (hall : ∀ o ∈ ops, o.2.isRead = true)
    (hc : List.Chain (· ≤ ·) 0 (ops.map Prod.fst ++ [t])) :
    ∃ T rest, ((runWith step ops (NewSet source ttl)).Build [] t).1.calls = T :: rest ∧
      t - (ttl + prebuildDuration ttl) ≤ T ∧ T ≤ t ∧
      ∀ r, source rest.length = some r →
        ((runWith step ops (NewSet source ttl)).Build [] t).1.cache = fromSlice r := by
  have ht := chain_append_last _ 0 t hc
  have hinv := set_readInv_run ops 0 t _ (set_readInv_new source ttl) hc hall
  obtain ⟨hx, hsrc⟩ := set_run_fields ops (NewSet source ttl)
  have hx2 : (runWith step ops (NewSet source ttl)).expire = ttl := hx
  have hsrc2 : (runWith step ops (NewSet source ttl)).source = source := hsrc
  obtain ⟨T, rest, h1, h2, h3, h4⟩ := set_read_fresh t _ hinv ht (by rw [hx2]; exact httl)
  rw [hx2] at h2
  rw [hsrc2] at h4
  exact ⟨T, rest, h1, h2, h3, h4⟩

end SetCache

namespace Store
variable {K V : Type} [DecidableEq K]

/-- Shape of a non-forced `Build` with its goroutine joined: one rebuild of
the key's unit, at the call or at the join, or only the prologue, the unit
being unexpired. -/
theorem store_BuildJoin_shape (key : K) (opts : List Iface) (t d : Int) (m : Store K V) :
    (m.BuildJoin false key opts t d = (m.ensure key).2.build (m.ensure key).1 key opts t ∧
      ((m.ensure key).2.heap (m.ensure key).1).expiredAt ≤ t) ∨
    (m.BuildJoin false key opts t d = (m.ensure key).2.build (m.ensure key).1 key opts d ∧
      t < ((m.ensure key).2.heap (m.ensure key).1).expiredAt) ∨
    (m.BuildJoin false key opts t d = (m.ensure key).2 ∧
      t < ((m.ensure key).2.heap (m.ensure key).1).expiredAt) := by
  by_cases h : ((m.ensure key).2.heap (m.ensure key).1).expiredAt ≤ t
  · exact Or.inl ⟨by simp only [BuildJoin, store_Build_expired key opts t m h], h⟩
  · by_cases h1 : ((m.ensure key).2.heap (m.ensure key).1).expiredAt - t ≤
        prebuildDuration m.expire
    · have h0 : 0 < ((m.ensure key).2.heap (m.ensure key).1).expiredAt - t := by omega
      refine Or.inr (Or.inl ⟨?_, by omega⟩)
      simp only [BuildJoin, store_Build_prebuild key opts t m h0 h1, detached,
        store_lockedRebuild_self]
    · have h2 : prebuildDuration m.expire <
          ((m.ensure key).2.heap (m.ensure key).1).expiredAt - t := by omega
      exact Or.inr (Or.inr ⟨by simp only [BuildJoin, store_Build_fresh key opts t m h2],
        by omega⟩)

theorem store_readInv_build (key : K) (opts : List Iface) (T b : Int) (m : Store K V)
    (hT : T ≤ b) :
    ((m.ensure key).2.build (m.ensure key).1 key opts T).ReadInv b key := by
  refine Or.inr ⟨(m.ensure key).1, T, [Iface.slice opts], m.calls, ?_, ?_, hT, ?_,
    fun r hr => ?_⟩
  · simpa using store_ensure_lookup key m
  · simp
  · simp
  · simp only [store_build_source, store_ensure_source] at hr
    exact store_build_heap_value_some _ key opts T _ r (by simpa using hr)

theorem store_readInv_mono (b t : Int) (key : K) (m : Store K V) (h : m.ReadInv b key)
    (hle : b ≤ t) : m.ReadInv t key := by
  rcases h with h | ⟨val, T, o, rest, h1, h2, h3, h4, h5⟩
  · exact Or.inl h
  · exact Or.inr ⟨val, T, o, rest, h1, h2, by omega, h4, h5⟩

/-- An unexpired unit at a clock reading `t >= 0` is not a fresh placeholder:
the key had its unit before the prologue. -/
theorem store_ensure_unexpired (key : K) (t : Int) (m : Store K V) (ht : 0 ≤ t)
    (h : t < ((m.ensure key).2.heap (m.ensure key).1).expiredAt) :
    ∃ val, m.cache.lookup key = some val ∧ m.ensure key = (val, m) := by
  cases hl : m.cache.lookup key with
  | some val => exact ⟨val, rfl, store_ensure_present key m val hl⟩
  | none =>
    rw [store_ensure_absent key m hl] at h
    simp at h
    omega

theorem store_readInv_step (key : K) (opts : List Iface) (b t d : Int) (m : Store K V)
    (h : m.ReadInv b key) (hbt : b ≤ t) (htd : t ≤ d) (ht : 0 ≤ t) :
    (m.BuildJoin false key opts t d).ReadInv d key := by
  rcases store_BuildJoin_shape key opts t d m with ⟨hs, _⟩ | ⟨hs, _⟩ | ⟨hs, hu⟩ <;>
    rw [hs]
  · exact store_readInv_build key opts t d m htd
  · exact store_readInv_build key opts d d m le_rfl
  · obtain ⟨val, _, he⟩ := store_ensure_unexpired key t m ht hu
    rw [he]
    exact store_readInv_mono b d key m h (by omega)

theorem store_readInv_getSeq (key : K) (opts : List Iface) (cs : List (Int × Int)) :
    ∀ (b t : Int) (m : Store K V), m.ReadInv b key → 0 ≤ b →
      List.Chain (· ≤ ·) b (readings cs ++ [t]) → (m.getSeq key opts cs).ReadInv t key := by
  induction cs with
  | nil =>
    intro b t m h _ hc
    simp only [readings, List.nil_append, List.chain_cons] at hc
    exact store_readInv_mono b t key m h hc.1
  | cons c rest ih =>
    intro b t m h hb hc
    simp only [readings, List.cons_append, List.chain_cons] at hc
    obtain ⟨h1, h2, h3⟩ := hc
    simp only [getSeq, List.foldl_cons]
    rw [store_GetJoin_eq]
    exact ih c.2 t _ (store_readInv_step key opts b c.1 c.2 m h h1 h2 (by omega)) (by omega) h3

theorem store_getSeq_fields (key : K) (opts : List Iface) (cs : List (Int × Int)) :
    ∀ m : Store K V, (m.getSeq key opts cs).expire = m.expire ∧
      (m.getSeq key opts cs).source = m.source := by
  induction cs with
  | nil => intro m; exact ⟨rfl, rfl⟩
  | cons c rest ih =>
    intro m
    simp only [getSeq, List.foldl_cons]
    have h1 := ih (m.GetJoin key opts c)
    simp only [getSeq] at h1
    have h2 : (m.GetJoin key opts c).expire = m.expire ∧
        (m.GetJoin key opts c).source = m.source := by
      rw [store_GetJoin_eq]
      rcases store_BuildJoin_shape key opts c.1 c.2 m with ⟨hs, _⟩ | ⟨hs, _⟩ | ⟨hs, _⟩ <;>
        rw [hs] <;> simp
    exact ⟨h1.1.trans h2.1, h1.2.trans h2.2⟩

/-- What `Get(key)` returns at `t >= 0` after a history of reads of `key`. -/
theorem store_read_fresh (key : K) (opts : List Iface) (t : Int) (m : Store K V)
    (h : m.ReadInv t key) (ht : 0 ≤ t) (httl : 0 ≤ m.expire) :
    ∃ T o rest, (m.Get key opts t).2.1.calls = ⟨T, key, o⟩ :: rest ∧
      t - (m.expire + prebuildDuration m.expire) ≤ T ∧ T ≤ t ∧
      ∀ r, m.source rest.length key o = some r →
        (m.Get key opts t).1 = some (some r, true) := by
  have hp := prebuildDuration_pos m.expire
  rw [store_Get_eq]
  simp only
  by_cases he : ((m.ensure key).2.heap (m.ensure key).1).expiredAt ≤ t
  · rw [store_Build_expired key opts t m he]
    refine ⟨t, [Iface.slice opts], m.calls, by simp, by omega, le_rfl, fun r hr => ?_⟩
    rw [store_build_heap_value_some _ key opts t _ r (by simpa using hr)]
    rfl
  · obtain ⟨val, hl, hens⟩ := store_ensure_unexpired key t m ht (by omega)
    have hsame : (m.Build false key opts t).1 = m := by
      simp only [Build, hens, if_neg (by rw [hens] at he; exact he), Bool.false_eq_true,
        if_false]
      split <;> rfl
    rw [hsame, hens]
    rw [hens] at he
    simp only at he
    rcases h with h | ⟨val2, T, o, rest, h1, h2, h3, h4, h5⟩
    · rw [hl] at h; cases h
    · rw [hl] at h1
      cases h1
      refine ⟨T, o, rest, h2, by omega, h3, fun r hr => ?_⟩
      simp only
      rw [h5 r hr]
      rfl

end Store

/-! ## Read-only workloads: the payload -/

theorem lastResult_eq_some {R : Type} (source : Nat → Option R) (k : Nat) (r : R)
    (hk : source k = some r) :
    ∀ n, k < n → (∀ j, k < j → j < n → source j = none) → lastResult source n = some r := by
  intro n
  induction n with
  | zero => intro h; omega
  | succ n ih =>
    intro hkn hnil
    simp only [lastResult]
    by_cases h : k = n
    · subst h; rw [hk]
    · have hn : source n = none := hnil n (by omega) (by omega)
      rw [hn]
      exact ih (by omega) (fun j h1 h2 => hnil j h1 (by omega))

theorem lastResult_eq_none {R : Type} (source : Nat → Option R) :
    ∀ n, (∀ j, j < n → source j = none) → lastResult source n = none := by
  intro n
  induction n with
  | zero => intro _; rfl
  | succ n ih =>
    intro hnil
    simp only [lastResult]
    rw [hnil n (by omega)]
    exact ih (fun j hj => hnil j (by omega))

namespace ListCache

variable {V : Type}

theorem list_payload_build (t : Int) (s : ListCache V) (h : s.PayloadInv) :
    (s.build t).PayloadInv := by
  unfold PayloadInv at h ⊢
  cases hres : s.source s.calls.length <;> simp [build, lastResult, hres, h]

theorem list_payload_step (t : Int) (op : ListOp) (s : ListCache V) (hop : op.isRead = true)
    (h : s.PayloadInv) : (s.step t op).PayloadInv := by
  rcases list_read_step t op s hop with hs | hs <;> rw [hs]
  · exact list_payload_build t s h
  · exact h

theorem list_payload_run (ops : List (Int × ListOp)) :
    ∀ (s : ListCache V), s.PayloadInv → (∀ o ∈ ops, o.2.isRead = true) →
      (runWith step ops s).PayloadInv := by
  induction ops with
  | nil => intro s h _; exact h
  | cons o rest ih =>
    intro s h hall
    simp only [runWith, List.foldl_cons]
    exact ih _ (list_payload_step o.1 o.2 s (hall o (List.mem_cons_self o rest)) h)
      (fun x hx => hall x (List.mem_cons_of_mem o hx))

/-- After a read-only history on a fresh container, a gated read returns from
a payload that is the latest non-nil result of the builder. -/
theorem list_read_payload (source : Nat → Option (List V)) (ttl : Int)
    (ops : List (Int × ListOp)) (t : Int) (hall : ∀ o ∈ ops, o.2.isRead = true) :
    ((runWith step ops (NewList source ttl)).Build [] t).1.cache =
      (lastResult source
        ((runWith step ops (NewList source ttl)).Build [] t).1.calls.length).getD [] := by
  have h0 : (NewList source ttl).PayloadInv := by simp [PayloadInv, NewList, lastResult]
  have h1 := list_payload_run ops _ h0 hall
  have h2 := list_payload_step t (.Build []) _ (by simp [ListOp.isRead, forced]) h1
  have hsrc : ((runWith step ops (NewList source ttl)).Build [] t).1.source = source :=
    (list_step_source t (.Build []) _).trans (list_run_fields ops (NewList source ttl)).2
  unfold PayloadInv at h2
  simp only [step] at h2
  rw [hsrc] at h2
  exact h2

end ListCache

namespace MapCache

variable {K V : Type} [DecidableEq K]

theorem map_payload_build (t : Int) (m : MapCache K V) (h : m.PayloadInv) :
    (m.build t).PayloadInv := by
  unfold PayloadInv at h ⊢
  cases hres : m.source m.calls.length <;> simp [build, lastResult, hres, h]

theorem map_payload_step (t : Int) (op : MapOp K V) (m : MapCache K V) (hop : op.isRead = true)
    (h : m.PayloadInv) : (m.step t op).PayloadInv := by
  rcases map_read_step t op m hop with hs | hs <;> rw [hs]
  · exact map_payload_build t m h
  · exact h

theorem map_payload_run (ops : List (Int × MapOp K V)) :
    ∀ (m : MapCache K V), m.PayloadInv → (∀ o ∈ ops, o.2.isRead = true) →
      (runWith step ops m).PayloadInv := by
  induction ops with
  | nil => intro m h _; exact h
  | cons o rest ih =>
    intro m h hall
    simp only [runWith, List.foldl_cons]
    exact ih _ (map_payload_step o.1 o.2 m (hall o (List.mem_cons_self o rest)) h)
      (fun x hx => hall x (List.mem_cons_of_mem o hx))

/-- After a read-only history on a fresh container, a gated read returns from
a payload that is the latest non-nil result of the builder. -/
theorem map_read_payload (source : Nat → Option (GoMap K V)) (ttl : Int)
    (ops : List (Int × MapOp K V)) (t : Int) (hall : ∀ o ∈ ops, o.2.isRead = true) :
    ((runWith step ops (NewMap source ttl)).Build [] t).1.cache =
      ((lastResult source
        ((runWith step ops (NewMap source ttl)).Build [] t).1.calls.length).map copyMap).getD ∅ := by
  have h0 : (NewMap source ttl).PayloadInv := by simp [PayloadInv, NewMap, lastResult]
  have h1 := map_payload_run ops _ h0 hall
  have h2 := map_payload_step t (.Build []) _ (by simp [MapOp.isRead, forced]) h1
  have hsrc : ((runWith step ops (NewMap source ttl)).Build [] t).1.source = source :=
    (map_step_source t (.Build []) _).trans (map_run_fields ops (NewMap source ttl)).2
  unfold PayloadInv at h2
  simp only [step] at h2
  rw [hsrc] at h2
  exact h2

end MapCache

namespace SetCache

variable {K : Type} [DecidableEq K]

theorem set_payload_build (t : Int) (s : SetCache K) (h : s.PayloadInv) :
    (s.build t).PayloadInv := by
  unfold PayloadInv at h ⊢
  cases hres : s.source s.calls.length <;> simp [build, lastResult, hres, h]

theorem set_payload_step (t : Int) (op : SetOp K) (s : SetCache K) (hop : op.isRead = true)
    (h : s.PayloadInv) : (s.step t op).PayloadInv := by
  rcases set_read_step t op s hop with hs | hs <;> rw [hs]
  · exact set_payload_build t s h
  · exact h

theorem set_payload_run (ops : List (Int × SetOp K)) :
    ∀ (s : SetCache K), s.PayloadInv → (∀ o ∈ ops, o.2.isRead = true) →
      (runWith step ops s).PayloadInv := by
  induction ops with
  | nil => intro s h _; exact h
  | cons o rest ih =>
    intro s h hall
    simp only [runWith, List.foldl_cons]
    exact ih _ (set_payload_step o.1 o.2 s (hall o (List.mem_cons_self o rest)) h)
      (fun x hx => hall x (List.mem_cons_of_mem o hx))

/-- After a read-only history on a fresh container, a gated read returns from
a payload that is the latest non-nil result of the builder. -/
theorem set_read_payload (source : Nat → Option (List K)) (ttl : Int)
    (ops : List (Int × SetOp K)) (t : Int) (hall : ∀ o ∈ ops, o.2.isRead = true) :
    ((runWith step ops (NewSet source ttl)).Build [] t).1.cache =
      ((lastResult source
        ((runWith step ops (NewSet source ttl)).Build [] t).1.calls.length).map fromSlice).getD ∅ := by
  have h0 : (NewSet source ttl).PayloadInv := by simp [PayloadInv, NewSet, lastResult]
  have h1 := set_payload_run ops _ h0 hall
  have h2 := set_payload_step t (.Build []) _ (by simp [SetOp.isRead, forced]) h1
  have hsrc : ((runWith step ops (NewSet source ttl)).Build [] t).1.source = source :=
    (set_step_source t (.Build []) _).trans (set_run_fields ops (NewSet source ttl)).2
  unfold PayloadInv at h2
  simp only [step] at h2
  rw [hsrc] at h2
  exact h2

end SetCache

/-! ## Read-only workloads on several keys of a store -/

theorem lastValueFor_none {K V : Type} [DecidableEq K]
    (source : Nat → K → List Iface → Option V) (key : K) :
    ∀ calls : List (StoreCall K), lastCallAt key calls = none →
      lastValueFor source key calls = none := by
  intro calls
  induction calls with
  | nil => intro _; rfl
  | cons c rest ih =>
    intro h
    simp only [lastCallAt] at h
    by_cases hk : c.key = key
    · simp [hk] at h
    · simp only [hk, if_false] at h
      simp only [lastValueFor, hk, if_false]
      exact ih h

theorem lastCallAt_append {K : Type} [DecidableEq K] (key : K) (l : List (StoreCall K)) :
    ∀ pre : List (StoreCall K), (∀ d ∈ pre, d.key ≠ key) →
      lastCallAt key (pre ++ l) = lastCallAt key l := by
  intro pre
  induction pre with
  | nil => intro _; rfl
  | cons d rest ih =>
    intro h
    have hd : d.key ≠ key := h d (List.mem_cons_self d rest)
    simp only [List.cons_append, lastCallAt, hd, if_false]
    exact ih (fun x hx => h x (List.mem_cons_of_mem d hx))

theorem lastValueFor_append {K V : Type} [DecidableEq K]
    (source : Nat → K → List Iface → Option V) (key : K) (l : List (StoreCall K)) :
    ∀ pre : List (StoreCall K), (∀ d ∈ pre, d.key ≠ key) →
      lastValueFor source key (pre ++ l) = lastValueFor source key l := by
  intro pre
  induction pre with
  | nil => intro _; rfl
  | cons d rest ih =>
    intro h
    have hd : d.key ≠ key := h d (List.mem_cons_self d rest)
    simp only [List.cons_append, lastValueFor, hd, if_false]
    exact ih (fun x hx => h x (List.mem_cons_of_mem d hx))

namespace Store
variable {K V : Type} [DecidableEq K]

theorem store_keyedInv_mono (b t : Int) (m : Store K V) (h : m.KeyedInv b) (hle : b ≤ t) :
    m.KeyedInv t := by
  obtain ⟨h1, h2, h3, h4⟩ := h
  refine ⟨h1, h2, h3, fun k a hk => ?_⟩
  obtain ⟨hv, ht⟩ := h4 k a hk
  refine ⟨hv, ?_⟩
  rcases ht with ht | ⟨T, hT, hb, he⟩
  · exact Or.inl ht
  · exact Or.inr ⟨T, hT, by omega, he⟩

theorem store_keyedInv_new (source : Nat → K → List Iface → Option V) (expire : Int) :
    (NewStore source expire).KeyedInv 0 := by
  refine ⟨fun k a h => ?_, fun k1 k2 a h => ?_, fun k _ => rfl, fun k a h => ?_⟩ <;>
    simp [NewStore] at h

theorem store_keyedInv_ensure (b : Int) (key : K) (m : Store K V) (h : m.KeyedInv b) :
    (m.ensure key).2.KeyedInv b := by
  cases hl : m.cache.lookup key with
  | some val => rw [store_ensure_present key m val hl]; exact h
  | none =>
    obtain ⟨h1, h2, h3, h4⟩ := h
    rw [store_ensure_absent key m hl]
    refine ⟨fun k a hk => ?_, fun k1 k2 a hk1 hk2 => ?_, fun k hk => ?_, fun k a hk => ?_⟩
    · simp only at hk ⊢
      by_cases hkk : k = key
      · subst hkk; simp at hk; omega
      · rw [AList.lookup_insert_ne hkk] at hk
        have := h1 k a hk; omega
    · simp only at hk1 hk2
      by_cases e1 : k1 = key <;> by_cases e2 : k2 = key
      · rw [e1, e2]
      · subst e1
        rw [AList.lookup_insert] at hk1
        rw [AList.lookup_insert_ne e2] at hk2
        have := h1 k2 a hk2
        simp at hk1
        omega
      · subst e2
        rw [AList.lookup_insert] at hk2
        rw [AList.lookup_insert_ne e1] at hk1
        have := h1 k1 a hk1
        simp at hk2
        omega
      · rw [AList.lookup_insert_ne e1] at hk1
        rw [AList.lookup_insert_ne e2] at hk2
        exact h2 k1 k2 a hk1 hk2
    · simp only at hk ⊢
      by_cases hkk : k = key
      · subst hkk; simp at hk
      · rw [AList.lookup_insert_ne hkk] at hk
        exact h3 k hk
    · simp only at hk ⊢
      by_cases hkk : k = key
      · subst hkk
        rw [AList.lookup_insert] at hk
        simp only [Option.some.injEq] at hk
        subst hk
        simp only [if_true]
        exact ⟨(lastValueFor_none m.source k m.calls (h3 k hl)).symm, Or.inl ⟨h3 k hl, trivial⟩⟩
      · rw [AList.lookup_insert_ne hkk] at hk
        have hlt := h1 k a hk
        have hne : a ≠ m.next := by omega
        simp only [hne, if_false]
        exact h4 k a hk

theorem store_keyedInv_build (b t : Int) (val : Nat) (key : K) (opts : List Iface)
    (m : Store K V) (h : m.KeyedInv b) (hl : m.cache.lookup key = some val) (hle : b ≤ t) :
    (m.build val key opts t).KeyedInv t := by
  obtain ⟨h1, h2, h3, h4⟩ := h
  refine ⟨fun k a hk => ?_, fun k1 k2 a hk1 hk2 => ?_, fun k hk => ?_, fun k a hk => ?_⟩
  · simp only [store_build_cache, store_build_next] at hk ⊢
    exact h1 k a hk
  · simp only [store_build_cache] at hk1 hk2
    exact h2 k1 k2 a hk1 hk2
  · simp only [store_build_cache] at hk
    have hkk : key ≠ k := by
      intro e; subst e; rw [hl] at hk; cases hk
    simp only [store_build_calls, lastCallAt, hkk, if_false]
    exact h3 k hk
  · simp only [store_build_cache] at hk
    simp only [store_build_calls, store_build_source, store_build_expire]
    by_cases hkk : key = k
    · subst hkk
      rw [hl] at hk
      simp only [Option.some.injEq] at hk
      subst hk
      obtain ⟨hv, _⟩ := h4 key val hl
      rw [store_build_heap]
      simp only [if_true, lastCallAt, lastValueFor]
      refine ⟨?_, Or.inr ⟨t, rfl, le_rfl, rfl⟩⟩
      rw [hv]
    · have hne : a ≠ val := by
        intro e; subst e; exact hkk (h2 key k a hl hk)
      rw [store_build_heap_ne _ _ _ _ _ _ hne]
      simp only [lastCallAt, lastValueFor, hkk, if_false]
      obtain ⟨hv, ht⟩ := h4 k a hk
      refine ⟨hv, ?_⟩
      rcases ht with ht | ⟨T, hT, hb, he⟩
      · exact Or.inl ht
      · exact Or.inr ⟨T, hT, by omega, he⟩

/-- A non-forced `Build` either rebuilds the key's unit, which was
hard-expired, or leaves the state of the prologue, the unit being unexpired. -/
theorem store_Build_shape (key : K) (opts : List Iface) (t : Int) (m : Store K V) :
    ((m.Build false key opts t).1 = (m.ensure key).2.build (m.ensure key).1 key opts t ∧
      ((m.ensure key).2.heap (m.ensure key).1).expiredAt ≤ t) ∨
    ((m.Build false key opts t).1 = (m.ensure key).2 ∧
      t < ((m.ensure key).2.heap (m.ensure key).1).expiredAt) := by
  by_cases h : ((m.ensure key).2.heap (m.ensure key).1).expiredAt ≤ t
  · exact Or.inl ⟨by rw [store_Build_expired key opts t m h], h⟩
  · refine Or.inr ⟨?_, by omega⟩
    simp only [Build, Bool.false_eq_true, if_false, if_neg h]
    split <;> rfl

theorem store_Build_task (key : K) (opts : List Iface) (t : Int) (m : Store K V)
    (task : StoreTask K) (h : (m.Build false key opts t).2 = some task) :
    task.key = key ∧ task.val = (m.ensure key).1 := by
  simp only [Build, Bool.false_eq_true, if_false] at h
  split at h
  · cases h
  · split at h
    · simp only [Option.some.injEq] at h
      subst h
      exact ⟨rfl, rfl⟩
    · cases h

theorem store_keyedInv_Build (b t : Int) (key : K) (opts : List Iface) (m : Store K V)
    (h : m.KeyedInv b) (hle : b ≤ t) : (m.Build false key opts t).1.KeyedInv t := by
  have he := store_keyedInv_ensure b key m h
  rcases store_Build_shape key opts t m with ⟨hs, _⟩ | ⟨hs, _⟩ <;> rw [hs]
  · exact store_keyedInv_build b t _ key opts _ he (store_ensure_lookup key m) hle
  · exact store_keyedInv_mono b t _ he hle

theorem store_keyedInv_detached (b t : Int) (task : StoreTask K) (m : Store K V)
    (h : m.KeyedInv b) (hl : m.cache.lookup task.key = some task.val) (hle : b ≤ t) :
    (m.detached task t).KeyedInv t := by
  simp only [detached, lockedRebuild]
  split
  · exact store_keyedInv_build b t _ _ _ m h hl hle
  · exact store_keyedInv_mono b t m h hle

/-- The prologue keeps the unit of every key that has one. -/
theorem store_ensure_keeps (key : K) (m : Store K V) (k : K) (a : Nat)
    (h : m.cache.lookup k = some a) : (m.ensure key).2.cache.lookup k = some a := by
  cases hl : m.cache.lookup key with
  | some val => rw [store_ensure_present key m val hl]; exact h
  | none =>
    rw [store_ensure_absent key m hl]
    have hkk : k ≠ key := by
      intro e; subst e; rw [hl] at h; cases h
    simp only
    rw [AList.lookup_insert_ne hkk]
    exact h

end Store

namespace StoreSys
variable {K V : Type} [DecidableEq K]

theorem storesys_readInv_step (b t : Int) (op : StoreOp K) (y : StoreSys K V)
    (hop : op.isRead = true) (h : y.ReadInv b) (hle : b ≤ t) : (y.step t op).ReadInv t := by
  obtain ⟨hk, hp⟩ := h
  cases op with
  | Build force key opts =>
    simp only [StoreOp.isRead, Bool.not_eq_true'] at hop
    subst hop
    refine ⟨Store.store_keyedInv_Build b t key opts y.store hk hle, fun task ht => ?_⟩
    simp only [step, List.mem_append, Option.mem_toList, Option.mem_def] at ht ⊢
    rw [Store.store_Build_cache]
    rcases ht with ht | ht
    · exact Store.store_ensure_keeps key y.store _ _ (hp task ht)
    · obtain ⟨e1, e2⟩ := Store.store_Build_task key opts t y.store task ht
      rw [e1, e2]
      exact Store.store_ensure_lookup key y.store
  | run i =>
    simp only [step]
    cases hi : y.pending[i]? with
    | none => exact ⟨Store.store_keyedInv_mono b t _ hk hle, hp⟩
    | some task =>
      have hmem : task ∈ y.pending := List.getElem?_mem hi
      refine ⟨Store.store_keyedInv_detached b t task y.store hk (hp task hmem) hle,
        fun task2 ht2 => ?_⟩
      simp only at ht2 ⊢
      have hm2 : task2 ∈ y.pending := List.mem_of_mem_eraseIdx ht2
      have hc : (y.store.detached task t).cache = y.store.cache := by
        simp only [Store.detached, Store.lockedRebuild]
        split <;> simp
      rw [hc]
      exact hp task2 hm2
  | check => simp [StoreOp.isRead] at hop

theorem storesys_readInv_run (ops : List (Int × StoreOp K)) :
    ∀ (b t : Int) (y : StoreSys K V), y.ReadInv b →
      List.Chain (· ≤ ·) b (ops.map Prod.fst ++ [t]) →
      (∀ o ∈ ops, o.2.isRead = true) → (runWith step ops y).ReadInv t := by
  induction ops with
  | nil =>
    intro b t y h hc _
    simp only [List.map_nil, List.nil_append, List.chain_cons] at hc
    exact ⟨Store.store_keyedInv_mono b t _ h.1 hc.1, h.2⟩
  | cons o rest ih =>
    intro b t y h hc hall
    simp only [List.map_cons, List.cons_append, List.chain_cons] at hc
    simp only [runWith, List.foldl_cons]
    exact ih o.1 t _
      (storesys_readInv_step b o.1 o.2 y (hall o (List.mem_cons_self o rest)) h hc.1)
      hc.2 (fun x hx => hall x (List.mem_cons_of_mem o hx))

theorem storesys_run_fields (ops : List (Int × StoreOp K)) :
    ∀ y : StoreSys K V, (runWith step ops y).store.expire = y.store.expire ∧
      (runWith step ops y).store.source = y.store.source := by
  induction ops with
  | nil => intro y; exact ⟨rfl, rfl⟩
  | cons o tl ih =>
    intro y
    simp only [runWith, List.foldl_cons]
    have h1 := ih (y.step o.1 o.2)
    simp only [runWith] at h1
    have h2 : (y.step o.1 o.2).store.expire = y.store.expire ∧
        (y.step o.1 o.2).store.source = y.store.source := by
      cases o.2 with
      | Build force key opts =>
        simp only [step, Store.Build, Store.lockedRebuild]
        cases force <;> (repeat' split) <;> simp
      | run i =>
        simp only [step]
        cases y.pending[i]? with
        | none => exact ⟨rfl, rfl⟩
        | some task =>
          simp only [Store.detached, Store.lockedRebuild]
          split <;> simp
      | check => exact ⟨rfl, rfl⟩
    exact ⟨h1.1.trans h2.1, h1.2.trans h2.2⟩

/-- What `Get(key)` returns at `t >= 0` from a store that has only been read:
the latest invocation for the key is no older than the ttl plus the
pre-build window, and the value is the latest non-nil value built for the
key. -/
theorem storesys_read_fresh (key : K) (opts : List Iface) (t : Int) (m : Store K V)
    (h : m.KeyedInv t) (ht : 0 ≤ t) (httl : 0 ≤ m.expire) :
    (∃ T, lastCallAt key (m.Get key opts t).2.1.calls = some T ∧
      t - (m.expire + prebuildDuration m.expire) ≤ T ∧ T ≤ t) ∧
    (m.Get key opts t).1 =
      some (lastValueFor m.source key (m.Get key opts t).2.1.calls,
        (lastValueFor m.source key (m.Get key opts t).2.1.calls).isSome) := by
  have hp := prebuildDuration_pos m.expire
  have hinv := Store.store_keyedInv_Build t t key opts m h le_rfl
  have hl := Store.store_Build_lookup false key opts t m
  obtain ⟨hv, htm⟩ := hinv.2.2.2 key _ hl
  have hsrc : (m.Build false key opts t).1.source = m.source := by
    simp only [Store.Build, Store.lockedRebuild]
    (repeat' split) <;> simp
  have hexp : (m.Build false key opts t).1.expire = m.expire :=
    (Store.store_Build_cases t false key opts m).1
  rw [Store.store_Get_eq]
  simp only
  rw [hsrc] at hv
  rw [hexp] at htm
  refine ⟨?_, by rw [hv]⟩
  rcases Store.store_Build_shape key opts t m with ⟨hs, _⟩ | ⟨hs, hu⟩
  · refine ⟨t, ?_, by omega, le_rfl⟩
    rw [hs]
    simp [lastCallAt]
  · rcases htm with ⟨_, h0⟩ | ⟨T, hT, hb, he⟩
    · rw [hs] at h0; omega
    · rw [hs] at he
      exact ⟨T, hT, by omega, hb⟩

/-- After a read-only history on a fresh store with `ttl >= 0`, what
`Get(key)` returns at `t`. -/
theorem storesys_read_bound (source : Nat → K → List Iface → Option V) (ttl : Int)
    (httl : 0 ≤ ttl) (ops : List (Int × StoreOp K)) (t : Int) (key : K) (opts : List Iface)
    (hall : ∀ o ∈ ops, o.2.isRead = true)
    (hc : List.Chain (· ≤ ·) 0 (ops.map Prod.fst ++ [t])) :
    (∃ T, lastCallAt key
        ((runWith step ops ⟨Store.NewStore source ttl, []⟩).store.Get key opts t).2.1.calls
          = some T ∧
      t - (ttl + prebuildDuration ttl) ≤ T ∧ T ≤ t) ∧
    ((runWith step ops ⟨Store.NewStore source ttl, []⟩).store.Get key opts t).1 =
      some (lastValueFor source key
          ((runWith step ops ⟨Store.NewStore source ttl, []⟩).store.Get key opts t).2.1.calls,
        (lastValueFor source key
          ((runWith step ops
            ⟨Store.NewStore source ttl, []⟩).store.Get key opts t).2.1.calls).isSome) := by
  have ht := chain_append_last _ 0 t hc
  have hinv := storesys_readInv_run ops 0 t ⟨Store.NewStore source ttl, []⟩
    ⟨Store.store_keyedInv_new source ttl, fun task h => by simp at h⟩ hc hall
  obtain ⟨hx, hsrc⟩ := storesys_run_fields ops ⟨Store.NewStore source ttl, []⟩
  have hx2 : (runWith step ops ⟨Store.NewStore source ttl, []⟩).store.expire = ttl := hx
  have hsrc2 : (runWith step ops ⟨Store.NewStore source ttl, []⟩).store.source = source := hsrc
  have h := storesys_read_fresh key opts t _ hinv.1 ht (by rw [hx2]; exact httl)
  rw [hx2, hsrc2] at h
  exact h

end StoreSys

/-! ## C14: how old a returned payload can be -/

/-- C14, counterexample. The source yields `1 ↦ 7` once and nil afterwards,
ttl 10.  After a read at 0, `Get(1)` at 100 rebuilds, gets nil and returns
the value 7 built at clock reading 0, earlier than `100 - (10 + 1)`; the
only other invocation, at 100, returned nil.  With a negative ttl the bound
lies in the future of the read itself. -/
theorem stale_payload_outlives_ttl :
    ((runWith MapCache.step [(0, .Build [])] (MapCache.NewMap flakyMapSource 10)).Get 1 100).1
      = some 7 ∧
    ((runWith MapCache.step [(0, .Build [])]
        (MapCache.NewMap flakyMapSource 10)).Get 1 100).2.1.calls = [100, 0] ∧
    (flakyMapSource 0).isSome = true ∧ (flakyMapSource 1).isSome = false ∧
    ¬ (100 - (10 + prebuildDuration 10) ≤ (0 : Int)) ∧
    ((MapCache.NewMap flakyMapSource (-20)).Get 1 0).2.1.calls = [0] ∧
    ¬ (0 - (-20 + prebuildDuration (-20)) ≤ (0 : Int)) := by
  decide

/-- C14, amended. With `ttl >= 0`, for every sequence of non-forced reads
(and completions of their goroutines, nothing else in between) on a freshly
constructed List, Map, Set or Store, at non-negative, non-decreasing clock
readings, and every behaviour of the source: when a read returns at `t`, the
latest builder invocation (of a Store: the latest for the key read) was made
at some `T` with `t - (ttl + prebuildDuration(ttl)) <= T <= t`.  The payload
the read returns (the slice, the binding of the key, the membership of the
element, the value of the key) is the result of the latest invocation that
returned a non-nil result: that of the latest invocation when it is non-nil,
and otherwise an older one, however old; when no invocation has returned a
non-nil result the read returns the empty payload (`Store.Get`:
`(nil, false)`).  The first three conjuncts and the fourth (a Store read on
one key, each goroutine joined before the next call) state the bound and the
non-nil case; the next three give the payload of List, Map and Set after any
history of invocations; the last covers read workloads over any keys of a
Store, with goroutines completing in any order. -/
theorem read_returns_recent_build (K V : Type) [DecidableEq K] (ttl : Int) (httl : 0 ≤ ttl) :
    (∀ (source : Nat → Option (List V)) (ops : List (Int × ListOp)) (t : Int),
      (∀ o ∈ ops, o.2.isRead = true) →
      List.Chain (· ≤ ·) 0 (ops.map Prod.fst ++ [t]) →
      ∃ T rest,
        ((runWith ListCache.step ops (ListCache.NewList source ttl)).Get t).2.1.calls
          = T :: rest ∧
        t - (ttl + prebuildDuration ttl) ≤ T ∧ T ≤ t ∧
        ∀ r, source rest.length = some r →
          ((runWith ListCache.step ops (ListCache.NewList source ttl)).Get t).1 = r ∧
          ((runWith ListCache.step ops (ListCache.NewList source ttl)).Copy t).1 = r) ∧
    (∀ (source : Nat → Option (GoMap K V)) (ops : List (Int × MapOp K V)) (t : Int) (key : K),
      (∀ o ∈ ops, o.2.isRead = true) →
      List.Chain (· ≤ ·) 0 (ops.map Prod.fst ++ [t]) →
      ∃ T rest,
        ((runWith MapCache.step ops (MapCache.NewMap source ttl)).Get key t).2.1.calls
          = T :: rest ∧
        t - (ttl + prebuildDuration ttl) ≤ T ∧ T ≤ t ∧
        ∀ r, source rest.length = some r →
          ((runWith MapCache.step ops (MapCache.NewMap source ttl)).Get key t).1
            = r.lookup key) ∧
    (∀ (source : Nat → Option (List K)) (ops : List (Int × SetOp K)) (t : Int) (key : K),
      (∀ o ∈ ops, o.2.isRead = true) →
      List.Chain (· ≤ ·) 0 (ops.map Prod.fst ++ [t]) →
      ∃ T rest,
        ((runWith SetCache.step ops (SetCache.NewSet source ttl)).Has key t).2.1.calls
          = T :: rest ∧
        t - (ttl + prebuildDuration ttl) ≤ T ∧ T ≤ t ∧
        ∀ r, source rest.length = some r →
          (((runWith SetCache.step ops (SetCache.NewSet source ttl)).Has key t).1 = true ↔
            key ∈ r)) ∧
    (∀ (source : Nat → K → List Iface → Option V) (key : K) (opts : List Iface)
        (cs : List (Int × Int)) (t : Int),
      List.Chain (· ≤ ·) 0 (readings cs ++ [t]) →
      ∃ T o rest,
        (((Store.NewStore source ttl).getSeq key opts cs).Get key opts t).2.1.calls
          = ⟨T, key, o⟩ :: rest ∧
        t - (ttl + prebuildDuration ttl) ≤ T ∧ T ≤ t ∧
        ∀ r, source rest.length key o = some r →
          (((Store.NewStore source ttl).getSeq key opts cs).Get key opts t).1
            = some (some r, true)) ∧
    (∀ (source : Nat → Option (List V)) (ops : List (Int × ListOp)) (t : Int),
      (∀ o ∈ ops, o.2.isRead = true) →
      (∀ k r,
        k < ((runWith ListCache.step ops
            (ListCache.NewList source ttl)).Get t).2.1.calls.length →
        source k = some r →
        (∀ j, k < j →
          j < ((runWith ListCache.step ops
            (ListCache.NewList source ttl)).Get t).2.1.calls.length →
          source j = none) →
        ((runWith ListCache.step ops (ListCache.NewList source ttl)).Get t).1 = r ∧
        ((runWith ListCache.step ops (ListCache.NewList source ttl)).Copy t).1 = r) ∧
      ((∀ j,
          j < ((runWith ListCache.step ops
            (ListCache.NewList source ttl)).Get t).2.1.calls.length →
          source j = none) →
        ((runWith ListCache.step ops (ListCache.NewList source ttl)).Get t).1 = [] ∧
        ((runWith ListCache.step ops (ListCache.NewList source ttl)).Copy t).1 = [])) ∧
    (∀ (source : Nat → Option (GoMap K V)) (ops : List (Int × MapOp K V)) (t : Int) (key : K),
      (∀ o ∈ ops, o.2.isRead = true) →
      (∀ k r,
        k < ((runWith MapCache.step ops
            (MapCache.NewMap source ttl)).Get key t).2.1.calls.length →
        source k = some r →
        (∀ j, k < j →
          j < ((runWith MapCache.step ops
            (MapCache.NewMap source ttl)).Get key t).2.1.calls.length →
          source j = none) →
        ((runWith MapCache.step ops (MapCache.NewMap source ttl)).Get key t).1 = r.lookup key) ∧
      ((∀ j,
          j < ((runWith MapCache.step ops
            (MapCache.NewMap source ttl)).Get key t).2.1.calls.length →
          source j = none) →
        ((runWith MapCache.step ops (MapCache.NewMap source ttl)).Get key t).1 = none)) ∧
    (∀ (source : Nat → Option (List K)) (ops : List (Int × SetOp K)) (t : Int) (key : K),
      (∀ o ∈ ops, o.2.isRead = true) →
      (∀ k r,
        k < ((runWith SetCache.step ops
            (SetCache.NewSet source ttl)).Has key t).2.1.calls.length →
        source k = some r →
        (∀ j, k < j →
          j < ((runWith SetCache.step ops
            (SetCache.NewSet source ttl)).Has key t).2.1.calls.length →
          source j = none) →
        (((runWith SetCache.step ops (SetCache.NewSet source ttl)).Has key t).1 = true ↔
          key ∈ r)) ∧
      ((∀ j,
          j < ((runWith SetCache.step ops
            (SetCache.NewSet source ttl)).Has key t).2.1.calls.length →
          source j = none) →
        ((runWith SetCache.step ops (SetCache.NewSet source ttl)).Has key t).1 = false)) ∧
    (∀ (source : Nat → K → List Iface → Option V) (ops : List (Int × StoreOp K)) (t : Int)
        (key : K) (opts : List Iface),
      (∀ o ∈ ops, o.2.isRead = true) →
      List.Chain (· ≤ ·) 0 (ops.map Prod.fst ++ [t]) →
      (∃ T,
        lastCallAt key
          ((runWith StoreSys.step ops
          ⟨Store.NewStore source ttl, []⟩).store.Get key opts t).2.1.calls = some T ∧
        t - (ttl + prebuildDuration ttl) ≤ T ∧ T ≤ t) ∧
      ((runWith StoreSys.step ops
          ⟨Store.NewStore source ttl, []⟩).store.Get key opts t).1 =
        some (lastValueFor source key
          ((runWith StoreSys.step ops
          ⟨Store.NewStore source ttl, []⟩).store.Get key opts t).2.1.calls,
          (lastValueFor source key
            ((runWith StoreSys.step ops
          ⟨Store.NewStore source ttl, []⟩).store.Get key opts t).2.1.calls).isSome) ∧
      (∀ pre c rest,
        ((runWith StoreSys.step ops
          ⟨Store.NewStore source ttl, []⟩).store.Get key opts t).2.1.calls = pre ++ c :: rest →
        c.key = key → (∀ d ∈ pre, d.key ≠ key) →
        t - (ttl + prebuildDuration ttl) ≤ c.at_ ∧ c.at_ ≤ t ∧
        (∀ r, source rest.length key c.opts = some r →
          ((runWith StoreSys.step ops
          ⟨Store.NewStore source ttl, []⟩).store.Get key opts t).1 = some (some r, true)) ∧
        (source rest.length key c.opts = none →
          ((runWith StoreSys.step ops
          ⟨Store.NewStore source ttl, []⟩).store.Get key opts t).1 =
            some (lastValueFor source key rest, (lastValueFor source key rest).isSome)))) := by
  refine ⟨fun source ops t hall hc => ?_, fun source ops t key hall hc => ?_,
    fun source ops t key hall hc => ?_, fun source key opts cs t hc => ?_,
    fun source ops t hall => ?_, fun source ops t key hall => ?_,
    fun source ops t key hall => ?_, fun source ops t key opts hall hc => ?_⟩
  · obtain ⟨T, rest, h1, h2, h3, h4⟩ := ListCache.list_read_bound source ttl httl ops t hall hc
    exact ⟨T, rest, h1, h2, h3, fun r hr => ⟨h4 r hr, h4 r hr⟩⟩
  · obtain ⟨T, rest, h1, h2, h3, h4⟩ := MapCache.map_read_bound source ttl httl ops t hall hc
    refine ⟨T, rest, h1, h2, h3, fun r hr => ?_⟩
    simp only [MapCache.Get]
    rw [h4 r hr, MapCache.map_copyMap_lookup]
  · obtain ⟨T, rest, h1, h2, h3, h4⟩ := SetCache.set_read_bound source ttl httl ops t hall hc
    refine ⟨T, rest, h1, h2, h3, fun r hr => ?_⟩
    simp only [SetCache.Has]
    rw [h4 r hr, SetCache.set_fromSlice_lookup]
  · have ht := chain_append_last _ 0 t hc
    have hinv := Store.store_readInv_getSeq key opts cs 0 t (Store.NewStore source ttl)
      (Or.inl (by simp [Store.NewStore])) le_rfl hc
    obtain ⟨hx, hsrc⟩ := Store.store_getSeq_fields key opts cs (Store.NewStore source ttl)
    have hx2 : ((Store.NewStore source ttl).getSeq key opts cs).expire = ttl := hx
    have hsrc2 : ((Store.NewStore source ttl).getSeq key opts cs).source = source := hsrc
    obtain ⟨T, o, rest, h1, h2, h3, h4⟩ := Store.store_read_fresh key opts t _ hinv ht
      (by rw [hx2]; exact httl)
    rw [hx2] at h2
    rw [hsrc2] at h4
    exact ⟨T, o, rest, h1, h2, h3, h4⟩
  · have hp := ListCache.list_read_payload source ttl ops t hall
    simp only [ListCache.Get, ListCache.Copy]
    refine ⟨fun k r hk hs hnil => ?_, fun hnil => ?_⟩
    · rw [lastResult_eq_some source k r hs _ hk hnil] at hp
      exact ⟨hp, hp⟩
    · rw [lastResult_eq_none source _ hnil] at hp
      exact ⟨hp, hp⟩
  · have hp := MapCache.map_read_payload source ttl ops t hall
    simp only [MapCache.Get]
    refine ⟨fun k r hk hs hnil => ?_, fun hnil => ?_⟩
    · rw [lastResult_eq_some source k r hs _ hk hnil] at hp
      rw [hp]
      exact MapCache.map_copyMap_lookup r key
    · rw [lastResult_eq_none source _ hnil] at hp
      rw [hp]
      rfl
  · have hp := SetCache.set_read_payload source ttl ops t hall
    simp only [SetCache.Has]
    refine ⟨fun k r hk hs hnil => ?_, fun hnil => ?_⟩
    · rw [lastResult_eq_some source k r hs _ hk hnil] at hp
      rw [hp]
      exact SetCache.set_fromSlice_lookup r key
    · rw [lastResult_eq_none source _ hnil] at hp
      rw [hp]
      rfl
  · obtain ⟨⟨T, hT, hlo, hhi⟩, hval⟩ :=
      StoreSys.storesys_read_bound source ttl httl ops t key opts hall hc
    refine ⟨⟨T, hT, hlo, hhi⟩, hval, fun pre c rest hcalls hck hpre => ?_⟩
    rw [hcalls] at hT hval
    rw [lastCallAt_append key (c :: rest) pre hpre] at hT
    rw [lastValueFor_append source key (c :: rest) pre hpre] at hval
    simp only [lastCallAt, hck, if_true, Option.some.injEq] at hT
    simp only [lastValueFor, hck, if_true] at hval
    subst hT
    refine ⟨hlo, hhi, fun r hr => ?_, fun hn => ?_⟩
    · rw [hval, hr]
      rfl
    · rw [hval, hn]

/-- Witness for C14 (amended).  The sample list source (`[1, 2, 3]`, then
`[4, 5, 6]`) with ttl 10, read at 0 and at 9, the goroutine of the second read
completing at 9: the read at 12 returns `[4, 5, 6]`, built at 9.  The map
whose source yields `1 ↦ 7` once and nil afterwards, read at 0: `Get(1)` at
100 rebuilds, gets nil and returns the 7 of invocation 0.  The store whose
source yields nil from its third invocation on, keys 5 and 7 read at 0:
`Get(5)` at 100 invokes the builder at 100, gets nil and returns the 105
built at 0. -/
theorem read_returns_recent_build_witness :
    (∃ T rest,
      ((runWith ListCache.step [(0, .Build []), (9, .Build []), (9, .detached 10)]
        (ListCache.NewList sampleListSource 10)).Get 12).2.1.calls = T :: rest ∧
      12 - (10 + prebuildDuration 10) ≤ T ∧ T ≤ 12 ∧
      ∀ r, sampleListSource rest.length = some r →
        ((runWith ListCache.step [(0, .Build []), (9, .Build []), (9, .detached 10)]
        (ListCache.NewList sampleListSource 10)).Get 12).1 = r ∧
        ((runWith ListCache.step [(0, .Build []), (9, .Build []), (9, .detached 10)]
        (ListCache.NewList sampleListSource 10)).Copy 12).1 = r) ∧
    ((runWith ListCache.step [(0, .Build []), (9, .Build []), (9, .detached 10)]
        (ListCache.NewList sampleListSource 10)).Get 12).1 = [4, 5, 6] ∧
    ((runWith ListCache.step [(0, .Build []), (9, .Build []), (9, .detached 10)]
        (ListCache.NewList sampleListSource 10)).Get 12).2.1.calls = [9, 0] ∧
    ((runWith MapCache.step [(0, .Build [])] (MapCache.NewMap flakyMapSource 10)).Get 1 100).1 =
      (AList.insert 1 7 (∅ : GoMap Nat Nat)).lookup 1 ∧
    ((runWith MapCache.step [(0, .Build [])] (MapCache.NewMap flakyMapSource 10)).Get 1 100).1 = some 7 ∧
    ((runWith MapCache.step [(0, .Build [])] (MapCache.NewMap flakyMapSource 10)).Get 1 100).2.1.calls = [100, 0] ∧
    (100 - (10 + prebuildDuration 10) ≤ (100 : Int) ∧ (100 : Int) ≤ 100 ∧
      (∀ r, flakyStoreSource 2 5 [Iface.slice []] = some r →
        ((runWith StoreSys.step [(0, .Build false 5 []), (0, .Build false 7 [])]
        ⟨Store.NewStore flakyStoreSource 10, []⟩).store.Get 5 [] 100).1 = some (some r, true)) ∧
      (flakyStoreSource 2 5 [Iface.slice []] = none →
        ((runWith StoreSys.step [(0, .Build false 5 []), (0, .Build false 7 [])]
        ⟨Store.NewStore flakyStoreSource 10, []⟩).store.Get 5 [] 100).1 =
          some (lastValueFor flakyStoreSource 5
              [⟨0, 7, [Iface.slice []]⟩, ⟨0, 5, [Iface.slice []]⟩],
            (lastValueFor flakyStoreSource 5
              [⟨0, 7, [Iface.slice []]⟩, ⟨0, 5, [Iface.slice []]⟩]).isSome))) ∧
    ((runWith StoreSys.step [(0, .Build false 5 []), (0, .Build false 7 [])]
        ⟨Store.NewStore flakyStoreSource 10, []⟩).store.Get 5 [] 100).1 = some (some 105, true) ∧
    ((runWith StoreSys.step [(0, .Build false 5 []), (0, .Build false 7 [])]
        ⟨Store.NewStore flakyStoreSource 10, []⟩).store.Get 5 [] 100).2.1.calls.map (fun c => (c.at_, c.key)) = [(100, 5), (0, 7), (0, 5)] :=
  ⟨(read_returns_recent_build Nat Nat 10 (by decide)).1 sampleListSource
      [(0, .Build []), (9, .Build []), (9, .detached 10)] 12 (by decide) (by simp),
   by decide, by decide,
   ((read_returns_recent_build Nat Nat 10 (by decide)).2.2.2.2.2.1 flakyMapSource
      [(0, .Build [])] 100 1 (by decide)).1 0 (AList.insert 1 7 ∅) (by decide) rfl
      (fun j h1 _ => by simp only [flakyMapSource]; rw [if_neg (by omega)]),
   by decide, by decide,
   ((read_returns_recent_build Nat Nat 10 (by decide)).2.2.2.2.2.2.2 flakyStoreSource
      [(0, .Build false 5 []), (0, .Build false 7 [])] 100 5 [] (by decide) (by simp)).2.2
      [] ⟨100, 5, [Iface.slice []]⟩ [⟨0, 7, [Iface.slice []]⟩, ⟨0, 5, [Iface.slice []]⟩]
      rfl rfl (by simp),
   by decide, by decide⟩

/-! ## The loops of the set-algebra reads -/

/-- The loop `for v in l: if p v: result = append(result, v)` appends the
elements of `l` that satisfy `p`, in order. -/
theorem foldl_append_if {α : Type} (p : α → Bool) (l : List α) (init : List α) :
    l.foldl (fun result v => if p v then result ++ [v] else result) init =
      init ++ l.filter p := by
  induction l generalizing init with
  | nil => simp
  | cons hd tl ih =>
    simp only [List.foldl_cons]
    rw [ih]
    by_cases h : p hd <;> simp [h, List.filter_cons]

/-- The loop `for v in l: if !p v: result = append(result, v)`. -/
theorem foldl_append_unless {α : Type} (p : α → Bool) (l : List α) (init : List α) :
    l.foldl (fun result v => if p v then result else result ++ [v]) init =
      init ++ l.filter (fun v => !p v) := by
  induction l generalizing init with
  | nil => simp
  | cons hd tl ih =>
    simp only [List.foldl_cons]
    rw [ih]
    by_cases h : p hd <;> simp [h, List.filter_cons]

theorem foldl_append_all {α : Type} (l : List α) (init : List α) :
    l.foldl (fun result k => result ++ [k]) init = init ++ l := by
  induction l generalizing init with
  | nil => simp
  | cons hd tl ih => simp only [List.foldl_cons]; rw [ih]; simp

namespace SetCache
variable {K : Type} [DecidableEq K]

theorem set_Intersect_eq (arr : List K) (now : Int) (s : SetCache K) :
    s.Intersect arr now =
      (arr.filter (fun v => ((s.Build [] now).1.cache.lookup v).isSome),
        (s.Build [] now).1, (s.Build [] now).2) := by
  simp only [Intersect]
  rw [foldl_append_if]
  simp

theorem set_Union_eq (arr : List K) (now : Int) (s : SetCache K) :
    s.Union arr now =
      ((s.Build [] now).1.cache.keys ++
          arr.filter (fun v => !((s.Build [] now).1.cache.lookup v).isSome),
        (s.Build [] now).1, (s.Build [] now).2) := by
  simp only [Union]
  rw [foldl_append_unless, foldl_append_all]
  simp

theorem set_Diff_eq (arr : List K) (now : Int) (s : SetCache K) :
    s.Diff arr now =
      ((s.Build [] now).1.cache.keys.filter (fun k => !decide (k ∈ arr)),
        (s.Build [] now).1, (s.Build [] now).2) := by
  simp only [Diff]
  rw [foldl_append_unless]
  have h : ∀ k, ((arr.foldl (fun c v => c.insert v ()) (∅ : GoSet K)).lookup k).isSome
      = decide (k ∈ arr) := by
    intro k
    have := set_fromSlice_lookup arr k
    unfold fromSlice at this
    by_cases hk : k ∈ arr
    · simp [hk, this.mpr hk]
    · have h2 : ¬ ((arr.foldl (fun c v => c.insert v ()) (∅ : GoSet K)).lookup k).isSome = true :=
        fun h => hk (this.mp h)
      simp only [Bool.not_eq_true] at h2
      simp [hk, h2]
  simp only [h, List.nil_append]

theorem set_lookup_isSome_iff (c : GoSet K) (k : K) :
    (c.lookup k).isSome = true ↔ k ∈ c.keys := by
  rw [AList.lookup_isSome, AList.mem_keys]

omit [DecidableEq K] in
theorem set_size_eq_keys (c : GoSet K) : c.entries.length = c.keys.length := by
  simp [AList.keys, List.keys]

end SetCache

/-! ## C15: Set.Intersect -/

/-- C15. `Set.Intersect(arr)` returns the filter of `arr` by membership in
the set as it is after the gate: the members among the elements of `arr`, in
the order and with the repetitions of `arr`.  Its effect on the state is that
of a non-forced `Build`; on a unit well within its ttl it leaves the state
(payload and `expiredAt` included) unchanged and spawns nothing. -/
theorem intersect_is_filter (K : Type) [DecidableEq K] (s : SetCache K) (arr : List K)
    (now : Int) :
    (s.Intersect arr now).1 =
      arr.filter (fun v => ((s.Intersect arr now).2.1.cache.lookup v).isSome) ∧
    (s.Intersect arr now).2 = s.Build [] now ∧
    (prebuildDuration s.expire < s.expiredAt - now →
      (s.Intersect arr now).2.1 = s ∧ (s.Intersect arr now).2.2 = none ∧
      (s.Intersect arr now).1 = arr.filter (fun v => (s.cache.lookup v).isSome)) := by
  rw [SetCache.set_Intersect_eq]
  refine ⟨rfl, rfl, fun h => ?_⟩
  rw [SetCache.set_Build_fresh [] now s rfl h]
  exact ⟨rfl, rfl, rfl⟩

/-- Witness for C15: the sample set `{1}` (expiredAt 100, ttl 10) read at 50
with `[3, 1, 1]` returns `[1, 1]` and is unchanged. -/
theorem intersect_is_filter_witness :
    ((sampleSet.Intersect [3, 1, 1] 50).2.1 = sampleSet ∧
      (sampleSet.Intersect [3, 1, 1] 50).2.2 = none ∧
      (sampleSet.Intersect [3, 1, 1] 50).1 =
        [3, 1, 1].filter (fun v => (sampleSet.cache.lookup v).isSome)) ∧
    (sampleSet.Intersect [3, 1, 1] 50).1 = [1, 1] :=
  ⟨(intersect_is_filter Nat sampleSet [3, 1, 1] 50).2.2 (by decide), by decide⟩

/-! ## C16: Set.Union -/

/-- C16, counterexample. The sample set `{1}` read at 50 with `arr = [3, 3]`:
`Union` returns `[1, 3, 3]`, in which 3 occurs twice. -/
theorem union_repeats_non_members :
    (sampleSet.Union [3, 3] 50).1 = [1, 3, 3] ∧ (sampleSet.Union [3, 3] 50).1.count 3 = 2 ∧
    ¬ (sampleSet.Union [3, 3] 50).1.Nodup := by
  decide

/-- C16, amended. `Set.Union(arr)` returns a slice in which `x` occurs iff
`x` is a member of the set (as it is after the gate) or occurs in `arr`; a
member occurs exactly once and a non-member occurs as often as in `arr`, so
no element occurs more than once when `arr` has no repeated elements. -/
theorem union_membership_and_counts (K : Type) [DecidableEq K] (s s1 : SetCache K)
    (arr result : List K) (now : Int) (task : Option Int)
    (h : s.Union arr now = (result, s1, task)) :
    (s1, task) = s.Build [] now ∧
    (∀ x, x ∈ result ↔ (s1.cache.lookup x).isSome = true ∨ x ∈ arr) ∧
    (∀ x, (s1.cache.lookup x).isSome = true → result.count x = 1) ∧
    (∀ x, (s1.cache.lookup x).isSome = false → result.count x = arr.count x) ∧
    (arr.Nodup → result.Nodup) := by
  rw [SetCache.set_Union_eq] at h
  simp only [Prod.mk.injEq] at h
  obtain ⟨hr, hs, ht⟩ := h
  subst hr
  rw [hs]
  have hmem : ∀ x, (s1.cache.lookup x).isSome = true ↔ x ∈ s1.cache.keys :=
    SetCache.set_lookup_isSome_iff s1.cache
  refine ⟨by rw [← hs, ← ht], fun x => ?_, fun x hx => ?_, fun x hx => ?_, fun hnd => ?_⟩
  · simp only [List.mem_append, List.mem_filter, Bool.not_eq_true', ← hmem]
    by_cases hx : (s1.cache.lookup x).isSome = true
    · simp [hx]
    · simp only [Bool.not_eq_true] at hx
      simp [hx]
  · rw [List.count_append, List.count_eq_one_of_mem s1.cache.keys_nodup ((hmem x).mp hx)]
    have : x ∉ arr.filter (fun v => !(s1.cache.lookup v).isSome) := by
      intro hm
      have h2 := (List.mem_filter.mp hm).2
      simp [hx] at h2
    rw [List.count_eq_zero_of_not_mem this]
  · have hnk : x ∉ s1.cache.keys := by
      rw [← hmem, hx]; simp
    rw [List.count_append, List.count_eq_zero_of_not_mem hnk, Nat.zero_add]
    exact List.count_filter (by simp [hx])
  · rw [List.nodup_append]
    refine ⟨s1.cache.keys_nodup, hnd.filter _, ?_⟩
    intro x hx1 hx2
    simp only [List.mem_filter, Bool.not_eq_true'] at hx2
    have := (hmem x).mpr hx1
    rw [hx2.2] at this
    exact Bool.false_ne_true this

/-- Witness for C16 (amended): the sample set `{1}` read at 50 and united with
`[3, 1, 2]` gives `[1, 3, 2]`. -/
theorem union_membership_and_counts_witness :
    (sampleSet.Union [3, 1, 2] 50).1 = [1, 3, 2] ∧
    ((sampleSet, none) = sampleSet.Build [] 50 ∧
    (∀ x, x ∈ [1, 3, 2] ↔ (sampleSet.cache.lookup x).isSome = true ∨ x ∈ [3, 1, 2]) ∧
    (∀ x, (sampleSet.cache.lookup x).isSome = true → [1, 3, 2].count x = 1) ∧
    (∀ x, (sampleSet.cache.lookup x).isSome = false → [1, 3, 2].count x = [3, 1, 2].count x) ∧
    ([3, 1, 2].Nodup → [1, 3, 2].Nodup)) :=
  ⟨by decide,
   union_membership_and_counts Nat sampleSet sampleSet [3, 1, 2] [1, 3, 2] 50 none rfl⟩

/-! ## C17: Set.Diff -/

/-- C17. `Set.Diff(arr)` returns the members of the set (as it is after the
gate) that do not occur in `arr`, each once; its length is `Size` minus the
number of distinct elements of `arr` that are members. -/
theorem diff_is_set_difference (K : Type) [DecidableEq K] (s s1 : SetCache K)
    (arr result : List K) (now : Int) (task : Option Int)
    (h : s.Diff arr now = (result, s1, task)) :
    (s1, task) = s.Build [] now ∧
    (∀ x, x ∈ result ↔ (s1.cache.lookup x).isSome = true ∧ x ∉ arr) ∧
    result.Nodup ∧
    result.length + (arr.dedup.filter (fun x => (s1.cache.lookup x).isSome)).length =
      s1.Size ∧
    result.length = s1.Size - (arr.dedup.filter (fun x => (s1.cache.lookup x).isSome)).length := by
  rw [SetCache.set_Diff_eq] at h
  simp only [Prod.mk.injEq] at h
  obtain ⟨hr, hs, ht⟩ := h
  subst hr
  rw [hs]
  have hmem : ∀ x, (s1.cache.lookup x).isSome = true ↔ x ∈ s1.cache.keys :=
    SetCache.set_lookup_isSome_iff s1.cache
  have hlen : (s1.cache.keys.filter (fun k => !decide (k ∈ arr))).length +
      (arr.dedup.filter (fun x => (s1.cache.lookup x).isSome)).length = s1.Size := by
    have hsplit := List.length_eq_length_filter_add (l := s1.cache.keys)
      (fun k => decide (k ∈ arr))
    have hperm : (s1.cache.keys.filter (fun k => decide (k ∈ arr))).Perm
        (arr.dedup.filter (fun x => (s1.cache.lookup x).isSome)) := by
      rw [List.perm_ext_iff_of_nodup (s1.cache.keys_nodup.filter _)
        ((List.nodup_dedup arr).filter _)]
      intro a
      simp only [List.mem_filter, decide_eq_true_eq, List.mem_dedup, hmem]
      tauto
    rw [SetCache.Size, SetCache.set_size_eq_keys, hsplit, hperm.length_eq]
    omega
  refine ⟨by rw [← hs, ← ht], fun x => ?_, s1.cache.keys_nodup.filter _, hlen, by omega⟩
  simp only [List.mem_filter, Bool.not_eq_true', decide_eq_false_iff_not, hmem]

/-- Witness for C17: the overlay set rebuilt from `[1, 2, 1]` at clock
reading 5 and diffed with `[1, 1, 7]` gives `[2]`: size 2 minus the one
distinct element of `arr` that is a member. -/
theorem diff_is_set_difference_witness :
    (overlaySet.Diff [1, 1, 7] 5).1 = [2] ∧
    ((overlaySet.Diff [1, 1, 7] 5).1.Nodup ∧
      (overlaySet.Diff [1, 1, 7] 5).1.length =
        (overlaySet.Diff [1, 1, 7] 5).2.1.Size -
          (([1, 1, 7] : List Nat).dedup.filter
            (fun x => ((overlaySet.Diff [1, 1, 7] 5).2.1.cache.lookup x).isSome)).length) :=
  ⟨by decide,
   (diff_is_set_difference Nat overlaySet (overlaySet.Diff [1, 1, 7] 5).2.1 [1, 1, 7]
      (overlaySet.Diff [1, 1, 7] 5).1 5 (overlaySet.Diff [1, 1, 7] 5).2.2 rfl).2.2.1,
   (diff_is_set_difference Nat overlaySet (overlaySet.Diff [1, 1, 7] 5).2.1 [1, 1, 7]
      (overlaySet.Diff [1, 1, 7] 5).1 5 (overlaySet.Diff [1, 1, 7] 5).2.2 rfl).2.2.2.2⟩

/-! ## C18: the pre-build window -/

/-- C18. `prebuildDuration(ttl) = max(1, ttl / 10)` with Go's truncating
division, for every `ttl`; the result is at least 1 for every input, and for
`ttl >= 10` it is `ttl / 10`. -/
theorem prebuildDuration_spec (ttl : Int) :
    prebuildDuration ttl = max 1 (Int.tdiv ttl 10) ∧
    1 ≤ prebuildDuration ttl ∧
    (10 ≤ ttl →
      prebuildDuration ttl = Int.tdiv ttl 10 ∧ prebuildDuration ttl = ttl / 10) := by
  refine ⟨?_, prebuildDuration_pos ttl, fun h => ?_⟩
  · unfold prebuildDuration
    dsimp only
    split
    · rw [max_eq_left (by omega)]
    · rw [max_eq_right (by omega)]
  · have he : Int.tdiv ttl 10 = ttl / 10 := Int.tdiv_eq_ediv (by omega) (by decide)
    unfold prebuildDuration
    dsimp only
    rw [he]
    split
    · omega
    · exact ⟨rfl, rfl⟩

/-- Witness for C18: ttl 25 gives 2 = 25 / 10; ttl 0, 9 and -25 give 1
(Go's `-25 / 10` is `-2`). -/
theorem prebuildDuration_spec_witness :
    (prebuildDuration 25 = Int.tdiv 25 10 ∧ prebuildDuration 25 = 25 / 10) ∧
    prebuildDuration 25 = 2 ∧ prebuildDuration 0 = 1 ∧
    prebuildDuration 9 = 1 ∧ prebuildDuration (-25) = 1 ∧ Int.tdiv (-25) 10 = -2 :=
  ⟨(prebuildDuration_spec 25).2.2 (by decide), by decide, by decide, by decide, by decide,
   by decide⟩

/-! ## C19: the first Get of a key -/

/-- C19. In sequential execution `Store.Get(k)` never dereferences a missing
unit.  On a key without unit it inserts exactly one entry, for `k`, so `Size`
grows by one; every other key keeps its unit, with the same value and
`expiredAt` (every key mapping to an allocated unit, as in every reachable
store).  When the builder returns nil (clock reading `now >= 0`) `Get`
reports `(nil, false)` and the entry stays as a placeholder with value nil
and `expiredAt = now + ttl`. -/
theorem first_get_inserts_placeholder (K V : Type) [DecidableEq K] (m : Store K V) (key : K)
    (opts : List Iface) (now : Int) :
    (m.Get key opts now).1 ≠ none ∧
    (m.cache.lookup key = none →
      (m.Get key opts now).2.1.cache = m.cache.insert key m.next ∧
      (m.Get key opts now).2.1.cache.lookup key = some m.next ∧
      (m.Get key opts now).2.1.Size = m.Size + 1 ∧
      (m.Allocated → ∀ k2 a, k2 ≠ key → m.cache.lookup k2 = some a →
        (m.Get key opts now).2.1.cache.lookup k2 = some a ∧
        (m.Get key opts now).2.1.heap a = m.heap a) ∧
      (0 ≤ now → m.source m.calls.length key [Iface.slice opts] = none →
        (m.Get key opts now).1 = some (none, false) ∧
        (m.Get key opts now).2.1.heap m.next = ⟨now + m.expire, none⟩)) := by
  refine ⟨by rw [Store.store_Get_eq]; simp, fun habs => ?_⟩
  obtain ⟨hc, hs⟩ := Store.store_Get_size_absent key opts now m habs
  refine ⟨hc, by rw [hc]; exact AList.lookup_insert m.cache, hs,
    fun hal k2 a hne hk => Store.store_Get_frame key opts now m habs hal k2 a hne hk,
    fun hnow hnil => ⟨?_, Store.store_Get_placeholder key opts now m habs hnow hnil⟩⟩
  rw [(Store.store_Get_first key opts now m habs hnow).1, hnil]
  rfl

/-- The sample store maps its only key to an allocated unit. -/
theorem sampleStore_allocated : sampleStore.Allocated := by
  intro k a h
  unfold sampleStore at h ⊢
  simp only at h ⊢
  by_cases hk : k = 5
  · subst hk
    rw [AList.lookup_insert] at h
    cases h
    decide
  · rw [AList.lookup_insert_ne hk, AList.lookup_empty] at h
    cases h

/-- Witness for C19: `Get(7)` at clock reading 100 on the sample store, which
holds key 5 only and whose builder returns nil. -/
theorem first_get_inserts_placeholder_witness :
    (sampleStore.Get 7 [] 100).2.1.Size = sampleStore.Size + 1 ∧
    ((sampleStore.Get 7 [] 100).2.1.cache.lookup 5 = some 0 ∧
      (sampleStore.Get 7 [] 100).2.1.heap 0 = sampleStore.heap 0) ∧
    ((sampleStore.Get 7 [] 100).1 = some (none, false) ∧
      (sampleStore.Get 7 [] 100).2.1.heap sampleStore.next =
        ⟨100 + sampleStore.expire, none⟩) :=
  ⟨((first_get_inserts_placeholder Nat Nat sampleStore 7 [] 100).2 rfl).2.2.1,
   ((first_get_inserts_placeholder Nat Nat sampleStore 7 [] 100).2 rfl).2.2.2.1
      sampleStore_allocated 5 0 (by decide) rfl,
   ((first_get_inserts_placeholder Nat Nat sampleStore 7 [] 100).2 rfl).2.2.2.2
      (by decide) rfl⟩

/-! ## Completed builds -/

namespace ListCache

variable {V : Type}

/-- A non-forced `Build` completed at `now` (its goroutine included) leaves
the unit unexpired when the ttl is at least one second. -/
theorem list_BuildJoin_unexpired (force : List Bool) (now : Int) (s : ListCache V)
    (hf : forced force = false) (httl : 1 ≤ s.expire) :
    now < (s.BuildJoin force now now).expiredAt := by
  have hp := prebuildDuration_pos s.expire
  by_cases h : s.expiredAt ≤ now
  · simp only [BuildJoin, list_Build_expired force now s hf h, list_build_expiredAt]
    omega
  · by_cases h1 : s.expiredAt - now ≤ prebuildDuration s.expire
    · have h0 : 0 < s.expiredAt - now := by omega
      simp only [BuildJoin, list_Build_prebuild force now s hf h0 h1, detached,
        list_lockedRebuild_self, list_build_expiredAt]
      omega
    · have h2 : prebuildDuration s.expire < s.expiredAt - now := by omega
      simp only [BuildJoin, list_Build_fresh force now s hf h2]
      omega

end ListCache

namespace MapCache

variable {K V : Type} [DecidableEq K]

/-- A non-forced `Build` completed at `now` (its goroutine included) leaves
the unit unexpired when the ttl is at least one second. -/
theorem map_BuildJoin_unexpired (force : List Bool) (now : Int) (m : MapCache K V)
    (hf : forced force = false) (httl : 1 ≤ m.expire) :
    now < (m.BuildJoin force now now).expiredAt := by
  have hp := prebuildDuration_pos m.expire
  by_cases h : m.expiredAt ≤ now
  · simp only [BuildJoin, map_Build_expired force now m hf h, map_build_expiredAt]
    omega
  · by_cases h1 : m.expiredAt - now ≤ prebuildDuration m.expire
    · have h0 : 0 < m.expiredAt - now := by omega
      simp only [BuildJoin, map_Build_prebuild force now m hf h0 h1, detached,
        map_lockedRebuild_self, map_build_expiredAt]
      omega
    · have h2 : prebuildDuration m.expire < m.expiredAt - now := by omega
      simp only [BuildJoin, map_Build_fresh force now m hf h2]
      omega

end MapCache

namespace SetCache

variable {K : Type} [DecidableEq K]

/-- A non-forced `Build` completed at `now` (its goroutine included) leaves
the unit unexpired when the ttl is at least one second. -/
theorem set_BuildJoin_unexpired (force : List Bool) (now : Int) (s : SetCache K)
    (hf : forced force = false) (httl : 1 ≤ s.expire) :
    now < (s.BuildJoin force now now).expiredAt := by
  have hp := prebuildDuration_pos s.expire
  by_cases h : s.expiredAt ≤ now
  · simp only [BuildJoin, set_Build_expired force now s hf h, set_build_expiredAt]
    omega
  · by_cases h1 : s.expiredAt - now ≤ prebuildDuration s.expire
    · have h0 : 0 < s.expiredAt - now := by omega
      simp only [BuildJoin, set_Build_prebuild force now s hf h0 h1, detached,
        set_lockedRebuild_self, set_build_expiredAt]
      omega
    · have h2 : prebuildDuration s.expire < s.expiredAt - now := by omega
      simp only [BuildJoin, set_Build_fresh force now s hf h2]
      omega

end SetCache
namespace Store
variable {K V : Type} [DecidableEq K]

/-- A non-forced `Store.Build` completed at `now` leaves the unit of the key
unexpired when the ttl is at least one second. -/
theorem store_BuildJoin_unexpired (key : K) (opts : List Iface) (now : Int) (m : Store K V)
    (httl : 1 ≤ m.expire) :
    now < ((m.BuildJoin false key opts now now).heap (m.ensure key).1).expiredAt := by
  have hp := prebuildDuration_pos m.expire
  by_cases h : ((m.ensure key).2.heap (m.ensure key).1).expiredAt ≤ now
  · simp only [BuildJoin, store_Build_expired key opts now m h, store_build_heap_expiredAt,
      store_ensure_expire]
    omega
  · by_cases h1 : ((m.ensure key).2.heap (m.ensure key).1).expiredAt - now ≤
        prebuildDuration m.expire
    · have h0 : 0 < ((m.ensure key).2.heap (m.ensure key).1).expiredAt - now := by omega
      simp only [BuildJoin, store_Build_prebuild key opts now m h0 h1, detached,
        store_lockedRebuild_self, store_build_heap_expiredAt, store_ensure_expire]
      omega
    · have h2 : prebuildDuration m.expire <
          ((m.ensure key).2.heap (m.ensure key).1).expiredAt - now := by omega
      simp only [BuildJoin, store_Build_fresh key opts now m h2]
      omega

theorem store_BuildJoin_lookup (key : K) (opts : List Iface) (now later : Int)
    (m : Store K V) :
    (m.BuildJoin false key opts now later).cache.lookup key = some (m.ensure key).1 := by
  have hl := store_Build_lookup false key opts now m
  simp only [BuildJoin]
  rcases hb : m.Build false key opts now with ⟨m1, task⟩
  rw [hb] at hl
  cases task with
  | none => exact hl
  | some t =>
    simp only [detached, lockedRebuild]
    split
    · simpa using hl
    · exact hl

end Store

/-! ## C20: a completed Build leaves the unit unexpired -/

/-- C20. For every ttl >= 1, every state and every clock reading `now`: once
a non-forced `Build` at `now` has completed, its goroutine (when it spawned
one) having run at `now`, the unit's `expiredAt` is greater than `now`.  For
the Store the unit is the one the key maps to afterwards. -/
theorem build_leaves_unit_unexpired (K V : Type) [DecidableEq K] (now : Int) :
    (∀ (s : ListCache V) (force : List Bool), forced force = false → 1 ≤ s.expire →
      now < (s.BuildJoin force now now).expiredAt) ∧
    (∀ (m : MapCache K V) (force : List Bool), forced force = false → 1 ≤ m.expire →
      now < (m.BuildJoin force now now).expiredAt) ∧
    (∀ (s : SetCache K) (force : List Bool), forced force = false → 1 ≤ s.expire →
      now < (s.BuildJoin force now now).expiredAt) ∧
    (∀ (m : Store K V) (key : K) (opts : List Iface), 1 ≤ m.expire →
      ∃ val, (m.BuildJoin false key opts now now).cache.lookup key = some val ∧
        now < ((m.BuildJoin false key opts now now).heap val).expiredAt) :=
  ⟨fun s force hf h => ListCache.list_BuildJoin_unexpired force now s hf h,
   fun m force hf h => MapCache.map_BuildJoin_unexpired force now m hf h,
   fun s force hf h => SetCache.set_BuildJoin_unexpired force now s hf h,
   fun m key opts h => ⟨(m.ensure key).1, Store.store_BuildJoin_lookup key opts now now m,
     Store.store_BuildJoin_unexpired key opts now m h⟩⟩

/-- Witness for C20: the sample list (expiredAt 100, ttl 10) read at 100, at
99 and at 50 ends with `expiredAt` 110, 109 and 100. -/
theorem build_leaves_unit_unexpired_witness :
    ((100 : Int) < (sampleList.BuildJoin [] 100 100).expiredAt ∧
      (99 : Int) < (sampleList.BuildJoin [] 99 99).expiredAt ∧
      (50 : Int) < (sampleList.BuildJoin [] 50 50).expiredAt) ∧
    ((sampleList.BuildJoin [] 100 100).expiredAt = 110 ∧
      (sampleList.BuildJoin [] 99 99).expiredAt = 109 ∧
      (sampleList.BuildJoin [] 50 50).expiredAt = 100) :=
  ⟨⟨(build_leaves_unit_unexpired Nat Nat 100).1 sampleList [] rfl (by decide),
    (build_leaves_unit_unexpired Nat Nat 99).1 sampleList [] rfl (by decide),
    (build_leaves_unit_unexpired Nat Nat 50).1 sampleList [] rfl (by decide)⟩,
   by decide, by decide, by decide⟩

end GoCache
